import Mathlib

/-!
# Simulation-Statistical-Modeling: lab_01 and lab_02

A shallow embedding of `lab_01/trafimau_lab_01.cpp` (uniform generators and
goodness-of-fit tests) and of `lab_02/main.cpp` (discrete samplers).

Conventions of the embedding.

* `unsigned long long` values are naturals reduced `% 2 ^ 64`; `int` values are
  integers, and a `size_t` narrowed to `int` goes through `to_int`.
* A finite `double` is the rational number it denotes.  Operations that round
  are followed by `binary64`, the IEEE 754 round-to-nearest-even map onto
  53-bit significands.  The exponent range is not bounded there; the running
  product of `get_poisson`, which can leave the normal range, is rounded by
  `binary64_gradual`, which knows the subnormal doubles.
  Operations that are exact in binary64 (comparison, scaling by a power of
  two of a double, conversion of an `int`) are written without `binary64`.
* A `vector` is a `List`; an element access outside the vector, a vector
  constructed with a negative size and a conversion that C++ leaves undefined
  are reported as a `Fault`.
-/

namespace Lab

/-! ## Machine arithmetic -/

/-- What can go wrong in a run. -/
inductive Fault
  | length_error
  | out_of_range
  | bad_conversion
  | int_overflow
  | not_finite
  deriving DecidableEq, Repr

/-- Conversion of an integer value to a 32-bit `int` (two's complement wrap). -/
def to_int (x : Int) : Int := (x + 2 ^ 31) % 2 ^ 32 - 2 ^ 31

/-- Subtraction of two `size_t` values (wraps modulo `2 ^ 64`). -/
def size_t_sub (a b : Int) : Int := (a - b) % 2 ^ 64

/-- Product of two `unsigned long long` values (wraps modulo `2 ^ 64`). -/
def ull_mul (a b : Nat) : Nat := (a * b) % 2 ^ 64

/-- Nearest integer to a rational, ties going to the even neighbour. -/
def round_even (q : ℚ) : ℤ :=
  let f := ⌊q⌋
  if q - f < 1 / 2 then f
  else if 1 / 2 < q - f then f + 1
  else if f % 2 = 0 then f else f + 1

/-- IEEE 754 binary64 rounding (round to nearest, ties to even) of an exact
result: the value is scaled so that its significand lies in `[2^52, 2^53)`,
rounded to an integer and scaled back. -/
def binary64 (q : ℚ) : ℚ :=
  if q = 0 then 0
  else
    let e := Int.log 2 |q| - 52
    (round_even (q / 2 ^ e) : ℚ) * 2 ^ e

/-- Rounding of a result that can underflow: below `2^-1022` the doubles are the
multiples of `2^-1074` (gradual underflow), from there on the rounding is `binary64`. -/
def binary64_gradual (q : ℚ) : ℚ :=
  if |q| < 1 / 2 ^ 1022 then (round_even (q * 2 ^ 1074) : ℚ) / 2 ^ 1074 else binary64 q

/-- Conversion `int(x)` of a double: truncation toward zero, undefined when the
truncated value does not fit an `int`. -/
def double_to_int (q : ℚ) : Except Fault Int :=
  let t : Int := if 0 ≤ q then ⌊q⌋ else ⌈q⌉
  if -2 ^ 31 ≤ t ∧ t < 2 ^ 31 then .ok t else .error .bad_conversion

/-- Construction `vector<T> v(n, x)` from an `int` count: the count is converted
to `size_t`, so a negative one exceeds `max_size()` and the constructor throws. -/
def vector_fill {α : Type} (n : Int) (x : α) : Except Fault (List α) :=
  if n < 0 then .error .length_error else .ok (List.replicate n.toNat x)

/-- Element read `v[i]`. -/
def load {α : Type} (v : List α) (i : Nat) : Except Fault α :=
  if h : i < v.length then .ok v[i] else .error .out_of_range

/-- Element write `v[i] = x`. -/
def store {α : Type} (v : List α) (i : Nat) (x : α) : Except Fault (List α) :=
  if i < v.length then .ok (v.set i x) else .error .out_of_range

/-- The loop `for (int i = lo; i < lo + count; ++i) body` over a state. -/
def for_loop {σ : Type} (body : Nat → σ → Except Fault σ) :
    (count lo : Nat) → σ → Except Fault σ
  | 0, _, s => .ok s
  | count + 1, lo, s =>
    match body lo s with
    | .ok s1 => for_loop body count (lo + 1) s1
    | .error e => .error e

/-! ## lab_01: the generators -/

def A_STAR_0 : Nat := 24389
def BETA : Nat := A_STAR_0
def M : Nat := 2 ^ 31
def K : Int := 32

/-- First loop of `mult_congr`: `a_star[i] = (BETA * a_star[i - 1]) % M`. -/
def mult_congr_step (i : Nat) (a_star : List Nat) : Except Fault (List Nat) := do
  let prev ← load a_star (i - 1)
  store a_star i (ull_mul BETA prev % M)

/-- Integer states of `mult_congr(n)`: the vector `a_star` after the first loop.
The fill value is `(unsigned long long)(-111)`. -/
def mult_congr_states (n : Int) : Except Fault (List Nat) := do
  let a_star ← vector_fill n (2 ^ 64 - 111 : Nat)
  let a_star ← store a_star 0 A_STAR_0
  for_loop mult_congr_step (n.toNat - 1) 1 a_star

/-- Second loop of `mult_congr`: `a[i] = static_cast<double>(a_star[i]) / M`. -/
def mult_congr_norm (a_star : List Nat) (i : Nat) (a : List ℚ) : Except Fault (List ℚ) := do
  let x ← load a_star i
  store a i (binary64 (binary64 (x : ℚ) / binary64 (M : ℚ)))

/-- The function `mult_congr(int n)`. -/
def mult_congr (n : Int) : Except Fault (List ℚ) := do
  let a_star ← mult_congr_states n
  let a ← vector_fill n (-111 : ℚ)
  for_loop (mult_congr_norm a_star) n.toNat 0 a

/-- The value `nextafter(1.0, numeric_limits<double>::max())`, the least double
above `1.0`. -/
def nextafter_one : ℚ := 1 + 2 ^ (-52 : ℤ)

/-- The possible results of `builtin_uniform(n)`: `n` doubles, each drawn from
`uniform_real_distribution<double>(0.0, nextafter(1.0, max))`, whose values range
over the half-open interval between its two bounds. -/
def builtin_uniform_outcome (n : Int) (res : List ℚ) : Prop :=
  (res.length : Int) = n ∧ ∀ x ∈ res, binary64 x = x ∧ 0 ≤ x ∧ x < nextafter_one

/-- State of the loop of `maclaren_marsaglia`: the output `res` and the buffer `v`. -/
structure MMState where
  res : List ℚ
  v : List ℚ

/-- Body of the loop of `maclaren_marsaglia`.  The product `second[i] * K` is
exact (`K = 2 ^ 5`), `int(...)` truncates. -/
def maclaren_marsaglia_step (first second : List ℚ) (i : Nat) (st : MMState) :
    Except Fault MMState := do
  let u ← load second i
  let s ← double_to_int (u * (K : ℚ))
  if s < 0 then throw Fault.out_of_range
  let x ← load st.v s.toNat
  let res ← store st.res i x
  let f ← load first (i + K.toNat)
  let v ← store st.v s.toNat f
  pure ⟨res, v⟩

/-- The run of `maclaren_marsaglia` up to the end of its loop (output and final
buffer). -/
def maclaren_marsaglia_run (first second : List ℚ) : Except Fault MMState := do
  let size := to_int (size_t_sub (min first.length second.length : Nat) K)
  let res ← vector_fill size (0 : ℚ)
  if first.length < K.toNat then throw Fault.out_of_range
  let v := first.take K.toNat
  for_loop (maclaren_marsaglia_step first second) size.toNat 0 ⟨res, v⟩

/-- The function `maclaren_marsaglia(first, second)`. -/
def maclaren_marsaglia (first second : List ℚ) : Except Fault (List ℚ) := do
  let st ← maclaren_marsaglia_run first second
  pure st.res

/-! ## lab_01: the goodness-of-fit tests -/

/-- The call `sort(copy.begin(), copy.end())`: the ascending arrangement. -/
def sort (v : List ℚ) : List ℚ := v.insertionSort (· ≤ ·)

/-- Position returned by `upper_bound(copy.cbegin(), copy.cend(), t)` on an
ascending vector, as a distance from `cbegin()`: the index of the first element
greater than `t`. -/
def upper_bound : List ℚ → ℚ → Nat
  | [], _ => 0
  | x :: xs, t => if t < x then 0 else upper_bound xs t + 1

/-- Subtraction of two `int` values; signed overflow is undefined. -/
def int_sub (a b : Int) : Except Fault Int :=
  if -2 ^ 31 ≤ a - b ∧ a - b < 2 ^ 31 then .ok (a - b) else .error .int_overflow

/-- The value `stride = (end - start) / bins_cnt` of `calc_bins`. -/
def stride (bins_cnt : Int) (start end_ : ℚ) : ℚ :=
  binary64 (binary64 (end_ - start) / (bins_cnt : ℚ))

/-- The value `threshold = stride * (i + 1)` of iteration `i` of `calc_bins`. -/
def threshold (stride : ℚ) (i : Nat) : ℚ :=
  binary64 (stride * ((i + 1 : Nat) : ℚ))

/-- State of the loop of `calc_bins`: the counts `res` and the running `prev`. -/
structure BinsState where
  res : List Int
  prev : Int

/-- Body of the loop of `calc_bins`. -/
def calc_bins_step (copy : List ℚ) (stride : ℚ) (i : Nat) (st : BinsState) :
    Except Fault BinsState := do
  let cnt := to_int (upper_bound copy (threshold stride i) : Nat)
  let d ← int_sub cnt st.prev
  let res ← store st.res i d
  pure ⟨res, cnt⟩

/-- The function `calc_bins(v, bins_cnt, start, end)`.  With `bins_cnt = 0` the
stride is not finite, and it is not used. -/
def calc_bins (v : List ℚ) (bins_cnt : Int) (start end_ : ℚ) : Except Fault (List Int) := do
  let copy := sort v
  let res ← vector_fill bins_cnt (0 : Int)
  let st ← for_loop (calc_bins_step copy (stride bins_cnt start end_)) bins_cnt.toNat 0 ⟨res, 0⟩
  pure st.res

/-- One iteration of the loop of `chi_square`:
`res += (cnt - prob) * (cnt - prob) / prob`.  A zero `prob` gives an infinity or
a NaN. -/
def chi_square_step (prob : ℚ) (res : ℚ) (cnt : Int) : Except Fault ℚ :=
  if prob = 0 then .error .not_finite
  else
    let d := binary64 ((cnt : ℚ) - prob)
    .ok (binary64 (res + binary64 (binary64 (d * d) / prob)))

/-- The function `chi_square(v)`; `calc_bins(v)` uses the default arguments
`bins_cnt = 10`, `start = 0.0`, `end = 1.0`. -/
def chi_square (v : List ℚ) : Except Fault ℚ := do
  let n := to_int (v.length : Nat)
  let bins ← calc_bins v 10 0 1
  let prob := binary64 ((n : ℚ) / 10)
  bins.foldlM (chi_square_step prob) 0

/-- Body of the loop of `kolmogorov`; `i + 1` is computed in `int`. -/
def kolmogorov_step (copy : List ℚ) (i : Nat) (res : ℚ) : Except Fault ℚ := do
  let x ← load copy i
  let f := min (max x 0) 1
  if 2 ^ 31 ≤ i + 1 then throw Fault.int_overflow
  let f_hat := binary64 (((i + 1 : Nat) : ℚ) / (copy.length : ℚ))
  let cur := |binary64 (f_hat - f)|
  pure (max res cur)

/-- The function `kolmogorov(v)`. -/
def kolmogorov (v : List ℚ) : Except Fault ℚ :=
  for_loop (kolmogorov_step (sort v)) (sort v).length 0 0

/-! ## lab_02: the geometric sampler -/

/-- A `double` with its non-finite values (the sign of zero is not tracked: a
zero is `+0.0`). -/
inductive Double
  | finite (q : ℚ)
  | pos_inf
  | neg_inf
  | nan
  deriving DecidableEq

/-- The library call `log(x)`.  `log(0)` is minus infinity and `log(1)` is exactly
zero; on the other positive finite arguments its result `ln x` is a parameter of the
model. -/
def Double.log (ln : ℚ → ℚ) : Double → Double
  | .finite q =>
    if q < 0 then .nan else if q = 0 then .neg_inf else if q = 1 then .finite 0
    else .finite (ln q)
  | .pos_inf => .pos_inf
  | .neg_inf => .nan
  | .nan => .nan

/-- Division of doubles. -/
def Double.div : Double → Double → Double
  | .finite a, .finite b =>
    if b = 0 then (if a = 0 then .nan else if 0 < a then .pos_inf else .neg_inf)
    else .finite (binary64 (a / b))
  | .finite _, .pos_inf => .finite 0
  | .finite _, .neg_inf => .finite 0
  | .pos_inf, .finite b => if b < 0 then .neg_inf else .pos_inf
  | .neg_inf, .finite b => if b < 0 then .pos_inf else .neg_inf
  | _, _ => .nan

/-- The library call `ceil(x)`. -/
def Double.ceil : Double → Double
  | .finite q => .finite (⌈q⌉ : ℤ)
  | d => d

/-- Conversion `int(x)` of a double that may be non-finite. -/
def Double.to_int : Double → Except Fault Int
  | .finite q => double_to_int q
  | _ => .error .bad_conversion

/-- The values `roll_brv()` ranges over: the doubles of the half-open interval of
`uniform_real_distribution<double>(0.0, 1.0)`. -/
def roll_brv_outcome (x : ℚ) : Prop := binary64 x = x ∧ 0 ≤ x ∧ x < 1

/-- Body of the loop of `get_geometric`; `draws i` is the value of the `i`-th call of
`roll_brv()`. -/
def get_geometric_step (ln : ℚ → ℚ) (p : ℚ) (draws : Nat → ℚ) (i : Nat) (res : List Int) :
    Except Fault (List Int) := do
  let brv := draws i
  let tmp := Double.div (Double.log ln (.finite brv)) (Double.log ln (.finite (binary64 (1 - p))))
  let roll ← Double.to_int (Double.ceil tmp)
  store res i roll

/-- The function `get_geometric(p, size)` run on a stream of draws. -/
def get_geometric (ln : ℚ → ℚ) (p : ℚ) (size : Int) (draws : Nat → ℚ) :
    Except Fault (List Int) := do
  let res ← vector_fill size (0 : Int)
  for_loop (get_geometric_step ln p draws) size.toNat 0 res

/-! ## lab_02: the Bernoulli and binomial samplers -/

/-- State of a sampler loop: the vector `res` and the number of calls of `roll_brv()`
made so far on the generator of the call. -/
structure SamplerState where
  res : List Int
  pos : Nat

/-- Body of the loop of `get_bernoulli`; `draws k` is the value of the `k`-th call of
`roll_brv()`. -/
def get_bernoulli_step (p : ℚ) (draws : Nat → ℚ) (_i : Nat) (st : SamplerState) :
    Except Fault SamplerState :=
  .ok ⟨st.res ++ [if draws st.pos ≤ p then 1 else 0], st.pos + 1⟩

/-- The function `get_bernoulli(p, size)` run on a stream of draws. -/
def get_bernoulli (p : ℚ) (size : Int) (draws : Nat → ℚ) : Except Fault (List Int) := do
  let st ← for_loop (get_bernoulli_step p draws) size.toNat 0 ⟨[], 0⟩
  pure st.res

/-- State of the inner loop of `get_binomial`: the running `sum` and the number of
draws made so far. -/
structure SumState where
  sum : Int
  pos : Nat

/-- Body of the inner loop of `get_binomial`: `sum += int(brv <= p)`. -/
def get_binomial_inner (p : ℚ) (draws : Nat → ℚ) (_j : Nat) (st : SumState) :
    Except Fault SumState :=
  .ok ⟨st.sum + (if draws st.pos ≤ p then 1 else 0), st.pos + 1⟩

/-- Body of the outer loop of `get_binomial`. -/
def get_binomial_step (m : Int) (p : ℚ) (draws : Nat → ℚ) (_i : Nat) (st : SamplerState) :
    Except Fault SamplerState := do
  let s ← for_loop (get_binomial_inner p draws) m.toNat 0 ⟨0, st.pos⟩
  pure ⟨st.res ++ [s.sum], s.pos⟩

/-- The function `get_binomial(m, p, size)` run on a stream of draws. -/
def get_binomial (m : Int) (p : ℚ) (size : Int) (draws : Nat → ℚ) :
    Except Fault (List Int) := do
  let st ← for_loop (get_binomial_step m p draws) size.toNat 0 ⟨[], 0⟩
  pure st.res

/-- The Bernoulli outcome of draw `k`: `1` when `u_k ≤ p`, else `0`. -/
def bernoulli_outcome (p : ℚ) (draws : Nat → ℚ) (k : Nat) : Int :=
  if draws k ≤ p then 1 else 0

/-- Number of indices `j` in `[i * m, (i + 1) * m)` with `u_j ≤ p`. -/
def success_count (m : Nat) (p : ℚ) (draws : Nat → ℚ) (i : Nat) : Int :=
  ((List.range m).countP (fun j => draws (i * m + j) ≤ p) : Nat)

/-! ## lab_02: the Poisson sampler -/

/-- The library call `exp(x)` on a finite argument.  For `x ≤ -746` the exact value is
below half the least positive double `2^-1074` and the call returns `0.0`
(underflow); elsewhere its result `ex x` is a parameter of the model. -/
def Double.exp (ex : ℚ → ℚ) (x : ℚ) : ℚ :=
  if x ≤ -746 then 0 else ex x

/-- State of the `while` loop of `get_poisson`. -/
structure PoissonState where
  product : ℚ
  k : Int
  pos : Nat

/-- The loop `while (product >= exp(-lambda)) { bsv = roll_brv(); product *= bsv; k++; }`
with `bound` the value of `exp(-lambda)`, run for at most `fuel` tests of its
condition: `none` when the loop is still running after them.  The product of two
doubles of `[0,1]` is rounded with gradual underflow; the increment of `k` must stay
in the range of `int`. -/
def poisson_while (bound : ℚ) (draws : Nat → ℚ) :
    Nat → PoissonState → Option (Except Fault PoissonState)
  | 0, _ => none
  | fuel + 1, st =>
    if bound ≤ st.product then
      if st.k + 1 < 2 ^ 31 then
        poisson_while bound draws fuel
          ⟨binary64_gradual (st.product * draws st.pos), st.k + 1, st.pos + 1⟩
      else some (.error .int_overflow)
    else some (.ok st)

/-- Body of the `for` loop of `get_poisson`. -/
def get_poisson_step (bound : ℚ) (draws : Nat → ℚ) (fuel : Nat) (i : Nat)
    (st : SamplerState) : Option (Except Fault SamplerState) :=
  match poisson_while bound draws fuel ⟨draws st.pos, 1, st.pos + 1⟩ with
  | none => none
  | some (.error e) => some (.error e)
  | some (.ok w) =>
    match store st.res i (w.k - 1) with
    | .error e => some (.error e)
    | .ok res => some (.ok ⟨res, w.pos⟩)

/-- The `for` loop of `get_poisson`: `count` iterations from index `i`. -/
def get_poisson_loop (bound : ℚ) (draws : Nat → ℚ) (fuel : Nat) :
    (count i : Nat) → SamplerState → Option (Except Fault SamplerState)
  | 0, _, st => some (.ok st)
  | count + 1, i, st =>
    match get_poisson_step bound draws fuel i st with
    | none => none
    | some (.error e) => some (.error e)
    | some (.ok st1) => get_poisson_loop bound draws fuel count (i + 1) st1

/-- The function `get_poisson(lambda, size)` run on a stream of draws, each `while`
loop being given `fuel` tests of its condition: the final vector and the number of
draws consumed. -/
def get_poisson_run (ex : ℚ → ℚ) (lambda size : Int) (draws : Nat → ℚ) (fuel : Nat) :
    Option (Except Fault SamplerState) :=
  match vector_fill size (0 : Int) with
  | .error e => some (.error e)
  | .ok res => get_poisson_loop (Double.exp ex ((-lambda : Int) : ℚ)) draws fuel size.toNat 0 ⟨res, 0⟩

/-- The function `get_poisson(lambda, size)`. -/
def get_poisson (ex : ℚ → ℚ) (lambda size : Int) (draws : Nat → ℚ) (fuel : Nat) :
    Option (Except Fault (List Int)) :=
  match get_poisson_run ex lambda size draws fuel with
  | none => none
  | some (.error e) => some (.error e)
  | some (.ok st) => some (.ok st.res)

/-- The running product of `get_poisson` after `j` multiplications, each rounded as
in the loop, for an output whose first draw is `draws s`. -/
def running_product (draws : Nat → ℚ) (s : Nat) : Nat → ℚ
  | 0 => draws s
  | j + 1 => binary64_gradual (running_product draws s j * draws (s + j + 1))

/-- Number of draws consumed by the first `i` outputs of `get_poisson`: output `r`
takes `r + 1` draws. -/
def draws_before (res : List Int) (i : Nat) : Nat :=
  ((res.take i).map fun r => r.toNat + 1).sum

/-- What the outputs of `get_poisson` stored below index `i` satisfy: each is the first
index at which the running product of its draws is below the bound, and the next draw
to be taken is the one after the draws of these outputs. -/
def knuth_outputs (bound : ℚ) (draws : Nat → ℚ) (n i : Nat) (st : SamplerState) : Prop :=
  st.res.length = n ∧ st.pos = draws_before st.res i ∧
    ∀ t, t < i → ∃ r : Nat, st.res[t]? = some (r : Int) ∧
      running_product draws (draws_before st.res t) r < bound ∧
      ∀ j, j < r → bound ≤ running_product draws (draws_before st.res t) j

/-- The double nearest to `exp(-1)`, `0.36787944117144233`. -/
def exp_minus_one : ℚ := 828390857088487 / 2251799813685248

/-- A stream of draws: `0.75`, `0.4905059215619231`, then `0.25` for ever. -/
def knuth_stream (k : Nat) : ℚ :=
  if k = 0 then 3 / 4 else if k = 1 then 4418084571138597 / 9007199254740992 else 1 / 4

/-- The output of `get_geometric` for the draw `u`, when the logarithms are finite:
`ceil(log(u) / log(1 - p))` with the quotient rounded. -/
def geometric_outcome (ln : ℚ → ℚ) (p u : ℚ) : Int :=
  ⌈binary64 (ln u / ln (binary64 (1 - p)))⌉

/-! ## lab_02: the moment estimators

Every function takes the rounding `rnd` applied to the result of each double operation:
`binary64` for the machine, `id` for exact arithmetic; the functions that reach `pow`
also take its result `pw`.  A division by zero gives an infinity or a NaN and is the
fault `not_finite`. -/

/-- The method `Moments::mean()`. -/
def Moments.mean (rnd : ℚ → ℚ) (elements : List Int) : Except Fault ℚ :=
  let mean := elements.foldl (fun (mean : ℚ) (el : Int) => rnd (mean + (el : ℚ))) 0
  if elements.length = 0 then .error .not_finite
  else .ok (rnd (mean / rnd (elements.length : ℚ)))

/-- The method `Moments::central_moment(order)`.  The result `pw x order` of the library
call `pow(x, order)` is a parameter of the model (`fun x n => x ^ n` is the exact
power); `order` is one of `2`, `3`, `4` in the program. -/
def Moments.central_moment (rnd : ℚ → ℚ) (pw : ℚ → Nat → ℚ) (elements : List Int)
    (order : Nat) : Except Fault ℚ := do
  let _mean ← Moments.mean rnd elements
  let res := elements.foldl
    (fun (res : ℚ) (el : Int) => rnd (res + pw (rnd ((el : ℚ) - _mean)) order)) 0
  pure (rnd (res / rnd (elements.length : ℚ)))

/-- The expression `cm2 * m / (m - 1)` of `central_moment_2_unbiased`, with `int m`. -/
def central_moment_2_unbiased_value (rnd : ℚ → ℚ) (cm2 : ℚ) (m : Int) : Except Fault ℚ :=
  if m - 1 = 0 then .error .not_finite
  else .ok (rnd (rnd (cm2 * (m : ℚ)) / ((m - 1 : Int) : ℚ)))

/-- The method `Moments::central_moment_2_unbiased()`. -/
def Moments.central_moment_2_unbiased (rnd : ℚ → ℚ) (pw : ℚ → Nat → ℚ)
    (elements : List Int) : Except Fault ℚ := do
  let m := to_int elements.length
  let cm2 ← Moments.central_moment rnd pw elements 2
  central_moment_2_unbiased_value rnd cm2 m

/-- The method `Moments::variance_unbiased()`. -/
def Moments.variance_unbiased (rnd : ℚ → ℚ) (pw : ℚ → Nat → ℚ) (elements : List Int) :
    Except Fault ℚ :=
  Moments.central_moment_2_unbiased rnd pw elements

/-- The three statements of `kurtosis_unbiased` that follow the two moments, with
`size_t m`: `res = cm4 / cm2 / cm2 - 3 + 6.0 / (m + 1)`,
`res *= double(m - 1) / (m - 2)` and `res *= double(m + 1) / (m - 3)`. -/
def kurtosis_unbiased_value (rnd : ℚ → ℚ) (cm2 cm4 : ℚ) (m : Nat) : Except Fault ℚ :=
  let m_plus_1 : ℚ := rnd (((m + 1) % 2 ^ 64 : Nat) : ℚ)
  let m_minus_1 : ℚ := rnd ((size_t_sub m 1 : Int) : ℚ)
  let m_minus_2 : ℚ := rnd ((size_t_sub m 2 : Int) : ℚ)
  let m_minus_3 : ℚ := rnd ((size_t_sub m 3 : Int) : ℚ)
  if cm2 = 0 ∨ m_plus_1 = 0 ∨ m_minus_2 = 0 ∨ m_minus_3 = 0 then .error .not_finite
  else
    let res := rnd (rnd (rnd (rnd (cm4 / cm2) / cm2) - 3) + rnd (6 / m_plus_1))
    let res := rnd (res * rnd (m_minus_1 / m_minus_2))
    .ok (rnd (res * rnd (m_plus_1 / m_minus_3)))

/-- The method `Moments::kurtosis_unbiased()`. -/
def Moments.kurtosis_unbiased (rnd : ℚ → ℚ) (pw : ℚ → Nat → ℚ) (elements : List Int) :
    Except Fault ℚ := do
  let cm2 ← Moments.central_moment rnd pw elements 2
  let cm4 ← Moments.central_moment rnd pw elements 4
  kurtosis_unbiased_value rnd cm2 cm4 elements.length

/-- The mean of a sample, as a rational number. -/
def sample_mean (xs : List Int) : ℚ :=
  (xs.map fun (x : Int) => (x : ℚ)).sum / (xs.length : ℚ)

/-- The central moment `cm_k = sum((x - mean)^k) / m` of a sample. -/
def sample_central_moment (xs : List Int) (k : Nat) : ℚ :=
  (xs.map fun (x : Int) => ((x : ℚ) - sample_mean xs) ^ k).sum / (xs.length : ℚ)

/-- The expression `(cm4/cm2^2 - 3 + 6/(m+1)) * (m-1)/(m-2) * (m+1)/(m-3)`. -/
def kurtosis_formula (cm2 cm4 m : ℚ) : ℚ :=
  (cm4 / cm2 ^ 2 - 3 + 6 / (m + 1)) * (m - 1) / (m - 2) * (m + 1) / (m - 3)

/-- The bias-corrected excess kurtosis
`G2 = (m-1)/((m-2)(m-3)) * ((m+1)*(cm4/cm2^2 - 3) + 6)`. -/
def excess_kurtosis_G2 (cm2 cm4 m : ℚ) : ℚ :=
  (m - 1) / ((m - 2) * (m - 3)) * ((m + 1) * (cm4 / cm2 ^ 2 - 3) + 6)

/-- The value `x` approximates `y` after `k` roundings, relative to the magnitude `M`:
`|y| ≤ M` and `|x - y| ≤ ((1 + 2^-53)^k - 1) * M`. -/
def approximates (k : Nat) (M x y : ℚ) : Prop :=
  |y| ≤ M ∧ |x - y| ≤ ((1 + 1 / 2 ^ 53) ^ k - 1) * M

/-- The factor `(1 + ε) / ((1 - ε) (1 - 2^-53))` by which the rounded quotient of two
logarithms of relative error `ε` can fall short of the exact quotient. -/
def tolerance_up (ε : ℚ) : ℚ := (1 + ε) / ((1 - ε) * (1 - 1 / 2 ^ 53))

/-- The factor `(1 - ε) / ((1 + ε) (1 + 2^-53))` by which the rounded quotient of two
logarithms of relative error `ε` can exceed the exact quotient. -/
def tolerance_down (ε : ℚ) : ℚ := (1 - ε) / ((1 + ε) * (1 + 1 / 2 ^ 53))

/-- The double `0.7`. -/
def sample_p : ℚ := 3152519739159347 / 4503599627370496

/-- The double `0.09000000000000001`. -/
def sample_draw : ℚ := 6485183463413515 / 72057594037927936

/-- The library logarithm at the two arguments of the example with `p = 0.7`:
`log(0.09000000000000001) = -2.407945608651872` and
`log(0.30000000000000004) = -1.203972804325936`, the doubles nearest to the exact
logarithms. -/
def sample_log (x : ℚ) : ℚ :=
  if x = sample_draw then -169444108528953 / 70368744177664
  else -169444108528953 / 140737488355328

/-! ## Quantities used to state the results -/

/-- Number of sample points not above the threshold of iteration `i`. -/
def cumulative (v : List ℚ) (s : ℚ) (i : Nat) : Int :=
  (v.countP (fun x => x ≤ threshold s i) : Nat)

/-- The count that `calc_bins` writes to `res[i]`: the points not above threshold
`i` that are above threshold `i - 1` (all of them for `i = 0`). -/
def bin_count (v : List ℚ) (s : ℚ) (i : Nat) : Int :=
  cumulative v s i - (if i = 0 then 0 else cumulative v s (i - 1))

/-- Ten doubles, one strictly inside each decile `(k/10, (k+1)/10)` of `[0,1]`; the
fourth is `0.30000000000000004`, the double next above `0.3`. -/
def skewed_sample : List ℚ :=
  [1 / 16, 3 / 16, 1 / 4, 1351079888211149 / 4503599627370496, 7 / 16, 9 / 16, 5 / 8, 3 / 4,
    7 / 8, 15 / 16]

/-- Ten doubles, one in each cell of the default histogram. -/
def even_sample : List ℚ :=
  [1 / 16, 3 / 16, 1 / 4, 3 / 8, 7 / 16, 9 / 16, 5 / 8, 3 / 4, 7 / 8, 15 / 16]

/-- The value `cur` of iteration `i` of `kolmogorov` on the ascending copy. -/
def deviation (copy : List ℚ) (i : Nat) : ℚ :=
  |binary64 (binary64 (((i + 1 : Nat) : ℚ) / (copy.length : ℚ)) - min (max (copy.getD i 0) 0) 1)|

/-- The statistic of the specification, `D = max_i |(i+1)/n - F(x_i)|` over the
ascending sample with `F` the identity clamped to `[0,1]`, in exact arithmetic. -/
def kolmogorov_statistic (v : List ℚ) : ℚ :=
  ((List.range (sort v).length).map fun (i : Nat) =>
    |((i : ℚ) + 1) / ((sort v).length : ℚ) - min (max ((sort v).getD i 0) 0) 1|).foldl max 0

/-- The sample `{(i + 0.5) / n : 0 ≤ i < n}` of the specification. -/
def identity_sample (n : Nat) : List ℚ :=
  (List.range n).map fun (i : Nat) => ((i : ℚ) + 1 / 2) / (n : ℚ)

/-- The doubles nearest to `0.1`, `0.3`, `0.6`, `0.9`. -/
def four_doubles : List ℚ :=
  [3602879701896397 / 36028797018963968, 5404319552844595 / 18014398509481984,
    5404319552844595 / 9007199254740992, 8106479329266893 / 9007199254740992]

/-- The doubles nearest to `(i + 0.5) / 5`: `0.1`, `0.3`, `0.5`, `0.7`, `0.9`. -/
def five_doubles : List ℚ :=
  [3602879701896397 / 36028797018963968, 5404319552844595 / 18014398509481984, 1 / 2,
    3152519739159347 / 4503599627370496, 8106479329266893 / 9007199254740992]

/-- The recurrence of the specification: `x[0] = seed`,
`x[i] = (multiplier * x[i-1]) mod modulus`, with the reference constants. -/
def congruential_state : Nat → Nat
  | 0 => 24389
  | i + 1 => (24389 * congruential_state i) % 2 ^ 31

/-! ### Facts about rounding -/

theorem round_even_of_near {x : ℚ} {m : ℤ} (h : |x - m| < 1 / 2) : round_even x = m := by
  have hf1 : (⌊x⌋ : ℚ) ≤ x := Int.floor_le x
  have hf2 : x < ⌊x⌋ + 1 := Int.lt_floor_add_one x
  rw [abs_lt] at h
  obtain ⟨h1, h2⟩ := h
  unfold round_even
  simp only
  split_ifs with c1 c2 c3
  · have a1 : ((⌊x⌋ - m : ℤ) : ℚ) < 1 := by push_cast; linarith
    have a2 : (-1 : ℚ) < ((⌊x⌋ - m : ℤ) : ℚ) := by push_cast; linarith
    have b1 : ⌊x⌋ - m < 1 := by exact_mod_cast a1
    have b2 : -1 < ⌊x⌋ - m := by exact_mod_cast a2
    omega
  · have a1 : ((⌊x⌋ + 1 - m : ℤ) : ℚ) < 1 := by push_cast; linarith
    have a2 : (-1 : ℚ) < ((⌊x⌋ + 1 - m : ℤ) : ℚ) := by push_cast; linarith
    have b1 : ⌊x⌋ + 1 - m < 1 := by exact_mod_cast a1
    have b2 : -1 < ⌊x⌋ + 1 - m := by exact_mod_cast a2
    omega
  · exfalso
    have e : x - ⌊x⌋ = 1 / 2 := le_antisymm (not_lt.mp c2) (not_lt.mp c1)
    have a1 : ((⌊x⌋ - m : ℤ) : ℚ) < 0 := by push_cast; linarith
    have a2 : (-1 : ℚ) < ((⌊x⌋ - m : ℤ) : ℚ) := by push_cast; linarith
    have b1 : ⌊x⌋ - m < 0 := by exact_mod_cast a1
    have b2 : -1 < ⌊x⌋ - m := by exact_mod_cast a2
    omega
  · exfalso
    have e : x - ⌊x⌋ = 1 / 2 := le_antisymm (not_lt.mp c2) (not_lt.mp c1)
    have a1 : ((⌊x⌋ - m : ℤ) : ℚ) < 0 := by push_cast; linarith
    have a2 : (-1 : ℚ) < ((⌊x⌋ - m : ℤ) : ℚ) := by push_cast; linarith
    have b1 : ⌊x⌋ - m < 0 := by exact_mod_cast a1
    have b2 : -1 < ⌊x⌋ - m := by exact_mod_cast a2
    omega

theorem round_even_intCast (m : ℤ) : round_even (m : ℚ) = m :=
  round_even_of_near (by simp)

/-- Certificate for one rounding: `q` lies in the binade with unit `2 ^ e` and
`m * 2 ^ e` is strictly the nearest multiple of the unit. -/
theorem binary64_eq_of_near {q : ℚ} {m e : ℤ}
    (hlo : (2 : ℚ) ^ (e + 52) ≤ |q|) (hhi : |q| < (2 : ℚ) ^ (e + 53))
    (hnear : |q / 2 ^ e - m| < 1 / 2) : binary64 q = m * 2 ^ e := by
  have hpos : 0 < |q| := lt_of_lt_of_le (by positivity) hlo
  have hq : q ≠ 0 := abs_pos.mp hpos
  have hlog : Int.log 2 |q| = e + 52 := by
    have h1 : e + 52 ≤ Int.log 2 |q| :=
      (Int.zpow_le_iff_le_log (by norm_num) hpos).mp (by exact_mod_cast hlo)
    have h2 : Int.log 2 |q| < e + 53 :=
      (Int.lt_zpow_iff_log_lt (by norm_num) hpos).mp (by exact_mod_cast hhi)
    omega
  unfold binary64
  rw [if_neg hq]
  simp only [hlog, add_sub_cancel_right]
  rw [round_even_of_near hnear]

/-- The certificate in the form used to evaluate roundings of positive values. -/
theorem binary64_eval {q : ℚ} (m e : ℤ)
    (hlo : (2 : ℚ) ^ (e + 52) ≤ q) (hhi : q < (2 : ℚ) ^ (e + 53))
    (h1 : (m : ℚ) - 1 / 2 < q / 2 ^ e) (h2 : q / 2 ^ e < (m : ℚ) + 1 / 2) :
    binary64 q = m * 2 ^ e := by
  have hpos : 0 < q := lt_of_lt_of_le (by positivity) hlo
  apply binary64_eq_of_near
  · rwa [abs_of_pos hpos]
  · rwa [abs_of_pos hpos]
  · rw [abs_lt]; constructor <;> linarith

/-- A value halfway between two integers rounds to the even one. -/
theorem round_even_of_tie {x : ℚ} {m : ℤ} (hm : m % 2 = 0)
    (h : x = (m : ℚ) - 1 / 2 ∨ x = (m : ℚ) + 1 / 2) : round_even x = m := by
  rcases h with h | h
  · have hf : ⌊x⌋ = m - 1 := by
      rw [Int.floor_eq_iff]; push_cast; constructor <;> linarith
    unfold round_even
    simp only [hf]
    push_cast
    rw [if_neg (by linarith), if_neg (by linarith), if_neg (by omega)]
    ring
  · have hf : ⌊x⌋ = m := by
      rw [Int.floor_eq_iff]; constructor <;> linarith
    unfold round_even
    simp only [hf]
    rw [if_neg (by linarith), if_neg (by linarith), if_pos hm]

/-- The certificate for a positive value that lies halfway between two multiples of
the unit: the one with the even significand is taken. -/
theorem binary64_eval_tie {q : ℚ} (m e : ℤ)
    (hlo : (2 : ℚ) ^ (e + 52) ≤ q) (hhi : q < (2 : ℚ) ^ (e + 53)) (hm : m % 2 = 0)
    (h : q / 2 ^ e = (m : ℚ) - 1 / 2 ∨ q / 2 ^ e = (m : ℚ) + 1 / 2) :
    binary64 q = m * 2 ^ e := by
  have hpos : 0 < q := lt_of_lt_of_le (by positivity) hlo
  have hq : q ≠ 0 := hpos.ne.symm
  have hlog : Int.log 2 |q| = e + 52 := by
    rw [abs_of_pos hpos]
    have h1 : e + 52 ≤ Int.log 2 q :=
      (Int.zpow_le_iff_le_log (by norm_num) hpos).mp (by exact_mod_cast hlo)
    have h2 : Int.log 2 q < e + 53 :=
      (Int.lt_zpow_iff_log_lt (by norm_num) hpos).mp (by exact_mod_cast hhi)
    omega
  unfold binary64
  rw [if_neg hq]
  simp only [hlog, add_sub_cancel_right]
  rw [round_even_of_tie hm h]

/-- A value `m * 2 ^ z` with `|m| < 2 ^ 53` is a binary64 number: rounding leaves
it unchanged. -/
theorem binary64_dyadic (m z : ℤ) (hm : |m| < 2 ^ 53) :
    binary64 ((m : ℚ) * 2 ^ z) = (m : ℚ) * 2 ^ z := by
  by_cases h0 : m = 0
  · subst h0; simp [binary64]
  have h2 : (0 : ℚ) < 2 := by norm_num
  have hq : (m : ℚ) * 2 ^ z ≠ 0 := by
    apply mul_ne_zero
    · exact_mod_cast h0
    · positivity
  have habs : |(m : ℚ) * 2 ^ z| = (|m| : ℤ) * 2 ^ z := by
    rw [abs_mul, abs_of_pos (zpow_pos h2 z)]; push_cast; rfl
  have hpos : 0 < |(m : ℚ) * 2 ^ z| := abs_pos.mpr hq
  have hlt : Int.log 2 |(m : ℚ) * 2 ^ z| < z + 53 := by
    apply (Int.lt_zpow_iff_log_lt (by norm_num) hpos).mp
    rw [habs]
    push_cast
    rw [add_comm z 53, zpow_add₀ (by norm_num : (2 : ℚ) ≠ 0)]
    apply mul_lt_mul_of_pos_right _ (zpow_pos h2 z)
    exact_mod_cast hm
  unfold binary64
  rw [if_neg hq]
  simp only
  generalize Int.log 2 |(m : ℚ) * 2 ^ z| = l at hlt
  obtain ⟨k, hk⟩ := Int.eq_ofNat_of_zero_le (show 0 ≤ z - (l - 52) by omega)
  have hpow : (2 : ℚ) ^ z = 2 ^ (l - 52) * 2 ^ k := by
    rw [← zpow_natCast, ← zpow_add₀ (by norm_num : (2 : ℚ) ≠ 0)]
    congr 1
    omega
  have hne : (2 : ℚ) ^ (l - 52) ≠ 0 := (zpow_pos h2 _).ne.symm
  have hdiv : (m : ℚ) * 2 ^ z / 2 ^ (l - 52) = ((m * 2 ^ k : ℤ) : ℚ) := by
    rw [hpow]
    push_cast
    field_simp
    ring
  rw [hdiv, round_even_intCast, hpow]
  push_cast
  ring

theorem binary64_intCast (m : ℤ) (hm : |m| < 2 ^ 53) : binary64 (m : ℚ) = m := by
  simpa using binary64_dyadic m 0 hm

/-! ### Facts about vectors and loops -/

theorem load_eq_ok {α : Type} {v : List α} {i : Nat} {x : α} (h : v[i]? = some x) :
    load v i = .ok x := by
  obtain ⟨hi, hx⟩ := List.getElem?_eq_some.mp h
  simp [load, hi, hx]

theorem store_eq_ok {α : Type} {v : List α} {i : Nat} (x : α) (h : i < v.length) :
    store v i x = .ok (v.set i x) := by
  simp [store, h]

theorem vector_fill_eq_ok {α : Type} {n : Int} (x : α) (h : 0 ≤ n) :
    vector_fill n x = .ok (List.replicate n.toNat x) := by
  simp [vector_fill, not_lt.mpr h]

/-- Invariant rule for `for_loop`: a body that never faults on states satisfying
the invariant carries it from `lo` to `lo + count`. -/
theorem for_loop_invariant {σ : Type} (body : Nat → σ → Except Fault σ)
    (P : Nat → σ → Prop) :
    ∀ (count lo : Nat) (s : σ), P lo s →
      (∀ i t, lo ≤ i → i < lo + count → P i t → ∃ t1, body i t = .ok t1 ∧ P (i + 1) t1) →
      ∃ s1, for_loop body count lo s = .ok s1 ∧ P (lo + count) s1 := by
  intro count
  induction count with
  | zero => intro lo s h _; exact ⟨s, rfl, by simpa using h⟩
  | succ c ih =>
    intro lo s h hstep
    obtain ⟨t1, hb, hp⟩ := hstep lo s (le_refl _) (by omega) h
    obtain ⟨s1, hl, hq⟩ := ih (lo + 1) t1 hp (fun i t h1 h2 hpi =>
      hstep i t (by omega) (by omega) hpi)
    refine ⟨s1, ?_, ?_⟩
    · simp only [for_loop, hb, hl]
    · have e : lo + (c + 1) = lo + 1 + c := by omega
      rw [e]; exact hq

/-- A vector is determined by its length and its entries. -/
theorem list_eq_map_range {α : Type} {l : List α} {n : Nat} {f : Nat → α}
    (hlen : l.length = n) (h : ∀ j, j < n → l[j]? = some (f j)) :
    l = (List.range n).map f := by
  apply List.ext_getElem?
  intro j
  by_cases hj : j < n
  · rw [h j hj]; simp [hj]
  · rw [List.getElem?_eq_none (by omega)]
    rw [List.getElem?_eq_none (by simp; omega)]

/-! ### The congruential generator -/

theorem congruential_state_lt (i : Nat) : congruential_state i < 2 ^ 31 := by
  cases i with
  | zero => norm_num [congruential_state]
  | succ k => exact Nat.mod_lt _ (by norm_num)

theorem congruential_state_closed (i : Nat) :
    congruential_state i = 24389 ^ (i + 1) % 2 ^ 31 := by
  induction i with
  | zero => norm_num [congruential_state]
  | succ k ih =>
    rw [congruential_state, ih, pow_succ 24389 (k + 1), Nat.mul_comm (24389 ^ (k + 1)) 24389,
      Nat.mul_mod 24389 (24389 ^ (k + 1)) (2 ^ 31), Nat.mul_mod 24389 (24389 ^ (k + 1) % 2 ^ 31),
      Nat.mod_mod]

/-- The 64-bit product of the multiplier and a state is the exact product. -/
theorem ull_mul_state (i : Nat) :
    ull_mul BETA (congruential_state i) = 24389 * congruential_state i := by
  have h := congruential_state_lt i
  unfold ull_mul BETA A_STAR_0
  apply Nat.mod_eq_of_lt
  have : 24389 * congruential_state i < 24389 * 2 ^ 31 :=
    Nat.mul_lt_mul_of_pos_left h (by norm_num)
  calc 24389 * congruential_state i < 24389 * 2 ^ 31 := this
    _ < 2 ^ 64 := by norm_num

theorem mult_congr_states_eq (n : Int) (hn : 1 ≤ n) :
    mult_congr_states n = .ok ((List.range n.toNat).map congruential_state) := by
  have hpos : 0 < n.toNat := by omega
  unfold mult_congr_states
  rw [vector_fill_eq_ok _ (by omega)]
  simp only [bind, Except.bind]
  rw [store_eq_ok _ (by simpa using hpos)]
  simp only
  obtain ⟨a, ha, hlen, hent⟩ := for_loop_invariant mult_congr_step
    (fun i a => a.length = n.toNat ∧ ∀ j, j < i → a[j]? = some (congruential_state j))
    (n.toNat - 1) 1 ((List.replicate n.toNat (2 ^ 64 - 111)).set 0 A_STAR_0)
    (by
      refine ⟨by simp, ?_⟩
      intro j hj
      have : j = 0 := by omega
      subst this
      simp [List.getElem?_set, hpos, congruential_state, A_STAR_0])
    (by
      rintro i t h1 h2 ⟨hl, he⟩
      have hprev := he (i - 1) (by omega)
      refine ⟨t.set i (24389 * congruential_state (i - 1) % 2 ^ 31), ?_, by simpa using hl, ?_⟩
      · unfold mult_congr_step
        rw [load_eq_ok hprev]
        simp only [bind, Except.bind]
        rw [store_eq_ok _ (by omega), ull_mul_state, M]
      · intro j hj
        by_cases hji : j = i
        · subst hji
          have e : j = (j - 1) + 1 := by omega
          rw [List.getElem?_set_self (by omega)]
          conv_rhs => rw [e, congruential_state]
        · rw [List.getElem?_set_ne (by omega)]
          exact he j (by omega))
  rw [ha]
  have e : 1 + (n.toNat - 1) = n.toNat := by omega
  rw [e] at hent
  rw [list_eq_map_range hlen hent]

/-- The conversion and the division of the second loop are exact on a state. -/
theorem binary64_state_div (x : Nat) (hx : x < 2 ^ 31) :
    binary64 (binary64 (x : ℚ) / binary64 (M : ℚ)) = (x : ℚ) / 2 ^ 31 := by
  have h1 : binary64 (x : ℚ) = x := by
    have := binary64_intCast (x : ℤ) (by rw [abs_of_nonneg (by positivity)]; omega)
    simpa using this
  have h2 : binary64 (M : ℚ) = 2 ^ 31 := by
    have := binary64_intCast (2 ^ 31 : ℤ) (by norm_num)
    simpa [M] using this
  rw [h1, h2]
  have h3 := binary64_dyadic (x : ℤ) (-31) (by rw [abs_of_nonneg (by positivity)]; omega)
  have e : ((x : ℤ) : ℚ) * 2 ^ (-31 : ℤ) = (x : ℚ) / 2 ^ 31 := by
    rw [zpow_neg, div_eq_mul_inv]; norm_cast
  rwa [e] at h3

theorem mult_congr_eq (n : Int) (hn : 1 ≤ n) :
    mult_congr n
      = .ok ((List.range n.toNat).map fun i => (congruential_state i : ℚ) / 2 ^ 31) := by
  unfold mult_congr
  rw [mult_congr_states_eq n hn, vector_fill_eq_ok _ (by omega)]
  simp only [bind, Except.bind]
  obtain ⟨a, ha, hlen, hent⟩ := for_loop_invariant
    (mult_congr_norm ((List.range n.toNat).map congruential_state))
    (fun i a => a.length = n.toNat ∧
      ∀ j, j < i → a[j]? = some ((congruential_state j : ℚ) / 2 ^ 31))
    n.toNat 0 (List.replicate n.toNat (-111))
    ⟨by simp, fun j hj => absurd hj (by omega)⟩
    (by
      rintro i t - h2 ⟨hl, he⟩
      refine ⟨t.set i ((congruential_state i : ℚ) / 2 ^ 31), ?_, by simpa using hl, ?_⟩
      · unfold mult_congr_norm
        have hld : ((List.range n.toNat).map congruential_state)[i]?
            = some (congruential_state i) := by
          rw [List.getElem?_map, List.getElem?_range (by omega)]; rfl
        rw [load_eq_ok hld]
        simp only [bind, Except.bind]
        rw [store_eq_ok _ (by omega), binary64_state_div _ (congruential_state_lt i)]
      · intro j hj
        by_cases hji : j = i
        · subst hji
          rw [List.getElem?_set_self (by omega)]
        · rw [List.getElem?_set_ne (by omega)]
          exact he j (by omega))
  rw [ha]
  rw [Nat.zero_add] at hent
  rw [list_eq_map_range hlen hent]

/-! ### The MacLaren-Marsaglia combiner -/

theorem store_ok_iff {α : Type} {v w : List α} {i : Nat} {x : α} :
    store v i x = .ok w ↔ i < v.length ∧ w = v.set i x := by
  unfold store
  split
  · rename_i hi
    constructor
    · intro h; exact ⟨hi, (Except.ok.inj h).symm⟩
    · rintro ⟨-, rfl⟩; rfl
  · rename_i hi
    constructor
    · intro h; exact absurd h (by simp)
    · rintro ⟨h, -⟩; exact absurd h hi

/-- Narrowing the `size_t` difference to `int` gives the true difference as long
as it lies in the range of `int`. -/
theorem to_int_size_t_sub (m : Nat) (h2 : (m : Int) - 32 < 2 ^ 31) : to_int (size_t_sub (m : Int) K) = (m : Int) - 32 := by
  unfold to_int size_t_sub K
  omega

/-- When the `int` size computed by the combiner is negative, the construction of
`res` throws. -/
theorem maclaren_marsaglia_run_negative (first second : List ℚ)
    (h : to_int (size_t_sub ((min first.length second.length : Nat) : Int) K) < 0) :
    maclaren_marsaglia_run first second = .error .length_error := by
  unfold maclaren_marsaglia_run
  simp only [vector_fill]
  rw [if_pos h]
  rfl

/-- For short inputs the size computed by the combiner is negative. -/
theorem maclaren_marsaglia_run_short (first second : List ℚ)
    (h : min first.length second.length < 32) :
    maclaren_marsaglia_run first second = .error .length_error := by
  apply maclaren_marsaglia_run_negative
  rw [to_int_size_t_sub _ (by omega)]
  omega

/-- A step whose selector draw is `1.0` reads the buffer at index `K`. -/
theorem maclaren_marsaglia_step_at_one (first second : List ℚ) (i : Nat) (st : MMState)
    (hu : second[i]? = some 1) (hv : st.v.length = 32) :
    maclaren_marsaglia_step first second i st = .error .out_of_range := by
  have hd : double_to_int (1 * ((32 : ℤ) : ℚ)) = .ok 32 := by
    unfold double_to_int
    norm_num
  unfold maclaren_marsaglia_step
  simp only [bind, Except.bind, K]
  rw [load_eq_ok hu]
  simp only
  rw [hd]
  simp only
  rw [if_neg (by norm_num)]
  simp only [pure, Except.pure]
  have hl : load st.v (32 : ℤ).toNat = .error .out_of_range := by
    unfold load
    rw [dif_neg (by simp [hv])]
  rw [hl]

/-- With `second[0] = 1.0` the combiner leaves the buffer on its first step. -/
theorem maclaren_marsaglia_run_at_one (first second : List ℚ)
    (h1 : 33 ≤ min first.length second.length)
    (hfit : min first.length second.length - 32 < 2 ^ 31)
    (h0 : second[0]? = some 1) :
    maclaren_marsaglia_run first second = .error .out_of_range := by
  have hsize : to_int (size_t_sub ((min first.length second.length : Nat) : Int) K)
      = ((min first.length second.length - 33 + 1 : Nat) : Int) := by
    rw [to_int_size_t_sub _ (by omega)]; omega
  have hf : 32 ≤ first.length := by
    have := min_le_left first.length second.length; omega
  unfold maclaren_marsaglia_run
  simp only [hsize]
  rw [vector_fill_eq_ok _ (by omega)]
  simp only [bind, Except.bind, K, Int.toNat_ofNat]
  rw [if_neg (by simpa using hf)]
  simp only [pure, Except.pure, for_loop]
  rw [maclaren_marsaglia_step_at_one first second 0 _ h0 (by simp; omega)]

/-! ### The histogram -/

theorem sort_sorted (v : List ℚ) : (sort v).Sorted (· ≤ ·) :=
  List.sorted_insertionSort (· ≤ ·) v

theorem sort_perm (v : List ℚ) : (sort v).Perm v :=
  List.perm_insertionSort (· ≤ ·) v

/-- On an ascending vector `upper_bound` counts the elements not above `t`. -/
theorem upper_bound_sorted (l : List ℚ) (h : l.Sorted (· ≤ ·)) (t : ℚ) :
    upper_bound l t = l.countP (fun x => x ≤ t) := by
  induction l with
  | nil => rfl
  | cons x xs ih =>
    have hs := List.sorted_cons.mp h
    unfold upper_bound
    split_ifs with c
    · symm
      rw [List.countP_eq_zero]
      intro y hy
      rcases List.mem_cons.mp hy with rfl | hy
      · simpa using c
      · have := hs.1 y hy
        simp only [decide_eq_true_eq, not_le]
        linarith
    · rw [ih hs.2, List.countP_cons_of_pos]
      simpa using c

theorem upper_bound_sort (v : List ℚ) (t : ℚ) :
    upper_bound (sort v) t = v.countP (fun x => x ≤ t) := by
  rw [upper_bound_sorted _ (sort_sorted v)]
  exact (sort_perm v).countP_eq _

theorem to_int_of_lt (c : Nat) (h : c < 2 ^ 31) : to_int (c : Int) = c := by
  unfold to_int
  omega

theorem cumulative_bounds (v : List ℚ) (s : ℚ) (i : Nat) :
    0 ≤ cumulative v s i ∧ cumulative v s i ≤ v.length := by
  unfold cumulative
  exact ⟨by positivity, by exact_mod_cast List.countP_le_length _⟩

/-- One iteration of `calc_bins` on a sample of fewer than `2^31` points. -/
theorem calc_bins_step_eq (v : List ℚ) (s : ℚ) (i : Nat) (st : BinsState)
    (hlen : v.length < 2 ^ 31) (hi : i < st.res.length)
    (hp : st.prev = (if i = 0 then 0 else cumulative v s (i - 1))) :
    calc_bins_step (sort v) s i st
      = .ok ⟨st.res.set i (bin_count v s i), cumulative v s i⟩ := by
  have hc := cumulative_bounds v s i
  have hcnt : to_int ((upper_bound (sort v) (threshold s i) : Nat) : Int)
      = cumulative v s i := by
    rw [upper_bound_sort, to_int_of_lt]
    · rfl
    · exact lt_of_le_of_lt (List.countP_le_length _) hlen
  have hprev : 0 ≤ st.prev ∧ st.prev ≤ v.length := by
    rw [hp]
    split_ifs
    · exact ⟨le_refl _, Int.natCast_nonneg _⟩
    · exact cumulative_bounds v _ _
  have hsub : int_sub (cumulative v s i) st.prev = .ok (bin_count v s i) := by
    unfold int_sub
    have h31 : (v.length : Int) < 2 ^ 31 := by exact_mod_cast hlen
    rw [if_pos (by constructor <;> omega)]
    unfold bin_count
    rw [hp]
  unfold calc_bins_step
  rw [hcnt]
  simp only [bind, Except.bind]
  rw [hsub]
  simp only
  rw [store_eq_ok _ hi]
  rfl

/-- The whole result of `calc_bins` on a sample of fewer than `2^31` points. -/
theorem calc_bins_eq (v : List ℚ) (bins_cnt : Int) (start end_ : ℚ)
    (hb : 0 ≤ bins_cnt) (hlen : v.length < 2 ^ 31) :
    calc_bins v bins_cnt start end_
      = .ok ((List.range bins_cnt.toNat).map (bin_count v (stride bins_cnt start end_))) := by
  unfold calc_bins
  rw [vector_fill_eq_ok _ hb]
  simp only [bind, Except.bind]
  obtain ⟨st, hst, hl, -, hent⟩ := for_loop_invariant
    (calc_bins_step (sort v) (stride bins_cnt start end_))
    (fun i st => st.res.length = bins_cnt.toNat ∧
      st.prev = (if i = 0 then 0 else cumulative v (stride bins_cnt start end_) (i - 1)) ∧
      ∀ j, j < i → st.res[j]? = some (bin_count v (stride bins_cnt start end_) j))
    bins_cnt.toNat 0 ⟨List.replicate bins_cnt.toNat 0, 0⟩
    ⟨List.length_replicate _ _, rfl, fun j hj => absurd hj (Nat.not_lt_zero j)⟩
    (by
      rintro i t - hi ⟨hl, hp, he⟩
      refine ⟨_, calc_bins_step_eq v _ i t hlen (by omega) hp, ?_, ?_, ?_⟩
      · rw [List.length_set]; exact hl
      · rw [if_neg (Nat.succ_ne_zero i)]; rfl
      · intro j hj
        by_cases hji : j = i
        · subst hji
          exact List.getElem?_set_self (by omega)
        · have := he j (by omega)
          rw [← this]
          exact List.getElem?_set_ne (by omega))
  rw [hst]
  simp only [pure, Except.pure]
  rw [Nat.zero_add] at hent
  rw [list_eq_map_range hl hent]

/-- The counts telescope: they add up to the number of points not above the last
threshold. -/
theorem bin_count_sum (v : List ℚ) (s : ℚ) (b : Nat) :
    ((List.range (b + 1)).map (bin_count v s)).sum = cumulative v s b := by
  induction b with
  | zero =>
    rw [List.range_succ, List.range_zero, List.nil_append, List.map_singleton,
      List.sum_singleton]
    unfold bin_count
    rw [if_pos rfl, sub_zero]
  | succ k ih =>
    rw [List.range_succ, List.map_append, List.sum_append, ih, List.map_singleton,
      List.sum_singleton]
    unfold bin_count
    rw [if_neg (Nat.succ_ne_zero k), Nat.add_sub_cancel]
    ring

/-! ### The thresholds of the default histogram -/

theorem binary64_one : binary64 1 = 1 := by
  simpa using binary64_intCast 1 (by norm_num)

/-- The default stride is the double nearest to `0.1`. -/
theorem stride_default : stride 10 0 1 = 3602879701896397 / 36028797018963968 := by
  unfold stride
  rw [sub_zero, binary64_one, binary64_eval 7205759403792794 (-56)] <;> norm_num

/-- The ten thresholds `stride * (i + 1)` of the default histogram, as computed in
binary64: `0.1`, `0.2`, `0.30000000000000004`, `0.4`, `0.5`, `0.6000000000000001`,
`0.7000000000000001`, `0.8`, `0.9`, `1.0`. -/
theorem threshold_default :
    threshold (stride 10 0 1) 0 = 3602879701896397 / 36028797018963968 ∧
      threshold (stride 10 0 1) 1 = 3602879701896397 / 18014398509481984 ∧
      threshold (stride 10 0 1) 2 = 1351079888211149 / 4503599627370496 ∧
      threshold (stride 10 0 1) 3 = 3602879701896397 / 9007199254740992 ∧
      threshold (stride 10 0 1) 4 = 1 / 2 ∧
      threshold (stride 10 0 1) 5 = 1351079888211149 / 2251799813685248 ∧
      threshold (stride 10 0 1) 6 = 6305039478318695 / 9007199254740992 ∧
      threshold (stride 10 0 1) 7 = 3602879701896397 / 4503599627370496 ∧
      threshold (stride 10 0 1) 8 = 8106479329266893 / 9007199254740992 ∧
      threshold (stride 10 0 1) 9 = 1 := by
  rw [stride_default]
  unfold threshold
  refine ⟨?_, ?_, ?_, ?_, ?_, ?_, ?_, ?_, ?_, ?_⟩
  · rw [binary64_eval 7205759403792794 (-56)] <;> norm_num
  · rw [binary64_eval 7205759403792794 (-55)] <;> norm_num
  · rw [binary64_eval_tie 5404319552844596 (-54)] <;> norm_num
  · rw [binary64_eval 7205759403792794 (-54)] <;> norm_num
  · rw [binary64_eval 4503599627370496 (-53)] <;> norm_num
  · rw [binary64_eval_tie 5404319552844596 (-53)] <;> norm_num
  · rw [binary64_eval 6305039478318695 (-53)] <;> norm_num
  · rw [binary64_eval 7205759403792794 (-53)] <;> norm_num
  · rw [binary64_eval 8106479329266893 (-53)] <;> norm_num
  · rw [binary64_eval 4503599627370496 (-52)] <;> norm_num

/-- The last threshold of a histogram with 49 bins is the double just below `1.0`. -/
theorem threshold_49_last :
    threshold (stride 49 0 1) 48 = 9007199254740991 / 9007199254740992 := by
  have hs : stride 49 0 1 = 5882252574524729 / 288230376151711744 := by
    unfold stride
    rw [sub_zero, binary64_one, binary64_eval 5882252574524729 (-58)] <;> norm_num
  rw [hs]
  unfold threshold
  rw [binary64_eval 9007199254740991 (-53)] <;> norm_num

/-- On samples of fewer than `2^31` points, none above `1`, the default histogram
loses no point. -/
theorem calc_bins_default_sum (v : List ℚ) (hlen : v.length < 2 ^ 31)
    (h1 : ∀ x ∈ v, x ≤ 1) :
    ∃ bins, calc_bins v 10 0 1 = .ok bins ∧ bins.sum = (v.length : Int) := by
  refine ⟨_, calc_bins_eq v 10 0 1 (by norm_num) hlen, ?_⟩
  have e : ((List.range (10 : Int).toNat).map (bin_count v (stride 10 0 1))).sum
      = ((List.range (9 + 1)).map (bin_count v (stride 10 0 1))).sum := rfl
  rw [e, bin_count_sum]
  unfold cumulative
  rw [threshold_default.2.2.2.2.2.2.2.2.2, List.countP_eq_length.mpr]
  intro x hx
  simpa using h1 x hx

/-- Points not above `b` are those not above `a ≤ b` and those in `(a, b]`. -/
theorem countP_le_split (v : List ℚ) {a b : ℚ} (hab : a ≤ b) :
    v.countP (fun x => x ≤ b)
      = v.countP (fun x => x ≤ a) + v.countP (fun x => a < x ∧ x ≤ b) := by
  induction v with
  | nil => rfl
  | cons y ys ih =>
    have eb : List.countP (fun x => decide (x ≤ b)) (y :: ys)
        = List.countP (fun x => decide (x ≤ b)) ys + if y ≤ b then 1 else 0 := by
      rw [List.countP_cons]; simp
    have ea : List.countP (fun x => decide (x ≤ a)) (y :: ys)
        = List.countP (fun x => decide (x ≤ a)) ys + if y ≤ a then 1 else 0 := by
      rw [List.countP_cons]; simp
    have ec : List.countP (fun x => decide (a < x ∧ x ≤ b)) (y :: ys)
        = List.countP (fun x => decide (a < x ∧ x ≤ b)) ys
          + if a < y ∧ y ≤ b then 1 else 0 := by
      rw [List.countP_cons]; simp
    rw [eb, ea, ec, ih]
    by_cases h1 : y ≤ a
    · have h2 : y ≤ b := le_trans h1 hab
      have h3 : ¬ (a < y ∧ y ≤ b) := fun h => absurd h1 (not_le.mpr h.1)
      rw [if_pos h1, if_pos h2, if_neg h3]
      omega
    · by_cases h2 : y ≤ b
      · have h3 : a < y ∧ y ≤ b := ⟨not_le.mp h1, h2⟩
        rw [if_neg h1, if_pos h2, if_pos h3]
        omega
      · have h3 : ¬ (a < y ∧ y ≤ b) := fun h => h2 h.2
        rw [if_neg h1, if_neg h2, if_neg h3]
        omega

/-- The default thresholds ascend. -/
theorem threshold_default_mono (k : Nat) (hk : k + 1 < 10) :
    threshold (stride 10 0 1) k ≤ threshold (stride 10 0 1) (k + 1) := by
  obtain ⟨h0, h1, h2, h3, h4, h5, h6, h7, h8, h9⟩ := threshold_default
  have hk9 : k < 9 := by omega
  interval_cases k
  · rw [h0, h1]; norm_num
  · rw [h1, h2]; norm_num
  · rw [h2, h3]; norm_num
  · rw [h3, h4]; norm_num
  · rw [h4, h5]; norm_num
  · rw [h5, h6]; norm_num
  · rw [h6, h7]; norm_num
  · rw [h7, h8]; norm_num
  · rw [h8, h9]; norm_num

/-- With the default thresholds, `res[k]` is the number of points in the cell
`(threshold (k-1), threshold k]` (unbounded below for `k = 0`). -/
theorem bin_count_default (v : List ℚ) (k : Nat) (hk : k < 10) :
    bin_count v (stride 10 0 1) k
      = (v.countP (fun x => (k = 0 ∨ threshold (stride 10 0 1) (k - 1) < x) ∧
          x ≤ threshold (stride 10 0 1) k) : Nat) := by
  unfold bin_count cumulative
  by_cases h0 : k = 0
  · subst h0
    simp
  · obtain ⟨j, rfl⟩ := Nat.exists_eq_succ_of_ne_zero h0
    rw [if_neg h0, countP_le_split v (threshold_default_mono j hk)]
    simp only [Nat.succ_eq_add_one, Nat.add_sub_cancel, Nat.add_one_ne_zero, false_or]
    push_cast
    ring

/-! ### The chi-square statistic -/

theorem binary64_zero : binary64 0 = 0 := by
  simp [binary64]

/-- A count equal to the expected count adds nothing to the statistic. -/
theorem chi_square_step_expected (c : ℤ) (hc : (c : ℚ) ≠ 0) :
    chi_square_step (c : ℚ) 0 c = .ok 0 := by
  unfold chi_square_step
  rw [if_neg hc]
  simp only [sub_self, binary64_zero, mul_zero, zero_div, add_zero]

theorem chi_square_fold_expected (c : ℤ) (hc : (c : ℚ) ≠ 0) (l : List ℤ)
    (h : ∀ x ∈ l, x = c) : l.foldlM (chi_square_step (c : ℚ)) 0 = .ok 0 := by
  induction l with
  | nil => rfl
  | cons x xs ih =>
    have hx : x = c := h x (List.mem_cons_self x xs)
    rw [List.foldlM_cons, hx, chi_square_step_expected c hc]
    exact ih (fun y hy => h y (List.mem_cons_of_mem x hy))

/-- The statistic in terms of the cell counts, on fewer than `2^31` points. -/
theorem chi_square_eq (v : List ℚ) (hlen : v.length < 2 ^ 31) :
    chi_square v
      = ((List.range 10).map (bin_count v (stride 10 0 1))).foldlM
          (chi_square_step (binary64 ((v.length : ℚ) / 10))) 0 := by
  unfold chi_square
  rw [calc_bins_eq v 10 0 1 (by norm_num) hlen, to_int_of_lt _ hlen]
  rfl

/-- The counts of the default histogram on `skewed_sample`. -/
theorem skewed_bins :
    (List.range 10).map (bin_count skewed_sample (stride 10 0 1))
      = [1, 1, 2, 0, 1, 1, 1, 1, 1, 1] := by
  obtain ⟨h0, h1, h2, h3, h4, h5, h6, h7, h8, h9⟩ := threshold_default
  simp only [show List.range 10 = [0, 1, 2, 3, 4, 5, 6, 7, 8, 9] from rfl, List.map, bin_count,
    cumulative, h0, h1, h2, h3, h4, h5, h6, h7, h8, h9, skewed_sample]
  norm_num [List.countP_cons]

theorem binary64_two : binary64 2 = 2 := by
  simpa using binary64_intCast 2 (by norm_num)

theorem binary64_neg_one : binary64 (-1) = -1 := by
  simpa using binary64_intCast (-1) (by norm_num)

/-- One iteration of `chi_square` on integer data with expected count `1`. -/
theorem chi_square_step_one (r c : ℤ) (h1 : |c - 1| < 2 ^ 26)
    (h2 : |r + (c - 1) * (c - 1)| < 2 ^ 53) :
    chi_square_step 1 (r : ℚ) c = .ok ((r + (c - 1) * (c - 1) : ℤ) : ℚ) := by
  have hd : binary64 ((c : ℚ) - 1) = ((c - 1 : ℤ) : ℚ) := by
    have := binary64_intCast (c - 1) (lt_trans h1 (by norm_num))
    rw [← this]; push_cast; rfl
  have hsq : |(c - 1) * (c - 1)| < 2 ^ 53 := by
    rw [abs_mul]
    have h0 : 0 ≤ |c - 1| := abs_nonneg _
    nlinarith
  have hdd : binary64 (((c - 1 : ℤ) : ℚ) * ((c - 1 : ℤ) : ℚ)) = (((c - 1) * (c - 1) : ℤ) : ℚ) := by
    have := binary64_intCast ((c - 1) * (c - 1)) hsq
    rw [← this]; push_cast; rfl
  unfold chi_square_step
  rw [if_neg one_ne_zero]
  simp only
  rw [hd, hdd, div_one]
  have h3 := binary64_intCast ((c - 1) * (c - 1)) hsq
  rw [h3]
  have h4 := binary64_intCast (r + (c - 1) * (c - 1)) h2
  rw [← h4]
  push_cast
  rfl

theorem foldlM_cons_ok {α β : Type} {f : β → α → Except Fault β} {b b1 : β} {a : α}
    {l : List α} (h : f b a = .ok b1) : (a :: l).foldlM f b = l.foldlM f b1 := by
  rw [List.foldlM_cons, h]
  rfl

theorem chi_square_skewed : chi_square skewed_sample = .ok 2 := by
  rw [chi_square_eq _ (by norm_num [skewed_sample]), skewed_bins]
  have hp : binary64 (((skewed_sample.length : ℕ) : ℚ) / 10) = 1 := by
    norm_num [skewed_sample, binary64_one]
  rw [hp]
  have s1 : chi_square_step 1 0 1 = .ok 0 := by
    simpa using chi_square_step_one 0 1 (by norm_num) (by norm_num)
  have s2 : chi_square_step 1 0 2 = .ok 1 := by
    simpa using chi_square_step_one 0 2 (by norm_num) (by norm_num)
  have s3 : chi_square_step 1 1 0 = .ok 2 := by
    simpa using chi_square_step_one 1 0 (by norm_num) (by norm_num)
  have s4 : chi_square_step 1 2 1 = .ok 2 := by
    simpa using chi_square_step_one 2 1 (by norm_num) (by norm_num)
  rw [foldlM_cons_ok s1, foldlM_cons_ok s1, foldlM_cons_ok s2, foldlM_cons_ok s3,
    foldlM_cons_ok s4, foldlM_cons_ok s4, foldlM_cons_ok s4, foldlM_cons_ok s4,
    foldlM_cons_ok s4, foldlM_cons_ok s4]
  rfl

/-- A rational of the form `m * 2 ^ z` with `|m| < 2 ^ 53` is a double. -/
theorem binary64_of_dyadic (m z : ℤ) (hm : |m| < 2 ^ 53) (x : ℚ) (hx : x = (m : ℚ) * 2 ^ z) :
    binary64 x = x := by
  rw [hx]; exact binary64_dyadic m z hm

/-! ### The geometric sampler -/

/-- The quotient `log(0) / log(1 - p)` is an infinity or a NaN, whatever `ln` and
`p` are. -/
theorem geometric_quotient_at_zero (ln : ℚ → ℚ) (p : ℚ) :
    ∀ q, Double.div (Double.log ln (.finite 0)) (Double.log ln (.finite (binary64 (1 - p))))
      ≠ .finite q := by
  intro q
  have h0 : Double.log ln (.finite 0) = .neg_inf := by
    simp [Double.log]
  rw [h0]
  cases Double.log ln (.finite (binary64 (1 - p))) with
  | finite b =>
    by_cases hb : b < 0 <;> simp [Double.div, hb]
  | pos_inf => simp [Double.div]
  | neg_inf => simp [Double.div]
  | nan => simp [Double.div]

/-- An iteration of `get_geometric` whose draw is exactly `0` converts a non-finite
value to `int`. -/
theorem get_geometric_step_at_zero (ln : ℚ → ℚ) (p : ℚ) (draws : Nat → ℚ) (i : Nat)
    (res : List Int) (h : draws i = 0) :
    get_geometric_step ln p draws i res = .error .bad_conversion := by
  unfold get_geometric_step
  simp only [h]
  have hq := geometric_quotient_at_zero ln p
  cases hd : Double.div (Double.log ln (.finite 0))
      (Double.log ln (.finite (binary64 (1 - p)))) with
  | finite q => exact absurd hd (hq q)
  | pos_inf => rfl
  | neg_inf => rfl
  | nan => rfl

/-! ### The rounding error -/

theorem round_even_err (x : ℚ) : |(round_even x : ℚ) - x| ≤ 1 / 2 := by
  have hf1 : (⌊x⌋ : ℚ) ≤ x := Int.floor_le x
  have hf2 : x < ⌊x⌋ + 1 := Int.lt_floor_add_one x
  unfold round_even
  simp only
  rw [abs_le]
  split_ifs with c1 c2 c3
  · constructor <;> linarith
  · push_cast; constructor <;> linarith
  · constructor <;> linarith
  · push_cast; constructor <;> linarith

theorem round_even_le_of_le (x : ℚ) (N : ℤ) (h : x ≤ N) : round_even x ≤ N := by
  have hf1 : (⌊x⌋ : ℚ) ≤ x := Int.floor_le x
  have hfl : ⌊x⌋ ≤ N := by exact_mod_cast le_trans hf1 h
  unfold round_even
  simp only
  have hstep : 0 < x - ⌊x⌋ → ⌊x⌋ + 1 ≤ N := by
    intro hpos
    have : (⌊x⌋ : ℚ) < N := by linarith
    have : ⌊x⌋ < N := by exact_mod_cast this
    omega
  split_ifs with c1 c2 c3
  · exact hfl
  · exact hstep (by linarith)
  · exact hfl
  · exact hstep (by linarith)

/-- The relative error of one rounding is at most `2 ^ (-53)`. -/
theorem binary64_err (q : ℚ) : |binary64 q - q| ≤ |q| / 2 ^ 53 := by
  by_cases hq : q = 0
  · subst hq; simp [binary64]
  have hpos : 0 < |q| := abs_pos.mpr hq
  have hlog : (2 : ℚ) ^ Int.log 2 |q| ≤ |q| := by
    have := Int.zpow_log_le_self (b := 2) (by norm_num) hpos
    exact_mod_cast this
  unfold binary64
  rw [if_neg hq]
  simp only
  generalize Int.log 2 |q| = l at hlog
  have h2 : (0 : ℚ) < 2 ^ (l - 52) := by positivity
  have hpow : (2 : ℚ) ^ l = 2 ^ (l - 52) * 2 ^ 52 := by
    rw [← zpow_natCast, ← zpow_add₀ (by norm_num : (2 : ℚ) ≠ 0)]
    congr 1
    omega
  have hr := round_even_err (q / 2 ^ (l - 52))
  have e : (round_even (q / 2 ^ (l - 52)) : ℚ) * 2 ^ (l - 52) - q
      = ((round_even (q / 2 ^ (l - 52)) : ℚ) - q / 2 ^ (l - 52)) * 2 ^ (l - 52) := by
    field_simp
  rw [e, abs_mul, abs_of_pos h2]
  calc |(round_even (q / 2 ^ (l - 52)) : ℚ) - q / 2 ^ (l - 52)| * 2 ^ (l - 52)
      ≤ 1 / 2 * 2 ^ (l - 52) := mul_le_mul_of_nonneg_right hr h2.le
    _ = 2 ^ l / 2 ^ 53 := by rw [hpow]; field_simp; ring
    _ ≤ |q| / 2 ^ 53 := div_le_div_of_nonneg_right hlog (by positivity)

/-- Rounding keeps a value of `[0,1]` in `[0,1]`. -/
theorem binary64_unit (q : ℚ) (h0 : 0 ≤ q) (h1 : q ≤ 1) :
    0 ≤ binary64 q ∧ binary64 q ≤ 1 := by
  constructor
  · have h := binary64_err q
    rw [abs_of_nonneg h0, abs_le] at h
    have : q / 2 ^ 53 ≤ q := div_le_self h0 (by norm_num)
    linarith
  · by_cases hq : q = 0
    · subst hq; simp [binary64]
    have hpos : 0 < q := lt_of_le_of_ne h0 (Ne.symm hq)
    have hl : Int.log 2 |q| < 1 := by
      apply (Int.lt_zpow_iff_log_lt (by norm_num) (abs_pos.mpr hq)).mp
      rw [abs_of_pos hpos]
      norm_num
      linarith
    unfold binary64
    rw [if_neg hq]
    simp only
    generalize Int.log 2 |q| = l at hl
    obtain ⟨k, hk⟩ := Int.eq_ofNat_of_zero_le (show 0 ≤ 52 - l by omega)
    have he : (2 : ℚ) ^ (l - 52) = 1 / 2 ^ k := by
      have : l - 52 = -(k : ℤ) := by omega
      rw [this, zpow_neg, zpow_natCast, one_div]
    rw [he]
    have hk0 : (0 : ℚ) < 2 ^ k := by positivity
    have hx : q / (1 / 2 ^ k) ≤ ((2 ^ k : ℤ) : ℚ) := by
      push_cast
      rw [div_div_eq_mul_div, div_one]
      calc q * 2 ^ k ≤ 1 * 2 ^ k := mul_le_mul_of_nonneg_right h1 hk0.le
        _ = 2 ^ k := one_mul _
    have hr := round_even_le_of_le _ _ hx
    have hr1 : (round_even (q / (1 / 2 ^ k)) : ℚ) ≤ 2 ^ k := by exact_mod_cast hr
    rw [mul_one_div, div_le_one hk0]
    exact hr1

/-- A running maximum moves by no more than its entries do. -/
theorem foldl_max_close (f g : Nat → ℚ) (ε : ℚ) (l : List Nat)
    (h : ∀ i ∈ l, |f i - g i| ≤ ε) :
    ∀ a b : ℚ, |a - b| ≤ ε → |(l.map f).foldl max a - (l.map g).foldl max b| ≤ ε := by
  induction l with
  | nil => intro a b hab; simpa using hab
  | cons x xs ih =>
    intro a b hab
    simp only [List.map_cons, List.foldl_cons]
    apply ih (fun i hi => h i (List.mem_cons_of_mem x hi))
    exact le_trans (abs_max_sub_max_le_max a (f x) b (g x))
      (max_le hab (h x (List.mem_cons_self x xs)))

/-! ### The Kolmogorov statistic -/

/-- One iteration of `kolmogorov` below the `int` limit. -/
theorem kolmogorov_step_eq (copy : List ℚ) (i : Nat) (res : ℚ) (hi : i < copy.length)
    (h31 : copy.length < 2 ^ 31) :
    kolmogorov_step copy i res = .ok (max res (deviation copy i)) := by
  have hx : copy[i]? = some (copy.getD i 0) := by
    rw [List.getD_eq_getElem?_getD, List.getElem?_eq_getElem hi]; rfl
  unfold kolmogorov_step
  rw [load_eq_ok hx]
  simp only [bind, Except.bind]
  rw [if_neg (by omega)]
  rfl

/-- The result of `kolmogorov` on fewer than `2^31` points: the running maximum of
the rounded deviations. -/
theorem kolmogorov_eq (v : List ℚ) (hlen : v.length < 2 ^ 31) :
    kolmogorov v
      = .ok (((List.range (sort v).length).map (deviation (sort v))).foldl max 0) := by
  have hl : (sort v).length = v.length := (sort_perm v).length_eq
  unfold kolmogorov
  obtain ⟨d, hd, he⟩ := for_loop_invariant (kolmogorov_step (sort v))
    (fun i res => res = ((List.range i).map (deviation (sort v))).foldl max 0)
    (sort v).length 0 0 rfl
    (by
      rintro i t - hi rfl
      refine ⟨_, kolmogorov_step_eq (sort v) i _ (by omega) (by omega), ?_⟩
      show _ = List.foldl max 0 (List.map (deviation (sort v)) (List.range (i + 1)))
      rw [List.range_succ, List.map_append, List.foldl_append]
      rfl)
  rw [hd, he, Nat.zero_add]

/-- Each rounded deviation is within `2 ^ (-52)` of the exact one. -/
theorem deviation_close (copy : List ℚ) (i : Nat) (hi : i < copy.length) :
    abs (deviation copy i
        - abs (((i : ℚ) + 1) / (copy.length : ℚ) - min (max (copy.getD i 0) 0) 1))
      ≤ 1 / 2 ^ 52 := by
  have hn : (0 : ℚ) < copy.length := by exact_mod_cast Nat.lt_of_le_of_lt (Nat.zero_le i) hi
  have hi1 : ((i : ℚ) + 1) ≤ copy.length := by exact_mod_cast hi
  have hq0 : 0 ≤ ((i : ℚ) + 1) / (copy.length : ℚ) := by positivity
  have hq1 : ((i : ℚ) + 1) / (copy.length : ℚ) ≤ 1 := (div_le_one hn).mpr hi1
  have hf0 : 0 ≤ min (max (copy.getD i 0) 0) 1 := le_min (le_max_right _ _) zero_le_one
  have hf1 : min (max (copy.getD i 0) 0) 1 ≤ 1 := min_le_right _ _
  unfold deviation
  have ecast : (((i + 1 : Nat) : ℚ)) = (i : ℚ) + 1 := by push_cast; rfl
  rw [ecast]
  generalize ((i : ℚ) + 1) / (copy.length : ℚ) = q at hq0 hq1
  generalize min (max (copy.getD i 0) 0) 1 = f at hf0 hf1
  obtain ⟨hb0, hb1⟩ := binary64_unit q hq0 hq1
  have e1 := binary64_err q
  rw [abs_of_nonneg hq0] at e1
  have e1b : |binary64 q - q| ≤ 1 / 2 ^ 53 :=
    le_trans e1 (div_le_div_of_nonneg_right hq1 (by positivity))
  have hy : |binary64 q - f| ≤ 1 := by
    rw [abs_le]; constructor <;> linarith
  have e2 := binary64_err (binary64 q - f)
  have e2b : |binary64 (binary64 q - f) - (binary64 q - f)| ≤ 1 / 2 ^ 53 :=
    le_trans e2 (div_le_div_of_nonneg_right hy (by positivity))
  have e3 : binary64 (binary64 q - f) - (q - f)
      = (binary64 (binary64 q - f) - (binary64 q - f)) + (binary64 q - q) := by ring
  calc abs (abs (binary64 (binary64 q - f)) - abs (q - f))
      ≤ |binary64 (binary64 q - f) - (q - f)| := abs_abs_sub_abs_le_abs_sub _ _
    _ ≤ |binary64 (binary64 q - f) - (binary64 q - f)| + |binary64 q - q| := by
        rw [e3]; exact abs_add _ _
    _ ≤ 1 / 2 ^ 53 + 1 / 2 ^ 53 := add_le_add e2b e1b
    _ = 1 / 2 ^ 52 := by norm_num

/-- The value returned by `kolmogorov` is within `2 ^ (-52)` of the exact
statistic. -/
theorem kolmogorov_close (v : List ℚ) (hlen : v.length < 2 ^ 31) :
    ∃ d, kolmogorov v = .ok d ∧ |d - kolmogorov_statistic v| ≤ 1 / 2 ^ 52 := by
  refine ⟨_, kolmogorov_eq v hlen, ?_⟩
  unfold kolmogorov_statistic
  apply foldl_max_close
  · intro i hi
    exact deviation_close (sort v) i (List.mem_range.mp hi)
  · rw [sub_self, abs_zero]; positivity

/-! ### The exact statistic on the sample of the specification -/

theorem identity_sample_sorted (n : Nat) : (identity_sample n).Sorted (· ≤ ·) := by
  unfold identity_sample List.Sorted
  rw [List.pairwise_map]
  apply List.Pairwise.imp _ (List.pairwise_lt_range n)
  intro a b hab
  have h : (a : ℚ) < b := by exact_mod_cast hab
  apply div_le_div_of_nonneg_right _ (Nat.cast_nonneg n)
  linarith

/-- Sorting any arrangement of the sample of the specification gives it back in
ascending order. -/
theorem sort_identity_sample (n : Nat) (v : List ℚ) (hv : v.Perm (identity_sample n)) :
    sort v = identity_sample n :=
  List.eq_of_perm_of_sorted ((sort_perm v).trans hv) (sort_sorted v) (identity_sample_sorted n)

theorem foldl_max_self (c : ℚ) (l : List ℚ) (h : ∀ x ∈ l, x = c) : l.foldl max c = c := by
  induction l with
  | nil => rfl
  | cons x xs ih =>
    rw [List.foldl_cons, h x (List.mem_cons_self x xs), max_self]
    exact ih (fun y hy => h y (List.mem_cons_of_mem x hy))

theorem foldl_max_const (c : ℚ) (hc : 0 ≤ c) (l : List ℚ) (hne : l ≠ [])
    (h : ∀ x ∈ l, x = c) : l.foldl max 0 = c := by
  cases l with
  | nil => exact absurd rfl hne
  | cons x xs =>
    rw [List.foldl_cons, h x (List.mem_cons_self x xs), max_eq_right hc]
    exact foldl_max_self c xs (fun y hy => h y (List.mem_cons_of_mem x hy))

/-- In exact arithmetic the sample `{(i + 0.5) / n}`, in any order, has statistic
`1 / (2 n)`. -/
theorem kolmogorov_statistic_identity (n : Nat) (hn : 1 ≤ n) (v : List ℚ)
    (hv : v.Perm (identity_sample n)) : kolmogorov_statistic v = 1 / (2 * (n : ℚ)) := by
  have hn0 : (0 : ℚ) < n := by exact_mod_cast hn
  unfold kolmogorov_statistic
  rw [sort_identity_sample n v hv]
  have hlen : (identity_sample n).length = n := by simp [identity_sample]
  rw [hlen]
  apply foldl_max_const
  · positivity
  · intro h
    have := congrArg List.length h
    simp at this
    omega
  · intro x hx
    obtain ⟨i, hi, rfl⟩ := List.mem_map.mp hx
    have hin : i < n := List.mem_range.mp hi
    have hget : (identity_sample n).getD i 0 = ((i : ℚ) + 1 / 2) / (n : ℚ) := by
      unfold identity_sample
      rw [List.getD_eq_getElem?_getD, List.getElem?_map, List.getElem?_range hin]
      rfl
    have hi1 : (i : ℚ) + 1 ≤ n := by exact_mod_cast hin
    have h0 : 0 ≤ ((i : ℚ) + 1 / 2) / (n : ℚ) := by positivity
    have h1 : ((i : ℚ) + 1 / 2) / (n : ℚ) ≤ 1 := by
      rw [div_le_one hn0]; linarith
    rw [hget, max_eq_left h0, min_eq_left h1]
    have e : ((i : ℚ) + 1) / (n : ℚ) - ((i : ℚ) + 1 / 2) / (n : ℚ) = 1 / (2 * (n : ℚ)) := by
      field_simp; ring
    rw [e, abs_of_nonneg (by positivity)]

/-! ### The statistic on two concrete samples -/

/-- Evaluation of one deviation from the two roundings it contains. -/
theorem deviation_eval (copy : List ℚ) (i : Nat) (x fh d : ℚ) (hx : copy.getD i 0 = x)
    (h0 : 0 ≤ x) (h1 : x ≤ 1)
    (hfh : binary64 (((i + 1 : Nat) : ℚ) / (copy.length : ℚ)) = fh)
    (hd : binary64 (fh - x) = d) : deviation copy i = |d| := by
  unfold deviation
  rw [hx, max_eq_left h0, min_eq_left h1, hfh, hd]

/-- A vector that is already ascending is its own sorted copy. -/
theorem sort_of_sorted (l : List ℚ) (h : l.Sorted (· ≤ ·)) : sort l = l :=
  List.Sorted.insertionSort_eq h

theorem four_doubles_eq : ([1 / 10, 3 / 10, 6 / 10, 9 / 10] : List ℚ).map binary64 = four_doubles := by
  have h0 : binary64 (1 / 10) = 3602879701896397 / 36028797018963968 := by
    rw [binary64_eval 7205759403792794 (-56)] <;> norm_num
  have h1 : binary64 (3 / 10) = 5404319552844595 / 18014398509481984 := by
    rw [binary64_eval 5404319552844595 (-54)] <;> norm_num
  have h2 : binary64 (6 / 10) = 5404319552844595 / 9007199254740992 := by
    rw [binary64_eval 5404319552844595 (-53)] <;> norm_num
  have h3 : binary64 (9 / 10) = 8106479329266893 / 9007199254740992 := by
    rw [binary64_eval 8106479329266893 (-53)] <;> norm_num
  simp only [List.map, h0, h1, h2, h3, four_doubles]

theorem four_doubles_sorted : sort four_doubles = four_doubles := by
  apply sort_of_sorted
  simp only [four_doubles, List.Sorted, List.pairwise_cons, List.mem_cons, List.mem_singleton,
    List.not_mem_nil, forall_eq_or_imp, forall_eq, List.Pairwise.nil, false_implies,
    implies_true, and_true]
  norm_num

theorem four_doubles_deviation_0 :
    deviation four_doubles 0 = 5404319552844595 / 36028797018963968 := by
  rw [deviation_eval four_doubles 0 (3602879701896397 / 36028797018963968) (1 / 4)
    (5404319552844595 / 36028797018963968) rfl (by norm_num) (by norm_num)]
  · norm_num [abs_of_pos]
  · rw [binary64_eval 4503599627370496 (-54)] <;> norm_num [four_doubles]
  · rw [binary64_eval 5404319552844595 (-55)] <;> norm_num

theorem four_doubles_deviation_1 :
    deviation four_doubles 1 = 3602879701896397 / 18014398509481984 := by
  rw [deviation_eval four_doubles 1 (5404319552844595 / 18014398509481984) (1 / 2)
    (3602879701896397 / 18014398509481984) rfl (by norm_num) (by norm_num)]
  · norm_num [abs_of_pos]
  · rw [binary64_eval 4503599627370496 (-53)] <;> norm_num [four_doubles]
  · rw [binary64_eval 7205759403792794 (-55)] <;> norm_num

theorem four_doubles_deviation_2 :
    deviation four_doubles 2 = 1351079888211149 / 9007199254740992 := by
  rw [deviation_eval four_doubles 2 (5404319552844595 / 9007199254740992) (3 / 4)
    (1351079888211149 / 9007199254740992) rfl (by norm_num) (by norm_num)]
  · norm_num [abs_of_pos]
  · rw [binary64_eval 6755399441055744 (-53)] <;> norm_num [four_doubles]
  · rw [binary64_eval 5404319552844596 (-55)] <;> norm_num

theorem four_doubles_deviation_3 :
    deviation four_doubles 3 = 900719925474099 / 9007199254740992 := by
  rw [deviation_eval four_doubles 3 (8106479329266893 / 9007199254740992) (1)
    (900719925474099 / 9007199254740992) rfl (by norm_num) (by norm_num)]
  · norm_num [abs_of_pos]
  · rw [binary64_eval 4503599627370496 (-52)] <;> norm_num [four_doubles]
  · rw [binary64_eval 7205759403792792 (-56)] <;> norm_num

/-- On the doubles `0.1`, `0.3`, `0.6`, `0.9` the code returns the double `0.2`. -/
theorem kolmogorov_four_doubles : kolmogorov four_doubles = .ok (3602879701896397 / 18014398509481984) := by
  rw [kolmogorov_eq _ (by norm_num [four_doubles]), four_doubles_sorted]
  have hl : four_doubles.length = 4 := rfl
  rw [hl]
  simp only [List.range_succ, List.range_zero, List.nil_append,
    List.cons_append, List.map_cons, List.map_nil, four_doubles_deviation_0, four_doubles_deviation_1, four_doubles_deviation_2, four_doubles_deviation_3,
    List.foldl_cons, List.foldl_nil]
  norm_num

theorem binary64_fifth : binary64 (1 / 5) = 3602879701896397 / 18014398509481984 := by
  rw [binary64_eval 7205759403792794 (-55)] <;> norm_num

theorem identity_sample_five : identity_sample 5 = [1 / 10, 3 / 10, 1 / 2, 7 / 10, 9 / 10] := by
  simp only [identity_sample, List.range_succ, List.range_zero, List.nil_append,
    List.cons_append, List.map_cons, List.map_nil]
  norm_num

theorem five_doubles_eq : ([1 / 10, 3 / 10, 1 / 2, 7 / 10, 9 / 10] : List ℚ).map binary64 = five_doubles := by
  have h0 : binary64 (1 / 10) = 3602879701896397 / 36028797018963968 := by
    rw [binary64_eval 7205759403792794 (-56)] <;> norm_num
  have h1 : binary64 (3 / 10) = 5404319552844595 / 18014398509481984 := by
    rw [binary64_eval 5404319552844595 (-54)] <;> norm_num
  have h2 : binary64 (1 / 2) = 1 / 2 := by
    rw [binary64_eval 4503599627370496 (-53)] <;> norm_num
  have h3 : binary64 (7 / 10) = 3152519739159347 / 4503599627370496 := by
    rw [binary64_eval 6305039478318694 (-53)] <;> norm_num
  have h4 : binary64 (9 / 10) = 8106479329266893 / 9007199254740992 := by
    rw [binary64_eval 8106479329266893 (-53)] <;> norm_num
  simp only [List.map, h0, h1, h2, h3, h4, five_doubles]

theorem five_doubles_sorted : sort five_doubles = five_doubles := by
  apply sort_of_sorted
  simp only [five_doubles, List.Sorted, List.pairwise_cons, List.mem_cons, List.mem_singleton,
    List.not_mem_nil, forall_eq_or_imp, forall_eq, List.Pairwise.nil, false_implies,
    implies_true, and_true]
  norm_num

theorem five_doubles_deviation_0 :
    deviation five_doubles 0 = 3602879701896397 / 36028797018963968 := by
  rw [deviation_eval five_doubles 0 (3602879701896397 / 36028797018963968) (3602879701896397 / 18014398509481984)
    (3602879701896397 / 36028797018963968) rfl (by norm_num) (by norm_num)]
  · norm_num [abs_of_pos]
  · rw [binary64_eval 7205759403792794 (-55)] <;> norm_num [five_doubles]
  · rw [binary64_eval 7205759403792794 (-56)] <;> norm_num

theorem five_doubles_deviation_1 :
    deviation five_doubles 1 = 1801439850948199 / 18014398509481984 := by
  rw [deviation_eval five_doubles 1 (5404319552844595 / 18014398509481984) (3602879701896397 / 9007199254740992)
    (1801439850948199 / 18014398509481984) rfl (by norm_num) (by norm_num)]
  · norm_num [abs_of_pos]
  · rw [binary64_eval 7205759403792794 (-54)] <;> norm_num [five_doubles]
  · rw [binary64_eval 7205759403792796 (-56)] <;> norm_num

theorem five_doubles_deviation_2 :
    deviation five_doubles 2 = 900719925474099 / 9007199254740992 := by
  rw [deviation_eval five_doubles 2 (1 / 2) (5404319552844595 / 9007199254740992)
    (900719925474099 / 9007199254740992) rfl (by norm_num) (by norm_num)]
  · norm_num [abs_of_pos]
  · rw [binary64_eval 5404319552844595 (-53)] <;> norm_num [five_doubles]
  · rw [binary64_eval 7205759403792792 (-56)] <;> norm_num

theorem five_doubles_deviation_3 :
    deviation five_doubles 3 = 225179981368525 / 2251799813685248 := by
  rw [deviation_eval five_doubles 3 (3152519739159347 / 4503599627370496) (3602879701896397 / 4503599627370496)
    (225179981368525 / 2251799813685248) rfl (by norm_num) (by norm_num)]
  · norm_num [abs_of_pos]
  · rw [binary64_eval 7205759403792794 (-53)] <;> norm_num [five_doubles]
  · rw [binary64_eval 7205759403792800 (-56)] <;> norm_num

theorem five_doubles_deviation_4 :
    deviation five_doubles 4 = 900719925474099 / 9007199254740992 := by
  rw [deviation_eval five_doubles 4 (8106479329266893 / 9007199254740992) (1)
    (900719925474099 / 9007199254740992) rfl (by norm_num) (by norm_num)]
  · norm_num [abs_of_pos]
  · rw [binary64_eval 4503599627370496 (-52)] <;> norm_num [five_doubles]
  · rw [binary64_eval 7205759403792792 (-56)] <;> norm_num

/-- On the doubles nearest to `(i + 0.5) / 5` the code returns `0.10000000000000009`. -/
theorem kolmogorov_five_doubles : kolmogorov five_doubles = .ok (225179981368525 / 2251799813685248) := by
  rw [kolmogorov_eq _ (by norm_num [five_doubles]), five_doubles_sorted]
  have hl : five_doubles.length = 5 := rfl
  rw [hl]
  simp only [List.range_succ, List.range_zero, List.nil_append,
    List.cons_append, List.map_cons, List.map_nil, five_doubles_deviation_0, five_doubles_deviation_1, five_doubles_deviation_2, five_doubles_deviation_3, five_doubles_deviation_4,
    List.foldl_cons, List.foldl_nil]
  norm_num

theorem binary64_tenth : binary64 (1 / 10) = 3602879701896397 / 36028797018963968 := by
  rw [binary64_eval 7205759403792794 (-56)] <;> norm_num

/-- In exact arithmetic the four-value sample of the specification has statistic
`0.2`. -/
theorem kolmogorov_statistic_four :
    kolmogorov_statistic [1 / 10, 3 / 10, 6 / 10, 9 / 10] = 1 / 5 := by
  have hs : sort [1 / 10, 3 / 10, 6 / 10, 9 / 10] = [1 / 10, 3 / 10, 6 / 10, 9 / 10] := by
    apply sort_of_sorted
    simp only [List.Sorted, List.pairwise_cons, List.mem_cons, List.mem_singleton,
      List.not_mem_nil, forall_eq_or_imp, forall_eq, List.Pairwise.nil, false_implies,
      implies_true, and_true]
    norm_num
  unfold kolmogorov_statistic
  rw [hs]
  simp only [List.length_cons, List.length_nil, List.range_succ, List.range_zero,
    List.nil_append, List.cons_append, List.map_cons, List.map_nil, List.foldl_cons,
    List.foldl_nil, List.getD_cons_zero, List.getD_cons_succ]
  norm_num [abs_of_pos]

/-- A sample with the same number of points in each cell of the default histogram
has statistic exactly `0`. -/
theorem chi_square_of_cells (v : List ℚ) (hlen : v.length < 2 ^ 31)
    (hpos : 0 < v.length) (hdiv : 10 ∣ v.length)
    (hcells : ∀ k, k < 10 →
      v.countP (fun x => (k = 0 ∨ threshold (stride 10 0 1) (k - 1) < x) ∧
        x ≤ threshold (stride 10 0 1) k) = v.length / 10) :
    chi_square v = .ok 0 := by
  obtain ⟨m, hm⟩ := hdiv
  have hm0 : 0 < m := by omega
  have hq : v.length / 10 = m := by omega
  have hprob : binary64 ((v.length : ℚ) / 10) = ((m : ℤ) : ℚ) := by
    have e : (v.length : ℚ) / 10 = ((m : ℤ) : ℚ) := by
      rw [hm]; push_cast; field_simp
    rw [e]
    exact binary64_intCast m (by rw [abs_of_nonneg (by positivity)]; omega)
  rw [chi_square_eq v hlen, hprob]
  apply chi_square_fold_expected
  · exact_mod_cast hm0.ne.symm
  · intro x hx
    obtain ⟨k, hk, rfl⟩ := List.mem_map.mp hx
    rw [bin_count_default v k (List.mem_range.mp hk), hcells k (List.mem_range.mp hk), hq]

/-! ### The statistic on the sample of the specification -/

theorem countP_range_interval (a b : Nat) :
    ∀ n, (List.range n).countP (fun i => decide (a ≤ i ∧ i < b)) = min b n - a := by
  intro n
  induction n with
  | zero => simp
  | succ n ih =>
    rw [List.range_succ, List.countP_append, ih, List.countP_cons, List.countP_nil]
    by_cases h : a ≤ n ∧ n < b
    · simp only [h, and_self, decide_True, if_true]
      omega
    · simp only [h, decide_False, Bool.false_eq_true, if_false]
      omega

/-- Each default threshold is within `2 ^ (-52)` of the decile edge `(k + 1) / 10`. -/
theorem threshold_default_near (k : Nat) (hk : k < 10) :
    |threshold (stride 10 0 1) k - ((k : ℚ) + 1) / 10| ≤ 1 / 2 ^ 52 := by
  obtain ⟨h0, h1, h2, h3, h4, h5, h6, h7, h8, h9⟩ := threshold_default
  interval_cases k
  · rw [h0, abs_le]; constructor <;> norm_num
  · rw [h1, abs_le]; constructor <;> norm_num
  · rw [h2, abs_le]; constructor <;> norm_num
  · rw [h3, abs_le]; constructor <;> norm_num
  · rw [h4, abs_le]; constructor <;> norm_num
  · rw [h5, abs_le]; constructor <;> norm_num
  · rw [h6, abs_le]; constructor <;> norm_num
  · rw [h7, abs_le]; constructor <;> norm_num
  · rw [h8, abs_le]; constructor <;> norm_num
  · rw [h9, abs_le]; constructor <;> norm_num

/-- The double nearest to `(i + 0.5) / (10 m)` is not above threshold `k` exactly
when `i < (k + 1) m`. -/
theorem identity_double_le_threshold (m i k : Nat) (hm0 : 0 < m) (hm : m < 2 ^ 31)
    (hi : i < 10 * m) (hk : k < 10) :
    binary64 (((i : ℚ) + 1 / 2) / ((10 * m : Nat) : ℚ)) ≤ threshold (stride 10 0 1) k
      ↔ i < (k + 1) * m := by
  have hmq : (0 : ℚ) < m := by exact_mod_cast hm0
  have hmq2 : (m : ℚ) < 2 ^ 31 := by exact_mod_cast hm
  have hiq : (i : ℚ) + 1 ≤ 10 * m := by exact_mod_cast hi
  have hq0 : 0 ≤ ((i : ℚ) + 1 / 2) / ((10 * m : Nat) : ℚ) := by positivity
  have hq1 : ((i : ℚ) + 1 / 2) / ((10 * m : Nat) : ℚ) ≤ 1 := by
    rw [div_le_one (by positivity)]; push_cast; linarith
  have herr := binary64_err (((i : ℚ) + 1 / 2) / ((10 * m : Nat) : ℚ))
  rw [abs_of_nonneg hq0] at herr
  have herr2 : |binary64 (((i : ℚ) + 1 / 2) / ((10 * m : Nat) : ℚ))
      - ((i : ℚ) + 1 / 2) / ((10 * m : Nat) : ℚ)| ≤ 1 / 2 ^ 53 :=
    le_trans herr (div_le_div_of_nonneg_right hq1 (by positivity))
  have hthr := threshold_default_near k hk
  rw [abs_le] at herr2 hthr
  have hgap : (3 : ℚ) / 2 ^ 53 < 1 / (20 * m) := by
    rw [div_lt_div_iff₀ (by positivity) (by positivity)]
    norm_num
    linarith
  have hq : ((i : ℚ) + 1 / 2) / ((10 * m : Nat) : ℚ)
      = ((k : ℚ) + 1) / 10 + ((i : ℚ) + 1 / 2 - (k + 1) * m) / (10 * m) := by
    push_cast; field_simp; ring
  generalize binary64 (((i : ℚ) + 1 / 2) / ((10 * m : Nat) : ℚ)) = x at herr2 ⊢
  generalize threshold (stride 10 0 1) k = t at hthr ⊢
  rw [hq] at herr2
  constructor
  · intro hxt
    by_contra hge
    have hge1 : (k + 1) * m ≤ i := not_lt.mp hge
    have hge2 : ((k : ℚ) + 1) * m ≤ i := by exact_mod_cast hge1
    have : 1 / (20 * (m : ℚ)) ≤ ((i : ℚ) + 1 / 2 - (k + 1) * m) / (10 * m) := by
      rw [div_le_div_iff₀ (by positivity) (by positivity)]
      nlinarith
    linarith [herr2.1, hthr.2]
  · intro hlt
    have hlt1 : i + 1 ≤ (k + 1) * m := hlt
    have hlt2 : (i : ℚ) + 1 ≤ ((k : ℚ) + 1) * m := by exact_mod_cast hlt1
    have : ((i : ℚ) + 1 / 2 - (k + 1) * m) / (10 * m) ≤ -(1 / (20 * (m : ℚ))) := by
      rw [← neg_div, div_le_div_iff₀ (by positivity) (by positivity)]
      nlinarith
    linarith [herr2.2, hthr.1]

/-- The doubles nearest to `(i + 0.5) / (10 m)` put exactly `m` points in each cell
of the default histogram. -/
theorem identity_doubles_cells (m k : Nat) (hm0 : 0 < m) (hm : m < 2 ^ 31) (hk : k < 10) :
    ((identity_sample (10 * m)).map binary64).countP
        (fun x => (k = 0 ∨ threshold (stride 10 0 1) (k - 1) < x) ∧
          x ≤ threshold (stride 10 0 1) k) = m := by
  unfold identity_sample
  rw [List.map_map, List.countP_map]
  have hcongr : (List.range (10 * m)).countP
      ((fun x => decide ((k = 0 ∨ threshold (stride 10 0 1) (k - 1) < x) ∧
          x ≤ threshold (stride 10 0 1) k)) ∘
        (binary64 ∘ fun (i : Nat) => ((i : ℚ) + 1 / 2) / ((10 * m : Nat) : ℚ)))
      = (List.range (10 * m)).countP (fun i => decide (k * m ≤ i ∧ i < (k + 1) * m)) := by
    apply List.countP_congr
    intro i hi
    have hi1 : i < 10 * m := List.mem_range.mp hi
    simp only [Function.comp_apply, decide_eq_true_eq]
    rw [identity_double_le_threshold m i k hm0 hm hi1 hk]
    by_cases hk0 : k = 0
    · subst hk0
      simp
    · obtain ⟨j, rfl⟩ := Nat.exists_eq_succ_of_ne_zero hk0
      have hj := identity_double_le_threshold m i j hm0 hm hi1 (by omega)
      simp only [Nat.succ_eq_add_one, Nat.add_one_ne_zero, false_or, Nat.add_sub_cancel]
      rw [← not_le, hj, not_lt]
  rw [hcongr, countP_range_interval]
  have h1 : (k + 1) * m ≤ 10 * m := Nat.mul_le_mul_right m (by omega)
  rw [min_eq_left h1, Nat.add_mul, Nat.one_mul, Nat.add_sub_cancel_left]

/-- For `n = 10 m < 2^31` the doubles nearest to `(i + 0.5) / n`, `0 ≤ i < n`, have
statistic exactly `0`. -/
theorem chi_square_identity_doubles (m : Nat) (hm0 : 0 < m) (hm : 10 * m < 2 ^ 31) :
    chi_square ((identity_sample (10 * m)).map binary64) = .ok 0 := by
  have hlen : ((identity_sample (10 * m)).map binary64).length = 10 * m := by
    simp [identity_sample]
  apply chi_square_of_cells
  · rw [hlen]; exact hm
  · rw [hlen]; omega
  · rw [hlen]; exact Dvd.intro m rfl
  · intro k hk
    rw [hlen, identity_doubles_cells m k hm0 (by omega) hk]
    omega

/-! ### The Bernoulli and binomial samplers -/

theorem get_bernoulli_eq (p : ℚ) (n : Nat) (draws : Nat → ℚ) :
    get_bernoulli p n draws = .ok ((List.range n).map (bernoulli_outcome p draws)) := by
  unfold get_bernoulli
  obtain ⟨st, hst, hres, -⟩ := for_loop_invariant (get_bernoulli_step p draws)
    (fun i st => st.res = (List.range i).map (bernoulli_outcome p draws) ∧ st.pos = i)
    n 0 ⟨[], 0⟩ ⟨rfl, rfl⟩
    (by
      rintro i t - - ⟨hr, hp⟩
      refine ⟨_, rfl, ?_, by simp [hp]⟩
      simp only
      rw [List.range_succ, List.map_append, hr, hp]
      rfl)
  rw [Int.toNat_ofNat, hst]
  simp only [bind, Except.bind, pure, Except.pure]
  rw [hres, Nat.zero_add]

/-- The inner loop of `get_binomial` started after `s` draws. -/
theorem get_binomial_inner_eq (p : ℚ) (draws : Nat → ℚ) (m s : Nat) :
    for_loop (get_binomial_inner p draws) m 0 ⟨0, s⟩
      = .ok ⟨((List.range m).countP (fun j => draws (s + j) ≤ p) : Nat), s + m⟩ := by
  obtain ⟨st, hst, hsum, hpos⟩ := for_loop_invariant (get_binomial_inner p draws)
    (fun j st => st.sum = ((List.range j).countP (fun j => draws (s + j) ≤ p) : Nat)
      ∧ st.pos = s + j)
    m 0 ⟨0, s⟩ ⟨rfl, rfl⟩
    (by
      rintro j t - - ⟨hs, hp⟩
      refine ⟨_, rfl, ?_, by simp only [hp]; omega⟩
      simp only
      rw [List.range_succ, List.countP_append, hs, hp, List.countP_cons, List.countP_nil]
      by_cases h : draws (s + j) ≤ p
      · simp [h]
      · simp [h])
  rw [hst]
  rw [Nat.zero_add] at hsum hpos
  cases st
  simp only at hsum hpos
  rw [hsum, hpos]

theorem get_binomial_eq (m : Nat) (p : ℚ) (n : Nat) (draws : Nat → ℚ) :
    get_binomial m p n draws = .ok ((List.range n).map (success_count m p draws)) := by
  unfold get_binomial
  obtain ⟨st, hst, hres, -⟩ := for_loop_invariant (get_binomial_step m p draws)
    (fun i st => st.res = (List.range i).map (success_count m p draws) ∧ st.pos = i * m)
    n 0 ⟨[], 0⟩ ⟨rfl, by simp⟩
    (by
      rintro i t - - ⟨hr, hp⟩
      refine ⟨⟨t.res ++ [success_count m p draws i], t.pos + m⟩, ?_, ?_, ?_⟩
      · unfold get_binomial_step
        rw [Int.toNat_ofNat, get_binomial_inner_eq, hp]
        rfl
      · simp only
        rw [List.range_succ, List.map_append, hr]
        rfl
      · simp only [hp]; ring)
  rw [Int.toNat_ofNat, hst]
  simp only [bind, Except.bind, pure, Except.pure]
  rw [hres, Nat.zero_add]

theorem countP_eq_sum_indicator (l : List Nat) (q : Nat → Prop) [DecidablePred q] :
    ((l.countP (fun x => decide (q x)) : Nat) : Int)
      = (l.map fun x => if q x then (1 : Int) else 0).sum := by
  induction l with
  | nil => rfl
  | cons x xs ih =>
    rw [List.countP_cons, List.map_cons, List.sum_cons, ← ih]
    by_cases h : q x
    · simp [h]; ring
    · simp [h]

/-- A count of successes is a sum of Bernoulli outcomes. -/
theorem success_count_eq_sum (m : Nat) (p : ℚ) (draws : Nat → ℚ) (i : Nat) :
    success_count m p draws i
      = ((List.range m).map fun j => bernoulli_outcome p draws (i * m + j)).sum := by
  unfold success_count bernoulli_outcome
  exact countP_eq_sum_indicator (List.range m) (fun j => draws (i * m + j) ≤ p)

theorem success_count_bounds (m : Nat) (p : ℚ) (draws : Nat → ℚ) (i : Nat) :
    0 ≤ success_count m p draws i ∧ success_count m p draws i ≤ m := by
  unfold success_count
  constructor
  · positivity
  · have := List.countP_le_length (fun j => decide (draws (i * m + j) ≤ p)) (l := List.range m)
    rw [List.length_range] at this
    exact_mod_cast this


/-! ### Invariance under rearrangement, and the empty request -/

theorem sort_eq_of_perm (v w : List ℚ) (h : v.Perm w) : sort v = sort w :=
  List.eq_of_perm_of_sorted (((sort_perm v).trans h).trans (sort_perm w).symm)
    (sort_sorted v) (sort_sorted w)

theorem calc_bins_perm (v w : List ℚ) (h : v.Perm w) (bins_cnt : Int) (start end_ : ℚ) :
    calc_bins v bins_cnt start end_ = calc_bins w bins_cnt start end_ := by
  unfold calc_bins
  rw [sort_eq_of_perm v w h]

theorem chi_square_perm (v w : List ℚ) (h : v.Perm w) : chi_square v = chi_square w := by
  unfold chi_square
  rw [calc_bins_perm v w h, h.length_eq]

theorem kolmogorov_perm (v w : List ℚ) (h : v.Perm w) : kolmogorov v = kolmogorov w := by
  unfold kolmogorov
  rw [sort_eq_of_perm v w h]

theorem mult_congr_zero : mult_congr 0 = .error .out_of_range := by
  rfl

theorem mult_congr_states_zero : mult_congr_states 0 = .error .out_of_range := by
  rfl

/-! ### The period of the congruential generator -/

/-- The multiplier is `1 + 4 * odd`, so its `2^k`-th power is `1 + 2^(k+2) * odd`. -/
theorem multiplier_pow_two_pow (k : Nat) :
    ∃ t, t % 2 = 1 ∧ 24389 ^ 2 ^ k = 1 + 2 ^ (k + 2) * t := by
  induction k with
  | zero => exact ⟨6097, by norm_num, by norm_num⟩
  | succ k ih =>
    obtain ⟨t, ht, h⟩ := ih
    refine ⟨t + 2 ^ (k + 1) * t ^ 2, ?_, ?_⟩
    · have : 2 ^ (k + 1) * t ^ 2 = 2 * (2 ^ k * t ^ 2) := by ring
      omega
    · rw [pow_succ 2 k, pow_mul, h]
      ring

theorem multiplier_pow_period : 24389 ^ 2 ^ 29 % 2 ^ 31 = 1 := by
  obtain ⟨t, -, h⟩ := multiplier_pow_two_pow 29
  rw [h]
  have e : 1 + 2 ^ (29 + 2) * t = 1 + 2 ^ 31 * t := rfl
  rw [e, Nat.add_mul_mod_self_left]
  rfl

theorem multiplier_pow_half_period : 24389 ^ 2 ^ 28 % 2 ^ 31 = 1 + 2 ^ 30 := by
  obtain ⟨t, ht, h⟩ := multiplier_pow_two_pow 28
  rw [h]
  obtain ⟨s, hs⟩ : ∃ s, t = 2 * s + 1 := ⟨t / 2, by omega⟩
  have e : 1 + 2 ^ (28 + 2) * t = (1 + 2 ^ 30) + 2 ^ 31 * s := by
    rw [hs]; ring
  rw [e, Nat.add_mul_mod_self_left]
  rfl

theorem multiplier_coprime : Nat.Coprime 24389 (2 ^ 31) :=
  Nat.Coprime.pow_right 31 (by norm_num)

/-- The multiplier has order exactly `2^29` among the units modulo `2^31`. -/
theorem multiplier_order :
    orderOf (ZMod.unitOfCoprime 24389 multiplier_coprime) = 2 ^ 29 := by
  have key : ∀ e : Nat, (ZMod.unitOfCoprime 24389 multiplier_coprime) ^ e = 1 ↔
      24389 ^ e % 2 ^ 31 = 1 := by
    intro e
    rw [← Units.eq_iff, Units.val_pow_eq_pow_val, ZMod.coe_unitOfCoprime, Units.val_one]
    have h1 : ((24389 : ℕ) : ZMod (2 ^ 31)) ^ e = ((24389 ^ e : ℕ) : ZMod (2 ^ 31)) := by
      push_cast; rfl
    have h2 : (1 : ZMod (2 ^ 31)) = ((1 : ℕ) : ZMod (2 ^ 31)) := by push_cast; rfl
    rw [h1, h2, ZMod.natCast_eq_natCast_iff']
    rfl
  apply orderOf_eq_prime_pow
  · rw [key, multiplier_pow_half_period]
    intro h
    have h30 : 0 < 2 ^ 30 := Nat.pow_pos (by decide)
    omega
  · rw [key, show (28 : ℕ) + 1 = 29 from rfl]
    exact multiplier_pow_period

/-- Two powers of the multiplier agree modulo `2^31` exactly when the exponents agree
modulo `2^29`. -/
theorem multiplier_pow_eq_iff (a b : Nat) :
    24389 ^ a % 2 ^ 31 = 24389 ^ b % 2 ^ 31 ↔ a % 2 ^ 29 = b % 2 ^ 29 := by
  have h := pow_eq_pow_iff_modEq (x := ZMod.unitOfCoprime 24389 multiplier_coprime)
    (n := a) (m := b)
  rw [multiplier_order] at h
  rw [← Units.eq_iff, Units.val_pow_eq_pow_val, Units.val_pow_eq_pow_val,
    ZMod.coe_unitOfCoprime] at h
  have h1 : ∀ e : Nat, ((24389 : ℕ) : ZMod (2 ^ 31)) ^ e = ((24389 ^ e : ℕ) : ZMod (2 ^ 31)) := by
    intro e; push_cast; rfl
  rw [h1, h1, ZMod.natCast_eq_natCast_iff'] at h
  exact h

/-! ### The combiner only reshuffles -/

/-- What a finished `while` loop of `get_poisson` has done: started on the running
product of index `j`, it stopped at the first index `r ≥ j` whose product is below the
bound. -/
theorem poisson_while_ok (bound : ℚ) (draws : Nat → ℚ) (s : Nat) :
    ∀ (fuel j : Nat) (k : Int) (w : PoissonState),
      poisson_while bound draws fuel ⟨running_product draws s j, k, s + j + 1⟩ = some (.ok w) →
      ∃ r, j ≤ r ∧ w = ⟨running_product draws s r, k + ((r - j : Nat) : Int), s + r + 1⟩ ∧
        running_product draws s r < bound ∧
        ∀ t, j ≤ t → t < r → bound ≤ running_product draws s t := by
  intro fuel
  induction fuel with
  | zero => intro j k w h; simp [poisson_while] at h
  | succ fuel ih =>
    intro j k w h
    unfold poisson_while at h
    simp only at h
    by_cases hb : bound ≤ running_product draws s j
    · rw [if_pos hb] at h
      by_cases hk : k + 1 < 2 ^ 31
      · rw [if_pos hk] at h
        obtain ⟨r, hr, hw, hlt, hge⟩ := ih (j + 1) (k + 1) w h
        refine ⟨r, by omega, ?_, hlt, ?_⟩
        · rw [hw]
          congr 1
          have : ((r - j : Nat) : Int) = ((r - (j + 1) : Nat) : Int) + 1 := by omega
          rw [this]; ring
        · intro t ht1 ht2
          by_cases htj : t = j
          · rw [htj]; exact hb
          · exact hge t (by omega) ht2
      · rw [if_neg hk] at h
        exact absurd h (by simp)
    · rw [if_neg hb] at h
      have hw : w = ⟨running_product draws s j, k, s + j + 1⟩ :=
        (Except.ok.inj (Option.some.inj h)).symm
      refine ⟨j, le_refl j, ?_, not_le.mp hb, fun t h1 h2 => absurd h2 (by omega)⟩
      rw [hw]
      simp

/-- Rounding keeps a non-negative value non-negative. -/
theorem binary64_nonneg {q : ℚ} (h : 0 ≤ q) : 0 ≤ binary64 q := by
  have := binary64_err q
  rw [abs_of_nonneg h] at this
  have h2 := (abs_le.mp this).1
  have h3 : q / 2 ^ 53 ≤ q := div_le_self h (by norm_num)
  linarith

/-- Rounding keeps a positive value positive. -/
theorem binary64_pos {q : ℚ} (h : 0 < q) : 0 < binary64 q := by
  have := binary64_err q
  rw [abs_of_pos h] at this
  have h2 := (abs_le.mp this).1
  have h3 : q / 2 ^ 53 < q := div_lt_self h (by norm_num)
  linarith

/-- The nearest integer to a non-negative value is non-negative. -/
theorem round_even_nonneg {x : ℚ} (h : 0 ≤ x) : 0 ≤ round_even x := by
  have herr := round_even_err x
  have h2 := (abs_le.mp herr).1
  have h3 : ((-1 : ℤ) : ℚ) < (round_even x : ℚ) := by push_cast; linarith
  have h4 : (-1 : ℤ) < round_even x := by exact_mod_cast h3
  omega

/-- Rounding with gradual underflow keeps a non-negative value non-negative. -/
theorem binary64_gradual_nonneg {q : ℚ} (h : 0 ≤ q) : 0 ≤ binary64_gradual q := by
  unfold binary64_gradual
  split
  · have hr : (0 : ℚ) ≤ (round_even (q * 2 ^ 1074) : ℚ) :=
      Int.cast_nonneg.mpr (round_even_nonneg (mul_nonneg h (by positivity)))
    exact div_nonneg hr (by positivity)
  · exact binary64_nonneg h

/-- In the normal range the rounding with gradual underflow is `binary64`. -/
theorem binary64_gradual_of_ge {q : ℚ} (h : 1 / 2 ^ 1022 ≤ |q|) :
    binary64_gradual q = binary64 q := by
  unfold binary64_gradual
  rw [if_neg (not_lt.mpr h)]

/-- The running product of non-negative draws is non-negative. -/
theorem running_product_nonneg (draws : Nat → ℚ) (h : ∀ k, 0 ≤ draws k) (s : Nat) :
    ∀ j, 0 ≤ running_product draws s j
  | 0 => h s
  | j + 1 => binary64_gradual_nonneg (mul_nonneg (running_product_nonneg draws h s j) (h _))

/-- Entries below the index of a store do not change the draws counted before them. -/
theorem draws_before_set (res : List Int) (i t : Nat) (x : Int) (h : t ≤ i) :
    draws_before (res.set i x) t = draws_before res t := by
  unfold draws_before
  rw [List.set_take, List.set_eq_of_length_le]
  exact le_trans (List.length_take_le t res) h

/-- Storing the output `r` at index `i` adds its `r + 1` draws. -/
theorem draws_before_set_succ (res : List Int) (i : Nat) (r : Nat) (h : i < res.length) :
    draws_before (res.set i (r : Int)) (i + 1) = draws_before res i + (r + 1) := by
  unfold draws_before
  have hi : i < (res.set i (r : Int)).length := by rw [List.length_set]; exact h
  rw [List.take_succ, List.getElem?_set_self h, List.set_take,
    List.set_eq_of_length_le (List.length_take_le i res)]
  simp

/-- One finished pass of the `for` loop of `get_poisson` stores a Knuth count. -/
theorem get_poisson_step_ok (bound : ℚ) (draws : Nat → ℚ) (fuel n i : Nat)
    (st st1 : SamplerState) (h : get_poisson_step bound draws fuel i st = some (.ok st1))
    (hinv : knuth_outputs bound draws n i st) : knuth_outputs bound draws n (i + 1) st1 := by
  obtain ⟨hlen, hpos, hall⟩ := hinv
  unfold get_poisson_step at h
  cases hw : poisson_while bound draws fuel ⟨draws st.pos, 1, st.pos + 1⟩ with
  | none => rw [hw] at h; simp at h
  | some x =>
    cases x with
    | error e => rw [hw] at h; simp at h
    | ok w =>
      rw [hw] at h
      simp only at h
      obtain ⟨r, -, hwr, hlt, hge⟩ := poisson_while_ok bound draws st.pos fuel 0 1 w hw
      cases hs : store st.res i (w.k - 1) with
      | error e => rw [hs] at h; simp at h
      | ok res =>
        rw [hs] at h
        have hst1 : st1 = ⟨res, w.pos⟩ := (Except.ok.inj (Option.some.inj h)).symm
        obtain ⟨hi, hres⟩ := store_ok_iff.mp hs
        have hk : w.k - 1 = (r : Int) := by rw [hwr]; simp
        have hwp : w.pos = st.pos + r + 1 := by rw [hwr]
        rw [hk] at hres
        subst hst1
        refine ⟨?_, ?_, ?_⟩
        · show res.length = n
          rw [hres, List.length_set]; exact hlen
        · show w.pos = draws_before res (i + 1)
          rw [hres, draws_before_set_succ _ _ _ hi, hwp, hpos]; ring
        · intro t ht
          show ∃ r : Nat, res[t]? = some (r : Int) ∧ _
          by_cases hti : t = i
          · subst hti
            refine ⟨r, ?_, ?_⟩
            · rw [hres, List.getElem?_set_self hi]
            · rw [hres, draws_before_set _ _ _ _ (le_refl t), ← hpos]
              exact ⟨hlt, fun j hj => hge j (Nat.zero_le j) hj⟩
          · obtain ⟨r0, h1, h2⟩ := hall t (by omega)
            refine ⟨r0, ?_, ?_⟩
            · rw [hres, List.getElem?_set_ne (fun h => hti h.symm)]; exact h1
            · rw [hres, draws_before_set _ _ _ _ (by omega : t ≤ i)]; exact h2

/-- A finished `for` loop of `get_poisson` has stored Knuth counts at all its indices. -/
theorem get_poisson_loop_ok (bound : ℚ) (draws : Nat → ℚ) (fuel n : Nat) :
    ∀ (count i : Nat) (st st1 : SamplerState),
      get_poisson_loop bound draws fuel count i st = some (.ok st1) →
      knuth_outputs bound draws n i st → knuth_outputs bound draws n (i + count) st1 := by
  intro count
  induction count with
  | zero =>
    intro i st st1 h hinv
    have : st1 = st := (Except.ok.inj (Option.some.inj h)).symm
    rw [this]; exact hinv
  | succ count ih =>
    intro i st st1 h hinv
    unfold get_poisson_loop at h
    cases hs : get_poisson_step bound draws fuel i st with
    | none => rw [hs] at h; simp at h
    | some x =>
      cases x with
      | error e => rw [hs] at h; simp at h
      | ok st2 =>
        rw [hs] at h
        have := ih (i + 1) st2 st1 h (get_poisson_step_ok bound draws fuel n i st st2 hs hinv)
        rw [show i + (count + 1) = i + 1 + count by ring]
        exact this

/-- The `while` loop of `get_poisson` goes on while the product is not below the bound. -/
theorem poisson_while_continue (bound : ℚ) (draws : Nat → ℚ) (fuel : Nat) (st : PoissonState)
    (hb : bound ≤ st.product) (hk : st.k + 1 < 2 ^ 31) :
    poisson_while bound draws (fuel + 1) st =
      poisson_while bound draws fuel
        ⟨binary64_gradual (st.product * draws st.pos), st.k + 1, st.pos + 1⟩ := by
  rw [poisson_while, if_pos hb, if_pos hk]

/-- The `while` loop of `get_poisson` stops when the product is below the bound. -/
theorem poisson_while_stop (bound : ℚ) (draws : Nat → ℚ) (fuel : Nat) (st : PoissonState)
    (hb : st.product < bound) : poisson_while bound draws (fuel + 1) st = some (.ok st) := by
  rw [poisson_while, if_neg (not_le.mpr hb)]

/-- The run of `get_poisson(1, 1)` on `knuth_stream`: the rounded product of the first
two draws is the bound itself, and the loop goes on to a third draw. -/
theorem get_poisson_run_knuth_stream :
    get_poisson_run (fun _ => exp_minus_one) 1 1 knuth_stream 4 = some (.ok ⟨[2], 3⟩) := by
  have hE : Double.exp (fun _ => exp_minus_one) ((-1 : Int) : ℚ) = exp_minus_one := by
    unfold Double.exp
    rw [if_neg (by norm_num)]
  have h0 : knuth_stream 0 = 3 / 4 := rfl
  have h1 : knuth_stream 1 = 4418084571138597 / 9007199254740992 := rfl
  have h2 : knuth_stream 2 = 1 / 4 := rfl
  have r1 : binary64_gradual ((3 / 4 : ℚ) * (4418084571138597 / 9007199254740992)) =
      exp_minus_one := by
    rw [binary64_gradual_of_ge (by rw [abs_of_pos (by norm_num)]; norm_num)]
    unfold exp_minus_one
    rw [binary64_eval_tie 6627126856707896 (-54)] <;> norm_num
  have r2 : binary64_gradual (exp_minus_one * (1 / 4)) = exp_minus_one * (1 / 4) := by
    unfold exp_minus_one
    rw [binary64_gradual_of_ge (by rw [abs_of_pos (by norm_num)]; norm_num)]
    exact binary64_of_dyadic 828390857088487 (-53) (by norm_num) _ (by norm_num)
  have hw : poisson_while exp_minus_one knuth_stream 4 ⟨knuth_stream 0, 1, 0 + 1⟩ =
      some (.ok ⟨exp_minus_one * (1 / 4), 3, 3⟩) := by
    rw [poisson_while_continue exp_minus_one knuth_stream 3 ⟨knuth_stream 0, 1, 0 + 1⟩
      (by rw [h0]; unfold exp_minus_one; norm_num) (by norm_num)]
    simp only [h0, h1, r1]
    rw [poisson_while_continue exp_minus_one knuth_stream 2 ⟨exp_minus_one, 1 + 1, 0 + 1 + 1⟩
      (le_refl _) (by norm_num)]
    simp only [h2, r2]
    rw [poisson_while_stop exp_minus_one knuth_stream 1
      ⟨exp_minus_one * (1 / 4), 1 + 1 + 1, 0 + 1 + 1 + 1⟩ (by unfold exp_minus_one; norm_num)]
    norm_num
  unfold get_poisson_run
  rw [vector_fill_eq_ok (0 : Int) (by norm_num : (0 : Int) ≤ 1), hE]
  show get_poisson_loop exp_minus_one knuth_stream 4 1 0 ⟨List.replicate 1 0, 0⟩ = _
  unfold get_poisson_loop get_poisson_step
  simp only [hw]
  rfl

/-- With a zero bound and non-negative draws the `while` loop of `get_poisson` never
leaves: it is still running when the fuel is spent, unless the counter has left the
range of `int` before. -/
theorem poisson_while_zero_bound (draws : Nat → ℚ) (h : ∀ k, 0 ≤ draws k) :
    ∀ (fuel : Nat) (st : PoissonState), 0 ≤ st.product →
      poisson_while 0 draws fuel st = none ∨
        poisson_while 0 draws fuel st = some (.error .int_overflow) := by
  intro fuel
  induction fuel with
  | zero => intro st _; left; rfl
  | succ fuel ih =>
    intro st hp
    by_cases hk : st.k + 1 < 2 ^ 31
    · rw [poisson_while_continue 0 draws fuel st hp hk]
      exact ih _ (binary64_gradual_nonneg (mul_nonneg hp (h _)))
    · right
      rw [poisson_while, if_pos hp, if_neg hk]

/-- With a zero bound and non-negative draws `get_poisson` does not produce its first
output. -/
theorem get_poisson_loop_zero_bound (draws : Nat → ℚ) (h : ∀ k, 0 ≤ draws k) (fuel count i : Nat)
    (st : SamplerState) :
    get_poisson_loop 0 draws fuel (count + 1) i st = none ∨
      get_poisson_loop 0 draws fuel (count + 1) i st = some (.error .int_overflow) := by
  unfold get_poisson_loop get_poisson_step
  rcases poisson_while_zero_bound draws h fuel ⟨draws st.pos, 1, st.pos + 1⟩ (h _) with hw | hw
  · left; rw [hw]
  · right; rw [hw]

/-- For `lambda ≥ 746` the bound `exp(-lambda)` is zero and `get_poisson` returns no
sample of size `size ≥ 1`, whatever the non-negative draws. -/
theorem get_poisson_hangs (ex : ℚ → ℚ) (lambda size : Int) (hl : 746 ≤ lambda) (hs : 1 ≤ size)
    (draws : Nat → ℚ) (h : ∀ k, 0 ≤ draws k) (fuel : Nat) :
    get_poisson ex lambda size draws fuel = none ∨
      get_poisson ex lambda size draws fuel = some (.error .int_overflow) := by
  have hE : Double.exp ex ((-lambda : Int) : ℚ) = 0 := by
    unfold Double.exp
    rw [if_pos]
    have : ((-lambda : Int) : ℚ) ≤ ((-746 : Int) : ℚ) := by exact_mod_cast (by omega : -lambda ≤ -746)
    simpa using this
  obtain ⟨c, hc⟩ : ∃ c, size.toNat = c + 1 := ⟨size.toNat - 1, by omega⟩
  unfold get_poisson get_poisson_run
  rw [vector_fill_eq_ok (0 : Int) (by omega : (0 : Int) ≤ size), hE, hc]
  rcases get_poisson_loop_zero_bound draws h fuel c 0 ⟨List.replicate (c + 1) 0, 0⟩ with hw | hw
  · left; simp only [hw]
  · right; simp only [hw]

/-! ### The geometric sampler in its regular regime -/

/-- For `p = 2^-60` the difference `1 - p` rounds to `1`. -/
theorem binary64_one_minus_tiny : binary64 (1 - 1 / 2 ^ 60) = 1 := by
  rw [binary64_eval 9007199254740992 (-53)] <;> norm_num

/-- When `1 - p` rounds to `1` its logarithm is zero, the quotient is not finite and
the conversion to `int` fails. -/
theorem get_geometric_step_log_zero (ln : ℚ → ℚ) (p : ℚ) (draws : Nat → ℚ) (i : Nat)
    (res : List Int) (hp : binary64 (1 - p) = 1) (h0 : 0 < draws i) (h1 : draws i < 1) :
    get_geometric_step ln p draws i res = .error .bad_conversion := by
  unfold get_geometric_step
  simp only [hp]
  have hD : Double.log ln (.finite 1) = .finite 0 := by
    simp [Double.log]
  have hL : Double.log ln (.finite (draws i)) = .finite (ln (draws i)) := by
    unfold Double.log
    simp only
    rw [if_neg (not_lt.mpr h0.le), if_neg (ne_of_gt h0), if_neg (ne_of_lt h1)]
  rw [hD, hL]
  unfold Double.div
  simp only [if_true]
  by_cases ha : ln (draws i) = 0
  · rw [if_pos ha]; rfl
  · rw [if_neg ha]
    by_cases hb : 0 < ln (draws i)
    · rw [if_pos hb]; rfl
    · rw [if_neg hb]; rfl

/-- An iteration of `get_geometric` in the regular regime: both logarithms are finite
and negative and the quotient fits an `int`. -/
theorem get_geometric_step_regular (ln : ℚ → ℚ) (p : ℚ) (draws : Nat → ℚ) (i : Nat)
    (res : List Int) (hi : i < res.length)
    (hq0 : 0 < binary64 (1 - p)) (hq1 : binary64 (1 - p) < 1)
    (hD : ln (binary64 (1 - p)) < 0)
    (h0 : 0 < draws i) (h1 : draws i < 1) (hL : ln (draws i) < 0)
    (hfit : binary64 (ln (draws i) / ln (binary64 (1 - p))) ≤ 2 ^ 31 - 1) :
    get_geometric_step ln p draws i res = .ok (res.set i (geometric_outcome ln p (draws i))) ∧
      1 ≤ geometric_outcome ln p (draws i) := by
  have hpos : 0 < binary64 (ln (draws i) / ln (binary64 (1 - p))) :=
    binary64_pos (div_pos_of_neg_of_neg hL hD)
  have hk1 : 1 ≤ geometric_outcome ln p (draws i) := by
    unfold geometric_outcome
    exact Int.one_le_ceil_iff.mpr hpos
  have hk2 : geometric_outcome ln p (draws i) ≤ 2 ^ 31 - 1 := by
    unfold geometric_outcome
    apply Int.ceil_le.mpr
    push_cast
    linarith
  refine ⟨?_, hk1⟩
  unfold get_geometric_step
  have hLd : Double.log ln (.finite (draws i)) = .finite (ln (draws i)) := by
    unfold Double.log
    simp only
    rw [if_neg (not_lt.mpr h0.le), if_neg (ne_of_gt h0), if_neg (ne_of_lt h1)]
  have hDd : Double.log ln (.finite (binary64 (1 - p))) = .finite (ln (binary64 (1 - p))) := by
    unfold Double.log
    simp only
    rw [if_neg (not_lt.mpr hq0.le), if_neg (ne_of_gt hq0), if_neg (ne_of_lt hq1)]
  simp only [hLd, hDd]
  have hdiv : Double.div (.finite (ln (draws i))) (.finite (ln (binary64 (1 - p)))) =
      .finite (binary64 (ln (draws i) / ln (binary64 (1 - p)))) := by
    unfold Double.div
    simp only
    rw [if_neg (ne_of_lt hD)]
  rw [hdiv]
  have hconv : Double.to_int (Double.ceil
      (.finite (binary64 (ln (draws i) / ln (binary64 (1 - p)))))) =
      .ok (geometric_outcome ln p (draws i)) := by
    unfold Double.ceil Double.to_int double_to_int
    simp only
    have hc : (0 : ℚ) ≤ ((⌈binary64 (ln (draws i) / ln (binary64 (1 - p)))⌉ : ℤ) : ℚ) := by
      exact_mod_cast (by unfold geometric_outcome at hk1; omega :
        (0 : ℤ) ≤ ⌈binary64 (ln (draws i) / ln (binary64 (1 - p)))⌉)
    rw [if_pos hc, Int.floor_intCast]
    unfold geometric_outcome at hk1 hk2 ⊢
    rw [if_pos ⟨by omega, by omega⟩]
  rw [hconv]
  simp only [bind, Except.bind]
  exact store_eq_ok _ hi

/-- The inverse-CDF bracket: an integer `k` with `k - 1 < ln u / ln a ≤ k`, for `a` and
`u` in `(0,1)`, satisfies `a^k ≤ u < a^(k-1)`, is at least `1` and is the least integer
with `a^k ≤ u`. -/
theorem inverse_cdf_bracket (a u : ℝ) (ha0 : 0 < a) (ha1 : a < 1) (hu0 : 0 < u) (hu1 : u < 1)
    (k : ℤ) (h1 : (k : ℝ) - 1 < Real.log u / Real.log a) (h2 : Real.log u / Real.log a ≤ k) :
    a ^ k ≤ u ∧ u < a ^ (k - 1) ∧ 1 ≤ k ∧ ∀ j : ℤ, a ^ j ≤ u → k ≤ j := by
  have hla : Real.log a < 0 := Real.log_neg ha0 ha1
  have hlu : Real.log u < 0 := Real.log_neg hu0 hu1
  have key : ∀ j : ℤ, a ^ j ≤ u ↔ Real.log u / Real.log a ≤ j := by
    intro j
    rw [← Real.log_le_log_iff (zpow_pos ha0 j) hu0, Real.log_zpow, div_le_iff_of_neg hla]
  have hq : 0 < Real.log u / Real.log a := div_pos_of_neg_of_neg hlu hla
  refine ⟨(key k).mpr h2, ?_, ?_, ?_⟩
  · rw [← not_le, key]
    push_cast
    exact not_le.mpr h1
  · have : (0 : ℝ) < k := lt_of_lt_of_le hq h2
    exact_mod_cast this
  · intro j hj
    have h3 : (k : ℝ) - 1 < j := lt_of_lt_of_le h1 ((key j).mp hj)
    have h4 : ((k - 1 : ℤ) : ℝ) < ((j : ℤ) : ℝ) := by push_cast; exact h3
    have := Int.cast_lt.mp h4
    omega

/-! ### The moment estimators -/

/-- A left fold that adds `f x` is the sum of the `f x`. -/
theorem foldl_add_eq_sum {α : Type} (f : α → ℚ) (l : List α) (a : ℚ) :
    l.foldl (fun acc x => acc + f x) a = a + (l.map f).sum := by
  induction l generalizing a with
  | nil => simp
  | cons x l ih => rw [List.foldl_cons, ih, List.map_cons, List.sum_cons, add_assoc]

/-- In exact arithmetic `mean()` is the mean of the sample. -/
theorem mean_exact (elements : List Int) (h : elements.length ≠ 0) :
    Moments.mean id elements = .ok (sample_mean elements) := by
  unfold Moments.mean sample_mean
  simp only [id]
  rw [if_neg h, foldl_add_eq_sum (fun x : Int => (x : ℚ)), zero_add]

/-- In exact arithmetic `central_moment(k)` is `sum((x - mean)^k) / m`. -/
theorem central_moment_exact (elements : List Int) (k : Nat) (h : elements.length ≠ 0) :
    Moments.central_moment id (fun x n => x ^ n) elements k = .ok (sample_central_moment elements k) := by
  unfold Moments.central_moment
  rw [mean_exact elements h]
  simp only [bind, Except.bind, pure, Except.pure, id]
  rw [foldl_add_eq_sum (fun x : Int => ((x : ℚ) - sample_mean elements) ^ k), zero_add]
  rfl

/-- In exact arithmetic the value of `central_moment_2_unbiased` is `cm2 * m / (m - 1)`. -/
theorem central_moment_2_unbiased_value_exact (cm2 : ℚ) (m : Nat) (hm : 2 ≤ m) :
    central_moment_2_unbiased_value id cm2 (m : Int) = .ok (cm2 * m / ((m : ℚ) - 1)) := by
  unfold central_moment_2_unbiased_value
  rw [if_neg (by omega)]
  simp only [id]
  push_cast
  rfl

/-- In exact arithmetic the value of `kurtosis_unbiased` is the expression of the three
statements. -/
theorem kurtosis_unbiased_value_exact (cm2 cm4 : ℚ) (m : Nat) (hc : cm2 ≠ 0) (hm : 4 ≤ m)
    (hm64 : m + 1 < 2 ^ 64) :
    kurtosis_unbiased_value id cm2 cm4 m = .ok (kurtosis_formula cm2 cm4 m) := by
  have hm4 : (4 : ℚ) ≤ m := by exact_mod_cast hm
  have e0 : ((((m + 1) % 2 ^ 64 : Nat) : Nat) : ℚ) = (m : ℚ) + 1 := by
    rw [Nat.mod_eq_of_lt hm64]; push_cast; rfl
  have e1 : ((size_t_sub m 1 : Int) : ℚ) = (m : ℚ) - 1 := by
    have : size_t_sub m 1 = (m : Int) - 1 := by unfold size_t_sub; omega
    rw [this]; push_cast; rfl
  have e2 : ((size_t_sub m 2 : Int) : ℚ) = (m : ℚ) - 2 := by
    have : size_t_sub m 2 = (m : Int) - 2 := by unfold size_t_sub; omega
    rw [this]; push_cast; rfl
  have e3 : ((size_t_sub m 3 : Int) : ℚ) = (m : ℚ) - 3 := by
    have : size_t_sub m 3 = (m : Int) - 3 := by unfold size_t_sub; omega
    rw [this]; push_cast; rfl
  have n0 : (m : ℚ) + 1 ≠ 0 := by linarith
  have n2 : (m : ℚ) - 2 ≠ 0 := by linarith
  have n3 : (m : ℚ) - 3 ≠ 0 := by linarith
  unfold kurtosis_unbiased_value
  simp only [id, e0, e1, e2, e3]
  rw [if_neg (by simp [hc, n0, n2, n3])]
  congr 1
  unfold kurtosis_formula
  field_simp
  ring

/-- The expression of `kurtosis_unbiased` is the bias-corrected excess kurtosis `G2`. -/
theorem kurtosis_formula_eq_G2 (cm2 cm4 m : ℚ) (h2 : m - 2 ≠ 0) (h3 : m - 3 ≠ 0)
    (h1 : m + 1 ≠ 0) : kurtosis_formula cm2 cm4 m = excess_kurtosis_G2 cm2 cm4 m := by
  unfold kurtosis_formula excess_kurtosis_G2
  field_simp
  ring

/-- The double mean of the sample `0, 0, 0, 1`. -/
theorem mean_binary64_sample : Moments.mean binary64 [0, 0, 0, 1] = .ok (1 / 4) := by
  have b4 : binary64 4 = 4 := binary64_of_dyadic 1 2 (by norm_num) _ (by norm_num)
  have b14 : binary64 (1 / 4) = 1 / 4 := binary64_of_dyadic 1 (-2) (by norm_num) _ (by norm_num)
  unfold Moments.mean
  norm_num [List.foldl, binary64_zero, binary64_one, b4]
  norm_num at b14
  exact b14

/-- The double moment `cm2` of the sample `0, 0, 0, 1`. -/
theorem central_moment_2_binary64_sample :
    Moments.central_moment binary64 (fun x n => x ^ n) [0, 0, 0, 1] 2 = .ok (3 / 16) := by
  have b4 : binary64 4 = 4 := binary64_of_dyadic 1 2 (by norm_num) _ (by norm_num)
  have c1 : binary64 (-(1 / 4)) = -(1 / 4) :=
    binary64_of_dyadic (-1) (-2) (by norm_num) _ (by norm_num)
  have c2 : binary64 (3 / 4) = 3 / 4 := binary64_of_dyadic 3 (-2) (by norm_num) _ (by norm_num)
  have c3 : binary64 (1 / 16) = 1 / 16 := binary64_of_dyadic 1 (-4) (by norm_num) _ (by norm_num)
  have c4 : binary64 (9 / 16) = 9 / 16 := binary64_of_dyadic 9 (-4) (by norm_num) _ (by norm_num)
  have c5 : binary64 (1 / 8) = 1 / 8 := binary64_of_dyadic 1 (-3) (by norm_num) _ (by norm_num)
  have c6 : binary64 (3 / 16) = 3 / 16 := binary64_of_dyadic 3 (-4) (by norm_num) _ (by norm_num)
  unfold Moments.central_moment
  rw [mean_binary64_sample]
  norm_num [List.foldl, bind, Except.bind, pure, Except.pure, binary64_zero, binary64_one, b4,
    c1, c2, c3, c4, c5, c6]

/-- The double moment `cm4` of the sample `0, 0, 0, 1`. -/
theorem central_moment_4_binary64_sample :
    Moments.central_moment binary64 (fun x n => x ^ n) [0, 0, 0, 1] 4 = .ok (21 / 256) := by
  have b4 : binary64 4 = 4 := binary64_of_dyadic 1 2 (by norm_num) _ (by norm_num)
  have c1 : binary64 (-(1 / 4)) = -(1 / 4) :=
    binary64_of_dyadic (-1) (-2) (by norm_num) _ (by norm_num)
  have c2 : binary64 (3 / 4) = 3 / 4 := binary64_of_dyadic 3 (-2) (by norm_num) _ (by norm_num)
  have c3 : binary64 (1 / 256) = 1 / 256 :=
    binary64_of_dyadic 1 (-8) (by norm_num) _ (by norm_num)
  have c4 : binary64 (81 / 256) = 81 / 256 :=
    binary64_of_dyadic 81 (-8) (by norm_num) _ (by norm_num)
  have c5 : binary64 (1 / 128) = 1 / 128 :=
    binary64_of_dyadic 1 (-7) (by norm_num) _ (by norm_num)
  have c6 : binary64 (3 / 256) = 3 / 256 :=
    binary64_of_dyadic 3 (-8) (by norm_num) _ (by norm_num)
  have c7 : binary64 (21 / 64) = 21 / 64 :=
    binary64_of_dyadic 21 (-6) (by norm_num) _ (by norm_num)
  have c8 : binary64 (21 / 256) = 21 / 256 :=
    binary64_of_dyadic 21 (-8) (by norm_num) _ (by norm_num)
  unfold Moments.central_moment
  rw [mean_binary64_sample]
  norm_num [List.foldl, bind, Except.bind, pure, Except.pure, binary64_zero, binary64_one, b4,
    c1, c2, c3, c4, c5, c6, c7, c8]

/-- The double value of `kurtosis_unbiased` for the moments `3/16`, `21/256` of a sample
of size `4`. -/
theorem kurtosis_unbiased_value_binary64_sample :
    kurtosis_unbiased_value binary64 (3 / 16) (21 / 256) 4 =
      .ok (4503599627370497 / 1125899906842624) := by
  have b1 : binary64 1 = 1 := binary64_one
  have b2 : binary64 2 = 2 := binary64_two
  have b3 : binary64 3 = 3 := binary64_of_dyadic 3 0 (by norm_num) _ (by norm_num)
  have b5 : binary64 5 = 5 := binary64_of_dyadic 5 0 (by norm_num) _ (by norm_num)
  have s1 : binary64 (7 / 16) = 7 / 16 := binary64_of_dyadic 7 (-4) (by norm_num) _ (by norm_num)
  have s2 : binary64 (7 / 3) = 5254199565265579 / 2251799813685248 := by
    rw [binary64_eval 5254199565265579 (-51)] <;> norm_num
  have s3 : binary64 (-(1501199875790165 / 2251799813685248)) =
      -(1501199875790165 / 2251799813685248) :=
    binary64_of_dyadic (-1501199875790165) (-51) (by norm_num) _ (by norm_num)
  have s4 : binary64 (6 / 5) = 5404319552844595 / 4503599627370496 := by
    rw [binary64_eval 5404319552844595 (-52)] <;> norm_num
  have s5 : binary64 (2401919801264265 / 4503599627370496) =
      2401919801264265 / 4503599627370496 :=
    binary64_of_dyadic 2401919801264265 (-52) (by norm_num) _ (by norm_num)
  have s6 : binary64 (3 / 2) = 3 / 2 := binary64_of_dyadic 3 (-1) (by norm_num) _ (by norm_num)
  have s7 : binary64 (7205759403792795 / 9007199254740992) =
      7205759403792795 / 9007199254740992 :=
    binary64_of_dyadic 7205759403792795 (-53) (by norm_num) _ (by norm_num)
  have s8 : binary64 (36028797018963975 / 9007199254740992) =
      4503599627370497 / 1125899906842624 := by
    rw [binary64_eval 4503599627370497 (-50)] <;> norm_num
  unfold kurtosis_unbiased_value size_t_sub
  norm_num [b1, b2, b3, b5, s1, s2, s3, s4, s5, s6, s7, s8]

/-- The double mean of the sample `0, 0, 2, 2`. -/
theorem mean_binary64_pairs : Moments.mean binary64 [0, 0, 2, 2] = .ok 1 := by
  have b4 : binary64 4 = 4 := binary64_of_dyadic 1 2 (by norm_num) _ (by norm_num)
  unfold Moments.mean
  norm_num [List.foldl, binary64_zero, binary64_one, binary64_two, b4]

/-- The double moment `cm2` of the sample `0, 0, 2, 2`. -/
theorem central_moment_2_binary64_pairs :
    Moments.central_moment binary64 (fun x n => x ^ n) [0, 0, 2, 2] 2 = .ok 1 := by
  have b3 : binary64 3 = 3 := binary64_of_dyadic 3 0 (by norm_num) _ (by norm_num)
  have b4 : binary64 4 = 4 := binary64_of_dyadic 1 2 (by norm_num) _ (by norm_num)
  unfold Moments.central_moment
  rw [mean_binary64_pairs]
  norm_num [List.foldl, bind, Except.bind, pure, Except.pure, binary64_zero, binary64_one,
    binary64_two, binary64_neg_one, b3, b4]

/-- The expression `c2 * m / (m - 1)` tends to `c2`. -/
theorem variance_value_tendsto (c2 : ℚ) :
    Filter.Tendsto (fun m : Nat => c2 * (m : ℚ) / ((m : ℚ) - 1)) Filter.atTop (nhds c2) := by
  have hden : Filter.Tendsto (fun m : Nat => (m : ℚ) - 1) Filter.atTop Filter.atTop := by
    simpa [sub_eq_add_neg] using
      Filter.tendsto_atTop_add_const_right Filter.atTop (-1 : ℚ) tendsto_natCast_atTop_atTop
  have h1 : Filter.Tendsto (fun m : Nat => c2 + c2 / ((m : ℚ) - 1)) Filter.atTop
      (nhds (c2 + 0)) := tendsto_const_nhds.add (tendsto_const_nhds.div_atTop hden)
  rw [add_zero] at h1
  refine h1.congr' ?_
  filter_upwards [Filter.eventually_ge_atTop 2] with m hm
  have hm2 : (2 : ℚ) ≤ m := by exact_mod_cast hm
  have : (m : ℚ) - 1 ≠ 0 := by linarith
  field_simp
  ring

/-- The expression of `kurtosis_unbiased` tends to `c4 / c2^2 - 3`. -/
theorem kurtosis_formula_tendsto (c2 c4 : ℚ) :
    Filter.Tendsto (fun m : Nat => kurtosis_formula c2 c4 (m : ℚ)) Filter.atTop
      (nhds (c4 / c2 ^ 2 - 3)) := by
  have hshift : ∀ c : ℚ, Filter.Tendsto (fun m : Nat => (m : ℚ) + c) Filter.atTop Filter.atTop :=
    fun c => Filter.tendsto_atTop_add_const_right Filter.atTop c tendsto_natCast_atTop_atTop
  have h1 : Filter.Tendsto (fun m : Nat => c4 / c2 ^ 2 - 3 + 6 / ((m : ℚ) + 1)) Filter.atTop
      (nhds (c4 / c2 ^ 2 - 3 + 0)) :=
    tendsto_const_nhds.add (tendsto_const_nhds.div_atTop (hshift 1))
  have h2 : Filter.Tendsto (fun m : Nat => 1 + 1 / ((m : ℚ) + -2)) Filter.atTop
      (nhds (1 + 0)) :=
    tendsto_const_nhds.add (tendsto_const_nhds.div_atTop (hshift (-2)))
  have h3 : Filter.Tendsto (fun m : Nat => 1 + 4 / ((m : ℚ) + -3)) Filter.atTop
      (nhds (1 + 0)) :=
    tendsto_const_nhds.add (tendsto_const_nhds.div_atTop (hshift (-3)))
  have h := (h1.mul h2).mul h3
  rw [add_zero, add_zero, mul_one, mul_one] at h
  refine h.congr' ?_
  filter_upwards [Filter.eventually_ge_atTop 4] with m hm
  have hm4 : (4 : ℚ) ≤ m := by exact_mod_cast hm
  have n2 : (m : ℚ) + -2 ≠ 0 := by linarith
  have n3 : (m : ℚ) + -3 ≠ 0 := by linarith
  have n2b : (m : ℚ) - 2 ≠ 0 := by linarith
  have n3b : (m : ℚ) - 3 ≠ 0 := by linarith
  have n1 : (m : ℚ) + 1 ≠ 0 := by linarith
  unfold kurtosis_formula
  field_simp
  ring

/-- In exact arithmetic `variance_unbiased` is `sum((x - mean)^2) / (m - 1)`. -/
theorem variance_unbiased_exact (elements : List Int) (h2 : 2 ≤ elements.length)
    (h31 : elements.length < 2 ^ 31) :
    Moments.variance_unbiased id (fun x n => x ^ n) elements =
      .ok ((elements.map fun (x : Int) => ((x : ℚ) - sample_mean elements) ^ 2).sum /
        ((elements.length : ℚ) - 1)) := by
  have hto : to_int (elements.length : Int) = (elements.length : Int) := by
    unfold to_int; omega
  have hm2 : (2 : ℚ) ≤ elements.length := by exact_mod_cast h2
  unfold Moments.variance_unbiased Moments.central_moment_2_unbiased
  rw [central_moment_exact elements 2 (by omega), hto]
  simp only [bind, Except.bind]
  rw [central_moment_2_unbiased_value_exact _ _ h2]
  refine congrArg Except.ok ?_
  unfold sample_central_moment
  have : (elements.length : ℚ) ≠ 0 := by linarith
  rw [div_mul_cancel₀ _ this]

/-! ### Accumulation of rounding errors -/

theorem approximates_exact (y M : ℚ) (h : |y| ≤ M) : approximates 0 M y y := by
  refine ⟨h, ?_⟩
  simp

theorem approximates_level_nonneg (k : Nat) : (0 : ℚ) ≤ (1 + 1 / 2 ^ 53) ^ k - 1 := by
  have : (1 : ℚ) ≤ (1 + 1 / 2 ^ 53) ^ k := one_le_pow₀ (by norm_num)
  linarith

theorem approximates_mono {j k : Nat} {M x y : ℚ} (h : approximates j M x y) (hjk : j ≤ k) :
    approximates k M x y := by
  obtain ⟨h1, h2⟩ := h
  have hM : 0 ≤ M := le_trans (abs_nonneg y) h1
  refine ⟨h1, le_trans h2 (mul_le_mul_of_nonneg_right ?_ hM)⟩
  have : (1 + 1 / 2 ^ 53 : ℚ) ^ j ≤ (1 + 1 / 2 ^ 53) ^ k :=
    pow_le_pow_right₀ (by norm_num) hjk
  linarith

/-- One more rounding. -/
theorem approximates_round {k : Nat} {M x y : ℚ} (h : approximates k M x y) :
    approximates (k + 1) M (binary64 x) y := by
  obtain ⟨h1, h2⟩ := h
  have hM : 0 ≤ M := le_trans (abs_nonneg y) h1
  refine ⟨h1, ?_⟩
  have hr := binary64_err x
  have hx : |x| ≤ |y| + |x - y| := by
    have := abs_add (x - y) y
    rw [sub_add_cancel] at this
    linarith
  have htri : |binary64 x - y| ≤ |binary64 x - x| + |x - y| := by
    have := abs_add (binary64 x - x) (x - y)
    rwa [sub_add_sub_cancel] at this
  have hdiv : |x| / 2 ^ 53 = |x| * (1 / 2 ^ 53) := by ring
  rw [hdiv] at hr
  have he := approximates_level_nonneg k
  rw [pow_succ]
  nlinarith [abs_nonneg x, abs_nonneg (x - y)]

theorem approximates_add {k : Nat} {M1 M2 x1 x2 y1 y2 : ℚ} (h1 : approximates k M1 x1 y1)
    (h2 : approximates k M2 x2 y2) : approximates k (M1 + M2) (x1 + x2) (y1 + y2) := by
  obtain ⟨a1, b1⟩ := h1
  obtain ⟨a2, b2⟩ := h2
  refine ⟨le_trans (abs_add y1 y2) (add_le_add a1 a2), ?_⟩
  have : x1 + x2 - (y1 + y2) = (x1 - y1) + (x2 - y2) := by ring
  rw [this]
  have := abs_add (x1 - y1) (x2 - y2)
  linarith

theorem approximates_sub {k : Nat} {M1 M2 x1 x2 y1 y2 : ℚ} (h1 : approximates k M1 x1 y1)
    (h2 : approximates k M2 x2 y2) : approximates k (M1 + M2) (x1 - x2) (y1 - y2) := by
  obtain ⟨a1, b1⟩ := h1
  obtain ⟨a2, b2⟩ := h2
  refine ⟨le_trans (abs_sub y1 y2) (add_le_add a1 a2), ?_⟩
  have : x1 - x2 - (y1 - y2) = (x1 - y1) - (x2 - y2) := by ring
  rw [this]
  have := abs_sub (x1 - y1) (x2 - y2)
  linarith

theorem approximates_mul {j k : Nat} {M G x y f g : ℚ} (h1 : approximates j M x y)
    (h2 : approximates k G f g) : approximates (j + k) (M * G) (x * f) (y * g) := by
  obtain ⟨a1, b1⟩ := h1
  obtain ⟨a2, b2⟩ := h2
  have hM : 0 ≤ M := le_trans (abs_nonneg y) a1
  have hG : 0 ≤ G := le_trans (abs_nonneg g) a2
  have ej := approximates_level_nonneg j
  have ek := approximates_level_nonneg k
  refine ⟨by rw [abs_mul]; exact mul_le_mul a1 a2 (abs_nonneg g) hM, ?_⟩
  have hf : |f| ≤ G + ((1 + 1 / 2 ^ 53) ^ k - 1) * G := by
    have := abs_add (f - g) g
    rw [sub_add_cancel] at this
    linarith
  have hsplit : x * f - y * g = (x - y) * f + y * (f - g) := by ring
  have h3 : |x * f - y * g| ≤ |x - y| * |f| + |y| * |f - g| := by
    rw [hsplit]
    have := abs_add ((x - y) * f) (y * (f - g))
    rwa [abs_mul, abs_mul] at this
  have h4 : |x - y| * |f| ≤ (((1 + 1 / 2 ^ 53) ^ j - 1) * M) *
      (G + ((1 + 1 / 2 ^ 53) ^ k - 1) * G) :=
    mul_le_mul b1 hf (abs_nonneg f) (mul_nonneg ej hM)
  have h5 : |y| * |f - g| ≤ M * (((1 + 1 / 2 ^ 53) ^ k - 1) * G) :=
    mul_le_mul a1 b2 (abs_nonneg _) hM
  rw [pow_add]
  have : (((1 + 1 / 2 ^ 53 : ℚ) ^ j - 1) * M) * (G + ((1 + 1 / 2 ^ 53) ^ k - 1) * G) +
      M * (((1 + 1 / 2 ^ 53) ^ k - 1) * G) =
      ((1 + 1 / 2 ^ 53) ^ j * (1 + 1 / 2 ^ 53) ^ k - 1) * (M * G) := by ring
  linarith

/-- Division by an exact value. -/
theorem approximates_div {k : Nat} {M x y : ℚ} (h : approximates k M x y) (c : ℚ) :
    approximates k (M / |c|) (x / c) (y / c) := by
  have := approximates_mul h (approximates_exact c⁻¹ |c⁻¹| (le_refl _))
  rw [Nat.add_zero, abs_inv] at this
  simpa [div_eq_mul_inv] using this

/-- Natural numbers below `2^53` are doubles. -/
theorem binary64_natCast (n : Nat) (h : n < 2 ^ 53) : binary64 (n : ℚ) = n := by
  have := binary64_intCast (n : ℤ) (by rw [abs_of_nonneg (by omega)]; exact_mod_cast h)
  simpa using this

/-- The double value of `central_moment_2_unbiased` is within a relative error `2^-51`
of `cm2 * m / (m - 1)`. -/
theorem central_moment_2_unbiased_value_close (cm2 : ℚ) (m : Nat) (hm : 2 ≤ m) :
    ∃ v, central_moment_2_unbiased_value binary64 cm2 (m : Int) = .ok v ∧
      |v - cm2 * m / ((m : ℚ) - 1)| ≤ |cm2 * m / ((m : ℚ) - 1)| / 2 ^ 51 := by
  have hcast : (((m : Int) - 1 : Int) : ℚ) = (m : ℚ) - 1 := by push_cast; rfl
  have a1 : approximates 1 |cm2 * (m : ℚ)| (binary64 (cm2 * (m : ℚ))) (cm2 * (m : ℚ)) :=
    approximates_round (approximates_exact _ _ (le_refl _))
  have a2 := approximates_round (approximates_div a1 ((m : ℚ) - 1))
  refine ⟨binary64 (binary64 (cm2 * (m : ℚ)) / ((m : ℚ) - 1)), ?_, ?_⟩
  · unfold central_moment_2_unbiased_value
    rw [if_neg (by omega), hcast, Int.cast_natCast]
  · have hb := a2.2
    rw [← abs_div] at hb
    have hlevel : ((1 + 1 / 2 ^ 53 : ℚ) ^ (1 + 1) - 1) ≤ 1 / 2 ^ 51 := by norm_num
    calc |binary64 (binary64 (cm2 * (m : ℚ)) / ((m : ℚ) - 1)) - cm2 * m / ((m : ℚ) - 1)|
        ≤ ((1 + 1 / 2 ^ 53 : ℚ) ^ (1 + 1) - 1) * |cm2 * m / ((m : ℚ) - 1)| := hb
      _ ≤ 1 / 2 ^ 51 * |cm2 * m / ((m : ℚ) - 1)| :=
        mul_le_mul_of_nonneg_right hlevel (abs_nonneg _)
      _ = |cm2 * m / ((m : ℚ) - 1)| / 2 ^ 51 := by ring

/-- The double value of `kurtosis_unbiased` is close to its expression at the same
moments: the nine roundings add up to at most `2^-49` of the magnitude of the terms. -/
theorem kurtosis_unbiased_value_close (cm2 cm4 : ℚ) (m : Nat) (hc : cm2 ≠ 0) (hm : 4 ≤ m)
    (hm53 : m + 1 < 2 ^ 53) :
    ∃ v, kurtosis_unbiased_value binary64 cm2 cm4 m = .ok v ∧
      |v - kurtosis_formula cm2 cm4 m| ≤
        (|cm4 / cm2 ^ 2| + 3 + 6 / ((m : ℚ) + 1)) * (((m : ℚ) - 1) / ((m : ℚ) - 2)) *
          (((m : ℚ) + 1) / ((m : ℚ) - 3)) / 2 ^ 49 := by
  have hm4 : (4 : ℚ) ≤ m := by exact_mod_cast hm
  have e0 : binary64 ((((m + 1) % 2 ^ 64 : Nat) : Nat) : ℚ) = (m : ℚ) + 1 := by
    rw [Nat.mod_eq_of_lt (by omega), binary64_natCast _ hm53]; push_cast; rfl
  have e1 : binary64 ((size_t_sub m 1 : Int) : ℚ) = (m : ℚ) - 1 := by
    have : size_t_sub m 1 = ((m - 1 : Nat) : Int) := by unfold size_t_sub; omega
    rw [this, Int.cast_natCast, binary64_natCast _ (by omega), Nat.cast_sub (by omega)]
    simp
  have e2 : binary64 ((size_t_sub m 2 : Int) : ℚ) = (m : ℚ) - 2 := by
    have : size_t_sub m 2 = ((m - 2 : Nat) : Int) := by unfold size_t_sub; omega
    rw [this, Int.cast_natCast, binary64_natCast _ (by omega), Nat.cast_sub (by omega)]
    simp
  have e3 : binary64 ((size_t_sub m 3 : Int) : ℚ) = (m : ℚ) - 3 := by
    have : size_t_sub m 3 = ((m - 3 : Nat) : Int) := by unfold size_t_sub; omega
    rw [this, Int.cast_natCast, binary64_natCast _ (by omega), Nat.cast_sub (by omega)]
    simp
  have n1 : (m : ℚ) + 1 ≠ 0 := by linarith
  have n2 : (m : ℚ) - 2 ≠ 0 := by linarith
  have n3 : (m : ℚ) - 3 ≠ 0 := by linarith
  have a1 : approximates 1 |cm4 / cm2| (binary64 (cm4 / cm2)) (cm4 / cm2) :=
    approximates_round (approximates_exact _ _ (le_refl _))
  have a2 := approximates_round (approximates_div a1 cm2)
  have a3 := approximates_round (approximates_sub a2
    (approximates_mono (approximates_exact 3 3 (by norm_num)) (Nat.zero_le (1 + 1))))
  have b1 : approximates 1 |6 / ((m : ℚ) + 1)| (binary64 (6 / ((m : ℚ) + 1)))
      (6 / ((m : ℚ) + 1)) := approximates_round (approximates_exact _ _ (le_refl _))
  have a4 := approximates_round (approximates_add a3
    (approximates_mono b1 (by omega : 1 ≤ 1 + 1 + 1)))
  have f1 : approximates 1 |((m : ℚ) - 1) / ((m : ℚ) - 2)|
      (binary64 (((m : ℚ) - 1) / ((m : ℚ) - 2))) (((m : ℚ) - 1) / ((m : ℚ) - 2)) :=
    approximates_round (approximates_exact _ _ (le_refl _))
  have a5 := approximates_round (approximates_mul a4 f1)
  have f2 : approximates 1 |((m : ℚ) + 1) / ((m : ℚ) - 3)|
      (binary64 (((m : ℚ) + 1) / ((m : ℚ) - 3))) (((m : ℚ) + 1) / ((m : ℚ) - 3)) :=
    approximates_round (approximates_exact _ _ (le_refl _))
  have a6 := approximates_round (approximates_mul a5 f2)
  refine ⟨binary64 (binary64 (binary64 (binary64 (binary64 (binary64 (cm4 / cm2) / cm2) - 3) +
    binary64 (6 / ((m : ℚ) + 1))) * binary64 (((m : ℚ) - 1) / ((m : ℚ) - 2))) *
    binary64 (((m : ℚ) + 1) / ((m : ℚ) - 3))), ?_, ?_⟩
  · unfold kurtosis_unbiased_value
    simp only [e0, e1, e2, e3]
    rw [if_neg (by simp [hc, n1, n2, n3])]
  · have hb := a6.2
    have hY : (cm4 / cm2 / cm2 - 3 + 6 / ((m : ℚ) + 1)) * (((m : ℚ) - 1) / ((m : ℚ) - 2)) *
        (((m : ℚ) + 1) / ((m : ℚ) - 3)) = kurtosis_formula cm2 cm4 m := by
      unfold kurtosis_formula
      field_simp
      ring
    have hM : (|cm4 / cm2| / |cm2| + 3 + |6 / ((m : ℚ) + 1)|) *
        |((m : ℚ) - 1) / ((m : ℚ) - 2)| * |((m : ℚ) + 1) / ((m : ℚ) - 3)| =
        (|cm4 / cm2 ^ 2| + 3 + 6 / ((m : ℚ) + 1)) * (((m : ℚ) - 1) / ((m : ℚ) - 2)) *
          (((m : ℚ) + 1) / ((m : ℚ) - 3)) := by
      rw [← abs_div, div_div, ← pow_two,
        abs_of_nonneg (by positivity : (0 : ℚ) ≤ 6 / ((m : ℚ) + 1)),
        abs_of_nonneg (div_nonneg (by linarith) (by linarith) :
          (0 : ℚ) ≤ ((m : ℚ) - 1) / ((m : ℚ) - 2)),
        abs_of_nonneg (div_nonneg (by linarith) (by linarith) :
          (0 : ℚ) ≤ ((m : ℚ) + 1) / ((m : ℚ) - 3))]
    rw [hY, hM] at hb
    have hlevel : ((1 + 1 / 2 ^ 53 : ℚ) ^ (1 + 1 + 1 + 1 + 1 + 1 + 1 + 1) - 1) ≤ 1 / 2 ^ 49 := by
      norm_num
    have hMnn : 0 ≤ (|cm4 / cm2 ^ 2| + 3 + 6 / ((m : ℚ) + 1)) *
        (((m : ℚ) - 1) / ((m : ℚ) - 2)) * (((m : ℚ) + 1) / ((m : ℚ) - 3)) := by
      have h1 : (0 : ℚ) ≤ ((m : ℚ) - 1) / ((m : ℚ) - 2) :=
        div_nonneg (by linarith) (by linarith)
      have h2 : (0 : ℚ) ≤ ((m : ℚ) + 1) / ((m : ℚ) - 3) :=
        div_nonneg (by linarith) (by linarith)
      have h3 : (0 : ℚ) ≤ 6 / ((m : ℚ) + 1) := by positivity
      have h4 := abs_nonneg (cm4 / cm2 ^ 2)
      positivity
    refine le_trans hb (le_trans (mul_le_mul_of_nonneg_right hlevel hMnn) (le_of_eq ?_))
    ring

/-! ### The geometric sampler and the exact logarithm -/

/-- For `0 < p < 2^-54` the difference `1 - p` rounds to `1`. -/
theorem binary64_one_minus_small (p : ℚ) (hp0 : 0 < p) (hp : p < 1 / 2 ^ 54) :
    binary64 (1 - p) = 1 := by
  have hz : (2 : ℚ) ^ (-53 : ℤ) = 1 / 2 ^ 53 := by norm_num
  have e : (1 - p) / (2 : ℚ) ^ (-53 : ℤ) = (1 - p) * 2 ^ 53 := by
    rw [hz]; field_simp
  have hm : ((9007199254740992 : ℤ) : ℚ) = 2 ^ 53 := by norm_num
  have hp' : p < 1 / 18014398509481984 := by norm_num at hp; linarith
  have key := binary64_eval (q := 1 - p) 9007199254740992 (-53)
    (by norm_num; linarith) (by norm_num; linarith)
    (by rw [e, hm]; norm_num; linarith) (by rw [e, hm]; norm_num; linarith)
  rw [key, hm, hz]
  norm_num

/-- When `1 - p` rounds to `1`, `get_geometric` fails at its first draw. -/
theorem get_geometric_log_zero (ln : ℚ → ℚ) (p : ℚ) (size : Int) (draws : Nat → ℚ)
    (hsize : 1 ≤ size) (hp : binary64 (1 - p) = 1) (h0 : 0 < draws 0) (h1 : draws 0 < 1) :
    get_geometric ln p size draws = .error .bad_conversion := by
  unfold get_geometric
  rw [vector_fill_eq_ok _ (by omega)]
  simp only [bind, Except.bind]
  obtain ⟨c, hc⟩ : ∃ c, size.toNat = c + 1 := ⟨size.toNat - 1, by omega⟩
  rw [hc]
  unfold for_loop
  rw [get_geometric_step_log_zero ln p draws 0 _ hp h0 h1]

/-- The regular run of `get_geometric`: one `geometric_outcome` per draw. -/
theorem get_geometric_regular (ln : ℚ → ℚ) (p : ℚ) (size : Int) (draws : Nat → ℚ)
    (hsize : 0 ≤ size) (hq0 : 0 < binary64 (1 - p)) (hq1 : binary64 (1 - p) < 1)
    (hD : ln (binary64 (1 - p)) < 0)
    (hu : ∀ i, i < size.toNat → 0 < draws i ∧ draws i < 1 ∧ ln (draws i) < 0 ∧
      binary64 (ln (draws i) / ln (binary64 (1 - p))) ≤ 2 ^ 31 - 1) :
    get_geometric ln p size draws =
      .ok ((List.range size.toNat).map fun i => geometric_outcome ln p (draws i)) := by
  unfold get_geometric
  rw [vector_fill_eq_ok _ hsize]
  simp only [bind, Except.bind]
  obtain ⟨res, hres, hlen, htake⟩ := for_loop_invariant (get_geometric_step ln p draws)
    (fun i res => res.length = size.toNat ∧
      res.take i = (List.range i).map fun i => geometric_outcome ln p (draws i))
    size.toNat 0 (List.replicate size.toNat 0) ⟨List.length_replicate _ _, rfl⟩
    (by
      rintro i t - hi ⟨hl, ht⟩
      rw [Nat.zero_add] at hi
      obtain ⟨h0, h1, hL, hfit⟩ := hu i hi
      have hit : i < t.length := by rw [hl]; exact hi
      refine ⟨_, (get_geometric_step_regular ln p draws i t hit hq0 hq1 hD h0 h1 hL hfit).1,
        by rw [List.length_set]; exact hl, ?_⟩
      rw [List.take_succ, List.getElem?_set_self hit, List.set_take,
        List.set_eq_of_length_le (List.length_take_le i t), ht, List.range_succ,
        List.map_append]
      rfl)
  rw [hres]
  rw [Nat.zero_add] at htake
  rw [← htake, List.take_of_length_le (le_of_eq hlen)]

/-- A library value within relative error `ε < 1` of a negative logarithm is negative. -/
theorem library_log_neg {l x ε : ℝ} (hx : x < 0) (hε : ε < 1) (h : |l - x| ≤ ε * |x|) :
    l < 0 := by
  rw [abs_of_neg hx] at h
  have := (abs_le.mp h).2
  nlinarith

/-- Real powers of a base in `(0,1)` against a value: the power bracket is a bracket of
the quotient of logarithms. -/
theorem rpow_le_iff_quotient_le (a u x : ℝ) (ha0 : 0 < a) (ha1 : a < 1) (hu0 : 0 < u) :
    a ^ x ≤ u ↔ Real.log u / Real.log a ≤ x := by
  have hla : Real.log a < 0 := Real.log_neg ha0 ha1
  rw [← Real.log_le_log_iff (Real.rpow_pos_of_pos ha0 x) hu0, Real.log_rpow ha0,
    div_le_iff_of_neg hla]

theorem lt_rpow_iff_lt_quotient (a u x : ℝ) (ha0 : 0 < a) (ha1 : a < 1) (hu0 : 0 < u) :
    u < a ^ x ↔ x < Real.log u / Real.log a := by
  rw [← not_le, rpow_le_iff_quotient_le a u x ha0 ha1 hu0, not_le]

/-- The ceiling of the rounded quotient of two library logarithms brackets the exact
quotient up to the two tolerance factors. -/
theorem quotient_tolerance (la lu L D t ε : ℝ) (k : ℤ) (hla : la < 0) (hlu : lu < 0)
    (hε0 : 0 ≤ ε) (hε1 : ε < 1) (hL : |L - lu| ≤ ε * |lu|) (hD : |D - la| ≤ ε * |la|)
    (ht : |t - L / D| ≤ |L / D| / 2 ^ 53) (hk1 : (k : ℝ) - 1 < t) (hk2 : t ≤ k) :
    ((k : ℝ) - 1) * ((1 - ε) / ((1 + ε) * (1 + 1 / 2 ^ 53))) < lu / la ∧
      lu / la ≤ k * ((1 + ε) / ((1 - ε) * (1 - 1 / 2 ^ 53))) := by
  have hLn : L < 0 := library_log_neg hlu hε1 hL
  have hDn : D < 0 := library_log_neg hla hε1 hD
  rw [abs_of_neg hlu] at hL
  rw [abs_of_neg hla] at hD
  obtain ⟨hL1, hL2⟩ := abs_le.mp hL
  obtain ⟨hD1, hD2⟩ := abs_le.mp hD
  have hr : 0 < L / D := div_pos_of_neg_of_neg hLn hDn
  have hq : 0 < lu / la := div_pos_of_neg_of_neg hlu hla
  rw [abs_of_pos hr] at ht
  obtain ⟨ht1, ht2⟩ := abs_le.mp ht
  have e1 : 0 < 1 - ε := by linarith
  have e2 : 0 < 1 + ε := by linarith
  -- the quotient of the library values against the exact quotient
  have hla0 : la ≠ 0 := ne_of_lt hla
  have hD0 : D ≠ 0 := ne_of_lt hDn
  have hup : lu / la * (1 - ε) ≤ L / D * (1 + ε) := by
    -- -lu (1-ε) ≤ -L and -D ≤ -la (1+ε)
    have h1 : -L ≥ -lu * (1 - ε) := by nlinarith
    have h2 : -D ≤ -la * (1 + ε) := by nlinarith
    have h3 : lu / la * (1 - ε) * (-la) ≤ L / D * (1 + ε) * (-la) := by
      have : lu / la * (-la) = -lu := by rw [mul_neg, div_mul_cancel₀ _ hla0]
      have h4 : L / D * (-D) = -L := by rw [mul_neg, div_mul_cancel₀ _ hD0]
      have h5 : L / D * (1 + ε) * (-la) = L / D * (-la * (1 + ε)) := by ring
      have h6 : L / D * (-D) ≤ L / D * (-la * (1 + ε)) :=
        mul_le_mul_of_nonneg_left h2 hr.le
      nlinarith
    exact le_of_mul_le_mul_right h3 (by linarith)
  have hdown : L / D * (1 - ε) ≤ lu / la * (1 + ε) := by
    have h1 : -L ≤ -lu * (1 + ε) := by nlinarith
    have h2 : -D ≥ -la * (1 - ε) := by nlinarith
    have h3 : L / D * (1 - ε) * (-la) ≤ lu / la * (1 + ε) * (-la) := by
      have : lu / la * (-la) = -lu := by rw [mul_neg, div_mul_cancel₀ _ hla0]
      have h4 : L / D * (-D) = -L := by rw [mul_neg, div_mul_cancel₀ _ hD0]
      have h6 : L / D * (-la * (1 - ε)) ≤ L / D * (-D) :=
        mul_le_mul_of_nonneg_left h2 hr.le
      nlinarith
    exact le_of_mul_le_mul_right h3 (by linarith)
  have hu53 : (0 : ℝ) < 1 - 1 / 2 ^ 53 := by norm_num
  have hu53' : (0 : ℝ) < 1 + 1 / 2 ^ 53 := by norm_num
  constructor
  · rw [← div_div, mul_div_assoc', div_lt_iff₀ hu53', mul_div_assoc', div_lt_iff₀ e2]
    have h7 : ((k : ℝ) - 1) < L / D * (1 + 1 / 2 ^ 53) := by
      have : L / D / 2 ^ 53 = L / D * (1 / 2 ^ 53) := by ring
      linarith
    calc ((k : ℝ) - 1) * (1 - ε) < L / D * (1 + 1 / 2 ^ 53) * (1 - ε) :=
          mul_lt_mul_of_pos_right h7 e1
      _ = L / D * (1 - ε) * (1 + 1 / 2 ^ 53) := by ring
      _ ≤ lu / la * (1 + ε) * (1 + 1 / 2 ^ 53) :=
          mul_le_mul_of_nonneg_right hdown hu53'.le
      _ = lu / la * (1 + 1 / 2 ^ 53) * (1 + ε) := by ring
  · rw [← div_div, mul_div_assoc', le_div_iff₀ hu53, mul_div_assoc', le_div_iff₀ e1]
    have h7 : L / D * (1 - 1 / 2 ^ 53) ≤ k := by
      have : L / D / 2 ^ 53 = L / D * (1 / 2 ^ 53) := by ring
      linarith
    calc lu / la * (1 - 1 / 2 ^ 53) * (1 - ε)
        = lu / la * (1 - ε) * (1 - 1 / 2 ^ 53) := by ring
      _ ≤ L / D * (1 + ε) * (1 - 1 / 2 ^ 53) := mul_le_mul_of_nonneg_right hup hu53.le
      _ = L / D * (1 - 1 / 2 ^ 53) * (1 + ε) := by ring
      _ ≤ k * (1 + ε) := mul_le_mul_of_nonneg_right h7 e2.le

/-- The tolerance factors as real numbers. -/
theorem tolerance_up_cast (ε : ℚ) :
    ((tolerance_up ε : ℚ) : ℝ) = (1 + (ε : ℝ)) / ((1 - (ε : ℝ)) * (1 - 1 / 2 ^ 53)) := by
  unfold tolerance_up; push_cast; rfl

theorem tolerance_down_cast (ε : ℚ) :
    ((tolerance_down ε : ℚ) : ℝ) = (1 - (ε : ℝ)) / ((1 + (ε : ℝ)) * (1 + 1 / 2 ^ 53)) := by
  unfold tolerance_down; push_cast; rfl

/-- The two factors enclose `1`. -/
theorem tolerance_order (ε : ℚ) (h0 : 0 ≤ ε) (h1 : ε < 1) :
    0 < tolerance_down ε ∧ tolerance_down ε ≤ 1 ∧ 1 ≤ tolerance_up ε := by
  have e1 : 0 < 1 - ε := by linarith
  have e2 : 0 < 1 + ε := by linarith
  have u1 : (0 : ℚ) < 1 - 1 / 2 ^ 53 := by norm_num
  have u2 : (0 : ℚ) < 1 + 1 / 2 ^ 53 := by norm_num
  unfold tolerance_down tolerance_up
  refine ⟨by positivity, ?_, ?_⟩
  · rw [div_le_one (by positivity)]
    nlinarith
  · rw [one_le_div (by positivity)]
    nlinarith

/-- The output of `get_geometric` for one draw against the exact logarithms: the
quotient `ln u / ln a`, `a` the double `1 - p`, lies between `(k - 1)` and `k` up to
the tolerance factors. -/
theorem geometric_outcome_tolerance (ln : ℚ → ℚ) (p u ε : ℚ)
    (hq0 : 0 < binary64 (1 - p)) (hq1 : binary64 (1 - p) < 1) (hu0 : 0 < u) (hu1 : u < 1)
    (hε0 : 0 ≤ ε) (hε1 : ε < 1)
    (hD : |((ln (binary64 (1 - p)) : ℚ) : ℝ) - Real.log ((binary64 (1 - p) : ℚ) : ℝ)| ≤
      (ε : ℝ) * |Real.log ((binary64 (1 - p) : ℚ) : ℝ)|)
    (hL : |((ln u : ℚ) : ℝ) - Real.log (u : ℝ)| ≤ (ε : ℝ) * |Real.log (u : ℝ)|) :
    ln (binary64 (1 - p)) < 0 ∧ ln u < 0 ∧
    ((geometric_outcome ln p u : ℝ) - 1) * ((tolerance_down ε : ℚ) : ℝ) <
      Real.log (u : ℝ) / Real.log ((binary64 (1 - p) : ℚ) : ℝ) ∧
    Real.log (u : ℝ) / Real.log ((binary64 (1 - p) : ℚ) : ℝ) ≤
      (geometric_outcome ln p u : ℝ) * ((tolerance_up ε : ℚ) : ℝ) := by
  have ha0 : (0 : ℝ) < ((binary64 (1 - p) : ℚ) : ℝ) := by exact_mod_cast hq0
  have ha1 : ((binary64 (1 - p) : ℚ) : ℝ) < 1 := by exact_mod_cast hq1
  have hu0r : (0 : ℝ) < (u : ℝ) := by exact_mod_cast hu0
  have hu1r : (u : ℝ) < 1 := by exact_mod_cast hu1
  have hla := Real.log_neg ha0 ha1
  have hlu := Real.log_neg hu0r hu1r
  have hε0r : (0 : ℝ) ≤ (ε : ℝ) := by exact_mod_cast hε0
  have hε1r : (ε : ℝ) < 1 := by exact_mod_cast hε1
  have hDn : ln (binary64 (1 - p)) < 0 := by
    have := library_log_neg hla hε1r hD
    exact_mod_cast this
  have hLn : ln u < 0 := by
    have := library_log_neg hlu hε1r hL
    exact_mod_cast this
  have ht : |((binary64 (ln u / ln (binary64 (1 - p))) : ℚ) : ℝ) -
      ((ln u : ℚ) : ℝ) / ((ln (binary64 (1 - p)) : ℚ) : ℝ)| ≤
      |((ln u : ℚ) : ℝ) / ((ln (binary64 (1 - p)) : ℚ) : ℝ)| / 2 ^ 53 := by
    have := binary64_err (ln u / ln (binary64 (1 - p)))
    exact_mod_cast this
  have hk1 : ((geometric_outcome ln p u : ℤ) : ℝ) - 1 <
      ((binary64 (ln u / ln (binary64 (1 - p))) : ℚ) : ℝ) := by
    have := Int.ceil_lt_add_one (binary64 (ln u / ln (binary64 (1 - p))))
    have h2 : ((geometric_outcome ln p u : ℤ) : ℚ) - 1 <
        binary64 (ln u / ln (binary64 (1 - p))) := by
      unfold geometric_outcome; linarith
    exact_mod_cast h2
  have hk2 : ((binary64 (ln u / ln (binary64 (1 - p))) : ℚ) : ℝ) ≤
      ((geometric_outcome ln p u : ℤ) : ℝ) := by
    have h2 : binary64 (ln u / ln (binary64 (1 - p))) ≤
        ((geometric_outcome ln p u : ℤ) : ℚ) := by
      unfold geometric_outcome; exact Int.le_ceil _
    exact_mod_cast h2
  have := quotient_tolerance _ _ _ _ _ _ (geometric_outcome ln p u) hla hlu hε0r hε1r hL hD
    ht hk1 hk2
  rw [tolerance_down_cast, tolerance_up_cast]
  exact ⟨hDn, hLn, this.1, this.2⟩

/-- An exact quotient that stays clear of the integers by the tolerance factors fixes the
output: it is then the inverse-CDF count for the base `a`. -/
theorem geometric_outcome_exact (a u q cu cd : ℝ) (k K : ℤ) (ha0 : 0 < a) (ha1 : a < 1)
    (hu0 : 0 < u) (hu1 : u < 1) (hq : q = Real.log u / Real.log a)
    (hcd0 : 0 < cd) (hcd1 : cd ≤ 1) (hcu : 1 ≤ cu)
    (h1 : ((k : ℝ) - 1) * cd < q) (h2 : q ≤ k * cu)
    (hK1 : ((K : ℝ) - 1) * cu < q) (hK2 : q ≤ K * cd) :
    k = K ∧ a ^ K ≤ u ∧ u < a ^ (K - 1) ∧ ∀ j : ℤ, a ^ j ≤ u → K ≤ j := by
  have hqpos : 0 < q := by
    rw [hq]; exact div_pos_of_neg_of_neg (Real.log_neg hu0 hu1) (Real.log_neg ha0 ha1)
  have hcu0 : 0 < cu := by linarith
  have hKpos : (0 : ℝ) < K := by
    by_contra h
    have : (K : ℝ) * cd ≤ 0 := mul_nonpos_of_nonpos_of_nonneg (not_lt.mp h) hcd0.le
    linarith
  have hK1' : (1 : ℤ) ≤ K := by exact_mod_cast hKpos
  have hK1r : (1 : ℝ) ≤ K := by exact_mod_cast hK1'
  have hkK : k = K := by
    have a1 : ((K : ℝ) - 1) * cu < k * cu := lt_of_lt_of_le hK1 h2
    have a2 : (K : ℝ) - 1 < k := lt_of_mul_lt_mul_right a1 hcu0.le
    have b1 : ((k : ℝ) - 1) * cd < K * cd := lt_of_lt_of_le h1 hK2
    have b2 : (k : ℝ) - 1 < K := lt_of_mul_lt_mul_right b1 hcd0.le
    have a3 : ((K - 1 : ℤ) : ℝ) < ((k : ℤ) : ℝ) := by push_cast; exact a2
    have b3 : ((k - 1 : ℤ) : ℝ) < ((K : ℤ) : ℝ) := by push_cast; exact b2
    have := Int.cast_lt.mp a3
    have := Int.cast_lt.mp b3
    omega
  have lo : (K : ℝ) - 1 < Real.log u / Real.log a := by
    rw [← hq]
    have : (K : ℝ) - 1 ≤ ((K : ℝ) - 1) * cu := by nlinarith
    linarith
  have hi : Real.log u / Real.log a ≤ K := by
    rw [← hq]
    have : (K : ℝ) * cd ≤ K := by nlinarith
    linarith
  obtain ⟨r1, r2, -, r4⟩ := inverse_cdf_bracket a u ha0 ha1 hu0 hu1 K lo hi
  exact ⟨hkK, r1, r2, r4⟩

/-- The run of `get_geometric(0.7, 1)` on the draw `0.09000000000000001`. -/
theorem get_geometric_sample :
    get_geometric sample_log sample_p 1 (fun _ => sample_draw) = .ok [2] := by
  have ha : binary64 (1 - sample_p) = 1351079888211149 / 4503599627370496 := by
    unfold sample_p
    rw [binary64_of_dyadic 1351079888211149 (-52) (by norm_num) _ (by norm_num)]
    norm_num
  have hL : sample_log sample_draw = -169444108528953 / 70368744177664 := by
    unfold sample_log; rw [if_pos rfl]
  have hD : sample_log (1351079888211149 / 4503599627370496) =
      -169444108528953 / 140737488355328 := by
    unfold sample_log sample_draw; rw [if_neg (by norm_num)]
  have hquot : binary64 (sample_log sample_draw / sample_log (binary64 (1 - sample_p))) = 2 := by
    rw [ha, hL, hD]
    rw [show (-169444108528953 / 70368744177664 : ℚ) / (-169444108528953 / 140737488355328)
      = 2 by norm_num]
    exact binary64_two
  have hk : geometric_outcome sample_log sample_p sample_draw = 2 := by
    unfold geometric_outcome
    rw [hquot]
    norm_num
  have h := get_geometric_regular sample_log sample_p 1 (fun _ => sample_draw) (by norm_num)
    (by rw [ha]; norm_num) (by rw [ha]; norm_num) (by rw [ha, hD]; norm_num)
    (fun i _ => ⟨by unfold sample_draw; norm_num, by unfold sample_draw; norm_num,
      by rw [hL]; norm_num, by rw [hquot]; norm_num⟩)
  rw [h]
  simp [hk]

/-! ### The Poisson sampler in the subnormal range -/

/-- The nearest integer to a value of at least `3/4` is at least `1`. -/
theorem round_even_pos {x : ℚ} (h : 3 / 4 ≤ x) : 1 ≤ round_even x := by
  have herr := round_even_err x
  have h2 := (abs_le.mp herr).1
  have h3 : ((0 : ℤ) : ℚ) < (round_even x : ℚ) := by push_cast; linarith
  have h4 : (0 : ℤ) < round_even x := by exact_mod_cast h3
  omega

/-- A product that is at least the least positive double `2^-1074`, multiplied by a draw
of at least `0.75`, is still at least `2^-1074` after rounding: the running product of
such draws never reaches zero. -/
theorem binary64_gradual_sticks {q u : ℚ} (hq : 1 / 2 ^ 1074 ≤ q) (hu : 3 / 4 ≤ u) :
    1 / 2 ^ 1074 ≤ binary64_gradual (q * u) := by
  have hq0 : (0 : ℚ) < q := lt_of_lt_of_le (by positivity) hq
  have hqu : 1 / 2 ^ 1074 * (3 / 4) ≤ q * u :=
    mul_le_mul hq hu (by norm_num) hq0.le
  unfold binary64_gradual
  split
  · have hx : (3 / 4 : ℚ) ≤ q * u * 2 ^ 1074 := by
      have h1 : (1 / 2 ^ 1074 * (3 / 4) : ℚ) * 2 ^ 1074 ≤ q * u * 2 ^ 1074 :=
        mul_le_mul_of_nonneg_right hqu (by positivity)
      have h2 : ∀ c : ℚ, 0 < c → 1 / c * (3 / 4) * c = 3 / 4 := by
        intro c hc; field_simp; ring
      rw [h2 _ (by positivity)] at h1
      exact h1
    have hr : (1 : ℚ) ≤ (round_even (q * u * 2 ^ 1074) : ℚ) := by
      have := Int.cast_le (R := ℚ) |>.mpr (round_even_pos hx)
      rwa [Int.cast_one] at this
    exact div_le_div_of_nonneg_right hr (by positivity)
  · rename_i hbig
    have hpos : 0 < q * u := mul_pos hq0 (by linarith)
    rw [abs_of_pos hpos, not_lt] at hbig
    have herr := binary64_err (q * u)
    rw [abs_of_pos hpos] at herr
    have h2 := (abs_le.mp herr).1
    have h3 : q * u / 2 ^ 53 ≤ q * u / 2 := by
      apply div_le_div_of_nonneg_left hpos.le (by norm_num) (by norm_num)
    have h4 : (1 : ℚ) / 2 ^ 1074 ≤ 1 / 2 ^ 1022 / 2 := by
      rw [div_div, ← pow_succ]
      apply div_le_div_of_nonneg_left (by norm_num) (by positivity)
      exact pow_le_pow_right₀ (by norm_num) (by norm_num)
    linarith

/-- With a bound of at most `2^-1074` and draws of at least `0.75` the `while` loop of
`get_poisson` never leaves. -/
theorem poisson_while_subnormal_bound (bound : ℚ) (hb : bound ≤ 1 / 2 ^ 1074)
    (draws : Nat → ℚ) (h : ∀ k, 3 / 4 ≤ draws k) :
    ∀ (fuel : Nat) (st : PoissonState), 1 / 2 ^ 1074 ≤ st.product →
      poisson_while bound draws fuel st = none ∨
        poisson_while bound draws fuel st = some (.error .int_overflow) := by
  intro fuel
  induction fuel with
  | zero => intro st _; left; rfl
  | succ fuel ih =>
    intro st hp
    by_cases hk : st.k + 1 < 2 ^ 31
    · rw [poisson_while_continue bound draws fuel st (le_trans hb hp) hk]
      exact ih _ (binary64_gradual_sticks hp (h _))
    · right
      rw [poisson_while, if_pos (le_trans hb hp), if_neg hk]

/-- The least positive double is below `0.75`. -/
theorem least_double_le : (1 : ℚ) / 2 ^ 1074 ≤ 3 / 4 := by
  have h1 : (1 : ℚ) / 2 ^ 1074 ≤ 1 / 2 ^ 1 :=
    div_le_div_of_nonneg_left (by norm_num) (by norm_num)
      (pow_le_pow_right₀ (by norm_num) (by norm_num))
  have h2 : (1 : ℚ) / 2 ^ 1 ≤ 3 / 4 := by norm_num
  exact le_trans h1 h2

/-- With a bound of at most `2^-1074` and draws of at least `0.75`, `get_poisson` does
not produce its first output. -/
theorem get_poisson_loop_subnormal_bound (bound : ℚ) (hb : bound ≤ 1 / 2 ^ 1074)
    (draws : Nat → ℚ) (h : ∀ k, 3 / 4 ≤ draws k) (fuel count i : Nat) (st : SamplerState) :
    get_poisson_loop bound draws fuel (count + 1) i st = none ∨
      get_poisson_loop bound draws fuel (count + 1) i st = some (.error .int_overflow) := by
  unfold get_poisson_loop get_poisson_step
  rcases poisson_while_subnormal_bound bound hb draws h fuel ⟨draws st.pos, 1, st.pos + 1⟩
    (le_trans least_double_le (h _)) with hw | hw
  · left; rw [hw]
  · right; rw [hw]

/-- For `lambda = 745`, where `exp(-lambda)` is the least positive double `2^-1074`,
`get_poisson` returns no sample either when every draw is at least `0.75`: the product
stays at a positive subnormal double. -/
theorem get_poisson_hangs_subnormal (ex : ℚ → ℚ) (hex : ex (-745) ≤ 1 / 2 ^ 1074)
    (draws : Nat → ℚ) (h : ∀ k, 3 / 4 ≤ draws k) (fuel : Nat) :
    get_poisson ex 745 1 draws fuel = none ∨
      get_poisson ex 745 1 draws fuel = some (.error .int_overflow) := by
  have hE : Double.exp ex ((-745 : Int) : ℚ) = ex (-745) := by
    unfold Double.exp
    rw [if_neg (by norm_num)]
    norm_num
  have hc : (1 : Int).toNat = 0 + 1 := rfl
  unfold get_poisson get_poisson_run
  rw [vector_fill_eq_ok (0 : Int) (by norm_num : (0 : Int) ≤ 1), hE, hc]
  rcases get_poisson_loop_subnormal_bound (ex (-745)) hex draws h fuel 0 0
    ⟨List.replicate (0 + 1) 0, 0⟩ with hw | hw
  · left; simp only [hw]
  · right; simp only [hw]

/-! ## The claims -/

/-- C1: for every `n ≥ 1`, `mult_congr(n)` returns `n` values and value `i` is
`x[i] / 2^31`, where `x[0] = 24389` and `x[i] = (24389 * x[i-1]) mod 2^31`, that is
`x[i] = 24389^(i+1) mod 2^31`; the 64-bit product of the multiplier and a state
never wraps, so the machine step is the exact recurrence, and value `i` depends
on `i` only. -/
theorem mult_congr_recurrence (n : Int) (hn : 1 ≤ n) :
    mult_congr n
        = .ok ((List.range n.toNat).map fun i => (congruential_state i : ℚ) / 2 ^ 31) ∧
      ∀ i, congruential_state i = 24389 ^ (i + 1) % 2 ^ 31 ∧
        BETA * congruential_state i < 2 ^ 64 ∧
        ull_mul BETA (congruential_state i) % M = congruential_state (i + 1) := by
  refine ⟨mult_congr_eq n hn, fun i => ⟨congruential_state_closed i, ?_, ?_⟩⟩
  · have h := congruential_state_lt i
    have : BETA * congruential_state i < 24389 * 2 ^ 31 := by
      unfold BETA A_STAR_0
      exact Nat.mul_lt_mul_of_pos_left h (by norm_num)
    calc BETA * congruential_state i < 24389 * 2 ^ 31 := this
      _ < 2 ^ 64 := by norm_num
  · rw [ull_mul_state, M]; rfl

theorem mult_congr_recurrence_witness :
    (1 : Int) ≤ 3 ∧
      mult_congr 3
        = .ok ((List.range (3 : Int).toNat).map fun i => (congruential_state i : ℚ) / 2 ^ 31) :=
  ⟨by decide, (mult_congr_recurrence 3 (by decide)).1⟩

/-- C2: for every `n ≥ 1` every integer state of `mult_congr(n)` is below `2^31`
and every returned value lies in `[0,1)`. -/
theorem mult_congr_range (n : Int) (hn : 1 ≤ n) :
    ∃ st out, mult_congr_states n = .ok st ∧ mult_congr n = .ok out ∧
      st.length = n.toNat ∧ out.length = n.toNat ∧
      (∀ x ∈ st, 0 ≤ x ∧ x < 2 ^ 31) ∧ ∀ y ∈ out, 0 ≤ y ∧ y < 1 := by
  refine ⟨_, _, mult_congr_states_eq n hn, mult_congr_eq n hn, by simp, by simp, ?_, ?_⟩
  · intro x hx
    obtain ⟨i, -, rfl⟩ := List.mem_map.mp hx
    exact ⟨Nat.zero_le _, congruential_state_lt i⟩
  · intro y hy
    obtain ⟨i, -, rfl⟩ := List.mem_map.mp hy
    have h : (congruential_state i : ℚ) < 2 ^ 31 := by exact_mod_cast congruential_state_lt i
    constructor
    · positivity
    · rw [div_lt_one (by positivity)]; exact h

theorem mult_congr_range_witness :
    (1 : Int) ≤ 2 ∧ ∃ st out, mult_congr_states 2 = .ok st ∧ mult_congr 2 = .ok out ∧
      st.length = (2 : Int).toNat ∧ out.length = (2 : Int).toNat ∧
      (∀ x ∈ st, 0 ≤ x ∧ x < 2 ^ 31) ∧ ∀ y ∈ out, 0 ≤ y ∧ y < 1 :=
  ⟨by decide, mult_congr_range 2 (by decide)⟩

/-- C4, refuted as stated: on two empty samples (`K = 32 > 0`) the combiner does
not return the empty sample, it fails with a length error. -/
theorem maclaren_marsaglia_short_counterexample :
    maclaren_marsaglia [] [] = .error .length_error := by
  unfold maclaren_marsaglia
  rw [maclaren_marsaglia_run_short [] [] (by decide)]
  rfl

/-- C4, amended: whenever `K = 32` exceeds `min(len first, len second)`,
`maclaren_marsaglia` returns no sample: the size `min - K` is negative as an `int`
and constructing the result vector with it throws a length error (before the
buffer is seeded from `first`). -/
theorem maclaren_marsaglia_short (first second : List ℚ)
    (h : min first.length second.length < 32) :
    maclaren_marsaglia first second = .error .length_error := by
  unfold maclaren_marsaglia
  rw [maclaren_marsaglia_run_short first second h]
  rfl

theorem maclaren_marsaglia_short_witness :
    maclaren_marsaglia (List.replicate 40 (1 / 2)) (List.replicate 31 (1 / 4))
      = .error .length_error :=
  maclaren_marsaglia_short (List.replicate 40 (1 / 2)) (List.replicate 31 (1 / 4)) (by decide)

/-- C6, the code at a failing input: the sample `1.0, 0, ..., 0` of 33 values is a
possible result of `builtin_uniform(33)`; with it as `second` the selector computed
from `second[0] = 1.0` is `32 = K`, and the read `v[32]` of the `K`-element buffer is
out of range. -/
theorem maclaren_marsaglia_selector_unclamped :
    builtin_uniform_outcome 33 (1 :: List.replicate 32 0) ∧
      double_to_int (1 * (K : ℚ)) = .ok 32 ∧
      maclaren_marsaglia (List.replicate 33 0) (1 :: List.replicate 32 0)
        = .error .out_of_range := by
  refine ⟨⟨by simp, ?_⟩, ?_, ?_⟩
  · intro x hx
    rcases List.mem_cons.mp hx with rfl | hx
    · refine ⟨by simpa using binary64_intCast 1 (by norm_num), by norm_num, ?_⟩
      unfold nextafter_one
      have : (0 : ℚ) < 2 ^ (-52 : ℤ) := by positivity
      linarith
    · rw [List.eq_of_mem_replicate hx]
      refine ⟨by simp [binary64], le_refl _, ?_⟩
      unfold nextafter_one
      positivity
  · unfold double_to_int K
    norm_num
  · unfold maclaren_marsaglia
    rw [maclaren_marsaglia_run_at_one _ _ (by decide) (by decide) (by rfl)]
    rfl

/-- C7, the code at a failing input: the one-point sample `1.0` lies in `[0,1]`, but
with `bins_cnt = 49` the last threshold `stride * 49` is the double just below `1.0`,
so `upper_bound` never reaches the point and the 49 counts sum to `0`, not to the
sample size `1`. -/
theorem calc_bins_loses_one :
    (∀ x ∈ ([1] : List ℚ), 0 ≤ x ∧ x ≤ 1) ∧ threshold (stride 49 0 1) 48 < 1 ∧
      ∃ bins, calc_bins [1] 49 0 1 = .ok bins ∧ bins.length = 49 ∧ bins.sum = 0 ∧
        bins.sum ≠ (([1] : List ℚ).length : Int) := by
  have ht : threshold (stride 49 0 1) 48 < 1 := by
    rw [threshold_49_last]; norm_num
  have hsum : ((List.range (48 + 1)).map (bin_count [1] (stride 49 0 1))).sum = 0 := by
    rw [bin_count_sum]
    unfold cumulative
    rw [List.countP_cons_of_neg]
    · rfl
    · simpa using ht
  refine ⟨?_, ht, _, calc_bins_eq [1] 49 0 1 (by norm_num) (by norm_num), ?_, ?_, ?_⟩
  · intro x hx
    rw [List.mem_singleton.mp hx]
    norm_num
  · rw [List.length_map, List.length_range]; rfl
  · exact hsum
  · have e : ((List.range (49 : Int).toNat).map (bin_count [1] (stride 49 0 1))).sum = 0 := hsum
    rw [e]
    norm_num

/-- C8, refuted as stated: `skewed_sample` consists of ten doubles, exactly one
(`n/10`) strictly inside each decile of `[0,1]`, yet `chi_square` returns `2`: the
third threshold of the code is `0.1 * 3 = 0.30000000000000004`, so the point in the
fourth decile is counted in the third cell. -/
theorem chi_square_decile_counterexample :
    skewed_sample.length = 10 ∧ (∀ x ∈ skewed_sample, binary64 x = x) ∧
      (∀ k : Nat, k < 10 →
        skewed_sample.countP (fun x => (k : ℚ) / 10 < x ∧ x < ((k : ℚ) + 1) / 10) = 10 / 10) ∧
      chi_square skewed_sample = .ok 2 := by
  refine ⟨rfl, ?_, ?_, chi_square_skewed⟩
  · intro x hx
    simp only [skewed_sample, List.mem_cons, List.mem_singleton, List.not_mem_nil, or_false] at hx
    rcases hx with h | h | h | h | h | h | h | h | h | h
    · exact binary64_of_dyadic 1 (-4) (by norm_num) x (by rw [h]; norm_num)
    · exact binary64_of_dyadic 3 (-4) (by norm_num) x (by rw [h]; norm_num)
    · exact binary64_of_dyadic 1 (-2) (by norm_num) x (by rw [h]; norm_num)
    · exact binary64_of_dyadic 5404319552844596 (-54) (by norm_num) x (by rw [h]; norm_num)
    · exact binary64_of_dyadic 7 (-4) (by norm_num) x (by rw [h]; norm_num)
    · exact binary64_of_dyadic 9 (-4) (by norm_num) x (by rw [h]; norm_num)
    · exact binary64_of_dyadic 5 (-3) (by norm_num) x (by rw [h]; norm_num)
    · exact binary64_of_dyadic 3 (-2) (by norm_num) x (by rw [h]; norm_num)
    · exact binary64_of_dyadic 7 (-3) (by norm_num) x (by rw [h]; norm_num)
    · exact binary64_of_dyadic 15 (-4) (by norm_num) x (by rw [h]; norm_num)
  · intro k hk
    interval_cases k <;> norm_num [skewed_sample, List.countP_cons]

/-- C8, amended: for a sample of `n` points, `0 < n < 2^31`, `n` divisible by 10,
that has exactly `n/10` points in each of the ten cells `(-∞, t₀]`, `(t₀, t₁]`, ...,
`(t₈, t₉]` cut by the thresholds the code computes (`threshold_default`),
`chi_square` returns exactly `0`. -/
theorem chi_square_uniform_cells (v : List ℚ) (hlen : v.length < 2 ^ 31)
    (hpos : 0 < v.length) (hdiv : 10 ∣ v.length)
    (hcells : ∀ k, k < 10 →
      v.countP (fun x => (k = 0 ∨ threshold (stride 10 0 1) (k - 1) < x) ∧
        x ≤ threshold (stride 10 0 1) k) = v.length / 10) :
    chi_square v = .ok 0 :=
  chi_square_of_cells v hlen hpos hdiv hcells

theorem chi_square_uniform_cells_witness : chi_square even_sample = .ok 0 :=
  chi_square_uniform_cells even_sample (by norm_num [even_sample])
    (by norm_num [even_sample]) (by norm_num [even_sample])
    (by
      obtain ⟨h0, h1, h2, h3, h4, h5, h6, h7, h8, h9⟩ := threshold_default
      intro k hk
      interval_cases k <;>
        simp only [h0, h1, h2, h3, h4, h5, h6, h7, h8, h9, even_sample] <;>
        norm_num [List.countP_cons])

/-- C9, refuted as stated: on the doubles nearest to `(i + 0.5) / 5` the code returns
`0.10000000000000009` (the rounded difference `0.8 - 0.7`), which is neither
`1 / (2 * 5)` nor the double nearest to it. -/
theorem kolmogorov_identity_counterexample :
    (identity_sample 5).map binary64 = five_doubles ∧
      kolmogorov five_doubles = .ok (225179981368525 / 2251799813685248) ∧
      (225179981368525 / 2251799813685248 : ℚ) ≠ 1 / (2 * 5) ∧
      (225179981368525 / 2251799813685248 : ℚ) ≠ binary64 (1 / (2 * 5)) := by
  refine ⟨?_, kolmogorov_five_doubles, by norm_num, ?_⟩
  · rw [identity_sample_five, five_doubles_eq]
  · have e : (1 : ℚ) / (2 * 5) = 1 / 10 := by norm_num
    rw [e, binary64_tenth]
    norm_num

/-- C9, amended: on a sample of fewer than `2^31` points `kolmogorov` returns the
maximum over the ascending sample of `|(i+1)/n - F(x_i)|`, `F` the identity clamped
to `[0,1]`, with the quotient and the difference each rounded to binary64, and this
is within `2^-52` of the exact statistic; the exact statistic of `{(i+0.5)/n}`, in
any order, is `1/(2n)` for every `n ≥ 1`, and that of `{0.1, 0.3, 0.6, 0.9}` is `0.2`;
on the doubles nearest to `0.1, 0.3, 0.6, 0.9` the code returns exactly the double
nearest to `0.2`. -/
theorem kolmogorov_rounded :
    (∀ v : List ℚ, v.length < 2 ^ 31 →
      kolmogorov v
          = .ok (((List.range (sort v).length).map (deviation (sort v))).foldl max 0) ∧
        ∃ d, kolmogorov v = .ok d ∧ |d - kolmogorov_statistic v| ≤ 1 / 2 ^ 52) ∧
      (∀ (n : Nat) (v : List ℚ), 1 ≤ n → v.Perm (identity_sample n) →
        kolmogorov_statistic v = 1 / (2 * (n : ℚ))) ∧
      kolmogorov_statistic [1 / 10, 3 / 10, 6 / 10, 9 / 10] = 1 / 5 ∧
      kolmogorov (([1 / 10, 3 / 10, 6 / 10, 9 / 10] : List ℚ).map binary64)
        = .ok (binary64 (1 / 5)) := by
  refine ⟨fun v hv => ⟨kolmogorov_eq v hv, kolmogorov_close v hv⟩,
    fun n v hn hv => kolmogorov_statistic_identity n hn v hv, kolmogorov_statistic_four, ?_⟩
  rw [four_doubles_eq, kolmogorov_four_doubles, binary64_fifth]

theorem kolmogorov_rounded_witness :
    (∃ d, kolmogorov five_doubles = .ok d ∧
        |d - kolmogorov_statistic five_doubles| ≤ 1 / 2 ^ 52) ∧
      kolmogorov_statistic (identity_sample 3).reverse = 1 / (2 * ((3 : Nat) : ℚ)) :=
  ⟨(kolmogorov_rounded.1 five_doubles (by norm_num [five_doubles])).2,
    kolmogorov_rounded.2.1 3 (identity_sample 3).reverse (by norm_num)
      (List.reverse_perm _)⟩

/-- C10, the code at a failing input: `0.0` is a value `roll_brv()` can return, and
on a first draw of exactly `0` the sampler does evaluate `ceil(log(0) / log(1 - p))`,
which is not finite, and converts it to `int`: no integer is returned, whatever
the library logarithm and the parameter `p` are. -/
theorem get_geometric_zero_draw :
    roll_brv_outcome 0 ∧
      ∀ (ln : ℚ → ℚ) (p : ℚ),
        get_geometric ln p 1 (fun _ => 0) = .error .bad_conversion := by
  refine ⟨⟨binary64_zero, le_refl 0, zero_lt_one⟩, ?_⟩
  intro ln p
  unfold get_geometric
  rw [vector_fill_eq_ok _ (by norm_num)]
  simp only [bind, Except.bind]
  have e : (1 : Int).toNat = 0 + 1 := rfl
  rw [e]
  unfold for_loop
  rw [get_geometric_step_at_zero ln p _ 0 _ rfl]

/-- C13: for every `m` (in particular `m ≥ 1`), on every stream of draws
`get_binomial(m, p, n)` returns `n` values, value `i`
being the number of indices `j` in `[i m, (i+1) m)` with `u_j ≤ p`, which is the sum
of the `m` Bernoulli outcomes that `get_bernoulli` computes from draws
`i m, ..., (i+1) m - 1`; every value lies in `[0, m]`, and `get_binomial(1, p, n)` is
`get_bernoulli(p, n)`. -/
theorem get_binomial_sums (m : Nat) (p : ℚ) (n : Nat) (draws : Nat → ℚ) :
    ∃ out b, get_binomial m p n draws = .ok out ∧ get_bernoulli p (n * m : Nat) draws = .ok b ∧
      out.length = n ∧ b.length = n * m ∧
      (∀ i (hi : i < out.length),
        out[i] = ((List.range m).countP (fun j => draws (i * m + j) ≤ p) : Nat) ∧
        out[i] = ((List.range m).map fun j => b.getD (i * m + j) 0).sum ∧
        0 ≤ out[i] ∧ out[i] ≤ m) ∧
      get_binomial 1 p n draws = get_bernoulli p n draws := by
  refine ⟨_, _, get_binomial_eq m p n draws, get_bernoulli_eq p (n * m) draws, by simp,
    by simp, ?_, ?_⟩
  · intro i hi
    have hi1 : i < n := by simpa using hi
    rw [List.getElem_map, List.getElem_range]
    refine ⟨rfl, ?_, success_count_bounds m p draws i⟩
    rw [success_count_eq_sum]
    congr 1
    apply List.map_congr_left
    intro j hj
    have hj1 : j < m := List.mem_range.mp hj
    have hlt : i * m + j < n * m := by
      calc i * m + j < i * m + m := by omega
        _ = (i + 1) * m := by ring
        _ ≤ n * m := Nat.mul_le_mul_right m hi1
    rw [List.getD_eq_getElem?_getD, List.getElem?_map, List.getElem?_range hlt]
    rfl
  · have h1 := get_binomial_eq 1 p n draws
    rw [Nat.cast_one] at h1
    rw [h1, get_bernoulli_eq]
    congr 1
    apply List.map_congr_left
    intro i _
    rw [success_count_eq_sum, List.range_succ, List.range_zero, List.nil_append,
      List.map_singleton, List.sum_singleton, Nat.mul_one, Nat.add_zero]


/-- C16, refuted as stated: `mult_congr(0)` does not return the empty sample; the seed
assignment `a_star[0] = A_STAR_0` is performed on the empty state vector. -/
theorem mult_congr_zero_counterexample :
    mult_congr_states 0 = .error .out_of_range ∧ mult_congr 0 ≠ .ok [] := by
  refine ⟨mult_congr_states_zero, ?_⟩
  rw [mult_congr_zero]
  exact fun h => nomatch h

/-- C16, amended: `mult_congr` needs `n ≥ 1`.  For `n ≥ 1` it returns `n` values; for
`n = 0` the seed assignment to position `0` is performed on the empty state vector,
which is an out-of-range write, and no sample is returned; a negative `n` fails in
the construction of the state vector. -/
theorem mult_congr_domain (n : Int) :
    (1 ≤ n → ∃ out, mult_congr n = .ok out ∧ out.length = n.toNat) ∧
      (n = 0 → mult_congr n = .error .out_of_range) ∧
      (n < 0 → mult_congr n = .error .length_error) := by
  refine ⟨fun h => ⟨_, mult_congr_eq n h, by simp⟩, ?_, ?_⟩
  · rintro rfl
    exact mult_congr_zero
  · intro h
    unfold mult_congr mult_congr_states vector_fill
    rw [if_pos h]
    rfl

theorem mult_congr_domain_witness :
    (∃ out, mult_congr 3 = .ok out ∧ out.length = (3 : Int).toNat) ∧
      mult_congr 0 = .error .out_of_range ∧ mult_congr (-1) = .error .length_error :=
  ⟨(mult_congr_domain 3).1 (by decide), (mult_congr_domain 0).2.1 rfl,
    (mult_congr_domain (-1)).2.2 (by decide)⟩

/-- C19: the goodness-of-fit statistics depend only on the multiset of the sample:
for every rearrangement `w` of `v`, `calc_bins` (with any arguments, the default ones
included), `chi_square` and `kolmogorov` give the same result on `v` and on `w`. -/
theorem statistics_perm (v w : List ℚ) (h : v.Perm w) :
    (∀ (bins_cnt : Int) (start end_ : ℚ),
        calc_bins v bins_cnt start end_ = calc_bins w bins_cnt start end_) ∧
      calc_bins v 10 0 1 = calc_bins w 10 0 1 ∧
      chi_square v = chi_square w ∧ kolmogorov v = kolmogorov w :=
  ⟨fun b s e => calc_bins_perm v w h b s e, calc_bins_perm v w h 10 0 1,
    chi_square_perm v w h, kolmogorov_perm v w h⟩

theorem statistics_perm_witness :
    List.Perm [1 / 4, 3 / 4, (1 / 2 : ℚ)] [3 / 4, 1 / 2, 1 / 4] ∧
      calc_bins [1 / 4, 3 / 4, 1 / 2] 10 0 1 = calc_bins [3 / 4, 1 / 2, 1 / 4] 10 0 1 ∧
      chi_square [1 / 4, 3 / 4, 1 / 2] = chi_square [3 / 4, 1 / 2, 1 / 4] ∧
      kolmogorov [1 / 4, 3 / 4, 1 / 2] = kolmogorov [3 / 4, 1 / 2, 1 / 4] :=
  have hp : List.Perm [1 / 4, 3 / 4, (1 / 2 : ℚ)] [3 / 4, 1 / 2, 1 / 4] :=
    @List.perm_append_comm ℚ [1 / 4] [3 / 4, 1 / 2]
  ⟨hp, (statistics_perm _ _ hp).2⟩

/-- C20: the integer states `x[i] = 24389^(i+1) mod 2^31` of `mult_congr` are all odd,
`x[i + 2^29] = x[i]` for every `i`, and `x[i] ≠ x[j]` for `0 ≤ i < j < 2^29`, so `2^29` is
the least period (the periods are the multiples of `2^29`); hence for every `n` with
`1 ≤ n ≤ 2^29` the `n` outputs of `mult_congr(n)` are pairwise distinct, and none is
`0`. -/
theorem congruential_period :
    (∀ i, congruential_state i = 24389 ^ (i + 1) % 2 ^ 31 ∧ congruential_state i % 2 = 1) ∧
      (∀ i, congruential_state (i + 2 ^ 29) = congruential_state i) ∧
      (∀ i j, i < j → j < 2 ^ 29 → congruential_state i ≠ congruential_state j) ∧
      (∀ d, (∀ i, congruential_state (i + d) = congruential_state i) ↔ 2 ^ 29 ∣ d) ∧
      ∀ n : Int, 1 ≤ n → n ≤ 2 ^ 29 →
        ∃ out, mult_congr n = .ok out ∧ out.length = n.toNat ∧ out.Nodup ∧ ∀ y ∈ out, y ≠ 0 := by
  have hodd : ∀ i, congruential_state i % 2 = 1 := by
    intro i
    have hd : 2 ∣ 2 ^ 31 := Dvd.intro_left (2 ^ 30) rfl
    rw [congruential_state_closed, Nat.mod_mod_of_dvd _ hd, Nat.pow_mod]
    norm_num
  have hiff : ∀ a b, congruential_state a = congruential_state b
      ↔ (a + 1) % 2 ^ 29 = (b + 1) % 2 ^ 29 := by
    intro a b
    rw [congruential_state_closed, congruential_state_closed, multiplier_pow_eq_iff]
  have hdist : ∀ i j, i < j → j < 2 ^ 29 → congruential_state i ≠ congruential_state j := by
    intro i j hij hj h
    rw [hiff] at h
    omega
  refine ⟨fun i => ⟨congruential_state_closed i, hodd i⟩, ?_, hdist, ?_, ?_⟩
  · intro i
    rw [hiff]
    omega
  · intro d
    constructor
    · intro h
      have h0 := h 0
      rw [hiff] at h0
      omega
    · rintro ⟨c, rfl⟩ i
      rw [hiff]
      have : (i + 2 ^ 29 * c + 1) = (i + 1) + 2 ^ 29 * c := by ring
      rw [this, Nat.add_mul_mod_self_left]
  · intro n h1 h2
    refine ⟨_, mult_congr_eq n h1, by simp, ?_, ?_⟩
    · apply List.Nodup.map_on _ (List.nodup_range _)
      intro a ha b hb hab
      have ha1 : a < n.toNat := List.mem_range.mp ha
      have hb1 : b < n.toNat := List.mem_range.mp hb
      have hab1 : congruential_state a = congruential_state b := by
        have h31 : (2 : ℚ) ^ 31 ≠ 0 := by positivity
        have := (div_left_inj' h31).mp hab
        exact_mod_cast this
      by_contra hne
      rcases Nat.lt_or_gt_of_ne hne with hlt | hlt
      · exact hdist a b hlt (by omega) hab1
      · exact hdist b a hlt (by omega) hab1.symm
    · intro y hy
      obtain ⟨i, -, rfl⟩ := List.mem_map.mp hy
      have h0 : congruential_state i ≠ 0 := by
        have := hodd i
        omega
      have h0q : (congruential_state i : ℚ) ≠ 0 := by exact_mod_cast h0
      exact div_ne_zero h0q (by positivity)

theorem congruential_period_witness :
    ((1 : Int) ≤ 4 ∧ (4 : Int) ≤ 2 ^ 29) ∧
      ∃ out, mult_congr 4 = .ok out ∧ out.length = (4 : Int).toNat ∧ out.Nodup ∧
        ∀ y ∈ out, y ≠ 0 :=
  ⟨⟨by decide, by decide⟩, congruential_period.2.2.2.2 4 (by decide) (by decide)⟩

/-- C12, counterexample: with `exp(-1)` the double `0.36787944117144233` and the draws
`0.75, 0.4905059215619231, 0.25, ...`, all doubles of `[0,1)`, the exact product of the
first two draws is below `exp(-1)`, so the least index with `u_0 * ... * u_r < exp(-1)`
is `1`; the product computed by the code rounds up to `exp(-1)` itself, the loop takes
a third draw and `get_poisson(1, 1)` outputs `2`. -/
theorem get_poisson_exact_product_counterexample :
    (∀ k, roll_brv_outcome (knuth_stream k)) ∧
    Double.exp (fun _ => exp_minus_one) ((-1 : Int) : ℚ) = exp_minus_one ∧
    exp_minus_one ≤ knuth_stream 0 ∧
    knuth_stream 0 * knuth_stream 1 < exp_minus_one ∧
    get_poisson (fun _ => exp_minus_one) 1 1 knuth_stream 4 = some (.ok [2]) := by
  refine ⟨?_, ?_, ?_, ?_, ?_⟩
  · intro k
    unfold roll_brv_outcome knuth_stream
    by_cases h0 : k = 0
    · rw [if_pos h0]
      exact ⟨binary64_of_dyadic 3 (-2) (by norm_num) _ (by norm_num), by norm_num, by norm_num⟩
    · rw [if_neg h0]
      by_cases h1 : k = 1
      · rw [if_pos h1]
        exact ⟨binary64_of_dyadic 4418084571138597 (-53) (by norm_num) _ (by norm_num),
          by norm_num, by norm_num⟩
      · rw [if_neg h1]
        exact ⟨binary64_of_dyadic 1 (-2) (by norm_num) _ (by norm_num), by norm_num,
          by norm_num⟩
  · unfold Double.exp
    rw [if_neg (by norm_num)]
  · unfold knuth_stream exp_minus_one; norm_num
  · unfold knuth_stream exp_minus_one; norm_num
  · unfold get_poisson
    rw [get_poisson_run_knuth_stream]

/-- C12, amended: whenever `get_poisson(lambda, size)` returns (each `while` loop stops,
within the fuel and with its counter in the range of `int`), every output `r` is the
Knuth count of the running product as the code computes it, `P_0 = u_s` and
`P_(j+1) = binary64_gradual (P_j * u_(s+j+1))` with `s` the index of the first draw of this
output: `r ≥ 0` is the least index with `P_r < exp(-lambda)`, `P_j ≥ exp(-lambda)` for
every `j < r`, the output takes the `r + 1` draws that follow those of the outputs
before it, and the run has consumed the draws of all its outputs. -/
theorem get_poisson_knuth (ex : ℚ → ℚ) (lambda size : Int) (draws : Nat → ℚ) (fuel : Nat)
    (st : SamplerState)
    (h : get_poisson_run ex lambda size draws fuel = some (.ok st)) :
    get_poisson ex lambda size draws fuel = some (.ok st.res) ∧
    st.res.length = size.toNat ∧
    st.pos = draws_before st.res size.toNat ∧
    ∀ i, i < size.toNat → ∃ r : Nat, st.res[i]? = some (r : Int) ∧
      draws_before st.res (i + 1) = draws_before st.res i + (r + 1) ∧
      running_product draws (draws_before st.res i) r < Double.exp ex ((-lambda : Int) : ℚ) ∧
      ∀ j, j < r →
        Double.exp ex ((-lambda : Int) : ℚ) ≤ running_product draws (draws_before st.res i) j := by
  have hg : get_poisson ex lambda size draws fuel = some (.ok st.res) := by
    unfold get_poisson; rw [h]
  unfold get_poisson_run at h
  cases hv : vector_fill size (0 : Int) with
  | error e => rw [hv] at h; simp at h
  | ok res =>
    rw [hv] at h
    simp only at h
    have hlen : res.length = size.toNat := by
      unfold vector_fill at hv
      split at hv
      · simp at hv
      · rw [← Except.ok.inj hv, List.length_replicate]
    have h0 : knuth_outputs (Double.exp ex ((-lambda : Int) : ℚ)) draws size.toNat 0 ⟨res, 0⟩ :=
      ⟨hlen, by simp [draws_before], fun t ht => absurd ht (Nat.not_lt_zero t)⟩
    have := get_poisson_loop_ok _ draws fuel size.toNat size.toNat 0 _ st h h0
    rw [Nat.zero_add] at this
    obtain ⟨h1, h2, h3⟩ := this
    refine ⟨hg, h1, h2, fun i hi => ?_⟩
    obtain ⟨r, hr, hlt, hge⟩ := h3 i hi
    refine ⟨r, hr, ?_, hlt, hge⟩
    unfold draws_before
    rw [List.take_succ, hr]
    simp

/-- C12, witness: the run of `get_poisson(1, 1)` on the draws `0.75, 0.4905059215619231,
0.25`. -/
theorem get_poisson_knuth_witness :
    get_poisson (fun _ => exp_minus_one) 1 1 knuth_stream 4 = some (.ok [2]) ∧
    ([2] : List Int).length = (1 : Int).toNat ∧
    3 = draws_before [2] (1 : Int).toNat ∧
    ∀ i, i < (1 : Int).toNat → ∃ r : Nat, ([2] : List Int)[i]? = some (r : Int) ∧
      draws_before [2] (i + 1) = draws_before [2] i + (r + 1) ∧
      running_product knuth_stream (draws_before [2] i) r <
        Double.exp (fun _ => exp_minus_one) ((-1 : Int) : ℚ) ∧
      ∀ j, j < r →
        Double.exp (fun _ => exp_minus_one) ((-1 : Int) : ℚ) ≤
          running_product knuth_stream (draws_before [2] i) j :=
  get_poisson_knuth (fun _ => exp_minus_one) 1 1 knuth_stream 4 ⟨[2], 3⟩
    get_poisson_run_knuth_stream

/-- C17: `get_poisson(1000, 1)` never returns.  The bound `exp(-1000)` is zero, every
product of draws from `[0,1)` is at least zero, and the `while` loop is still running
when any amount of fuel is spent, until its counter leaves the range of `int`. -/
theorem get_poisson_underflow_hangs (ex : ℚ → ℚ) (draws : Nat → {x : ℚ // 0 ≤ x ∧ x < 1})
    (fuel : Nat) :
    Double.exp ex ((-1000 : Int) : ℚ) = 0 ∧
    (get_poisson ex 1000 1 (fun k => (draws k).1) fuel = none ∨
      get_poisson ex 1000 1 (fun k => (draws k).1) fuel = some (.error .int_overflow)) :=
  ⟨by unfold Double.exp; rw [if_pos (by norm_num)],
    get_poisson_hangs ex 1000 1 (by norm_num) (by norm_num) _ (fun k => (draws k).2.1) fuel⟩

/-- C11, counterexample: two inputs with `p` and the draw in `(0,1)`.  For `p = 2^-60`
and `u = 0.5` the double `1 - p` is `1`, `log(1)` is zero, the quotient is not finite
and `get_geometric` has no integer to return, whatever the library logarithm.  For
`p = 0.7` and `u = 0.09000000000000001` the double `1 - p` is exact, the two library
logarithms are `-2.407945608651872` and `-1.203972804325936`, their quotient is `2.0`
and `get_geometric` returns `k = 2`, but `(1-p)^2 > u`: the least `k` with
`(1-p)^k ≤ u` is `3`. -/
theorem get_geometric_bracket_counterexample :
    (((0 : ℚ) < 1 / 2 ^ 60 ∧ (1 / 2 ^ 60 : ℚ) < 1 ∧ binary64 (1 / 2 ^ 60) = 1 / 2 ^ 60) ∧
      ((0 : ℚ) < 1 / 2 ∧ (1 / 2 : ℚ) < 1 ∧ roll_brv_outcome (1 / 2)) ∧
      ∀ ln : ℚ → ℚ,
        get_geometric ln (1 / 2 ^ 60) 1 (fun _ => 1 / 2) = .error .bad_conversion) ∧
    ((0 < sample_p ∧ sample_p < 1 ∧ binary64 sample_p = sample_p ∧
        binary64 (1 - sample_p) = 1 - sample_p) ∧
      (0 < sample_draw ∧ roll_brv_outcome sample_draw) ∧
      sample_log sample_draw = -169444108528953 / 70368744177664 ∧
      sample_log (1 - sample_p) = -169444108528953 / 140737488355328 ∧
      get_geometric sample_log sample_p 1 (fun _ => sample_draw) = .ok [2] ∧
      sample_draw < (1 - sample_p) ^ 2 ∧ (1 - sample_p) ^ 3 ≤ sample_draw) := by
  refine ⟨⟨⟨by norm_num, by norm_num,
      binary64_of_dyadic 1 (-60) (by norm_num) _ (by norm_num)⟩,
    ⟨by norm_num, by norm_num,
      binary64_of_dyadic 1 (-1) (by norm_num) _ (by norm_num), by norm_num, by norm_num⟩,
    fun ln => get_geometric_log_zero ln _ 1 _ (le_refl 1) binary64_one_minus_tiny
      (by norm_num) (by norm_num)⟩, ?_⟩
  refine ⟨⟨by unfold sample_p; norm_num, by unfold sample_p; norm_num,
      binary64_of_dyadic 3152519739159347 (-52) (by norm_num) _ (by unfold sample_p; norm_num),
      binary64_of_dyadic 1351079888211149 (-52) (by norm_num) _ (by unfold sample_p; norm_num)⟩,
    ⟨by unfold sample_draw; norm_num,
      binary64_of_dyadic 6485183463413515 (-56) (by norm_num) _
        (by unfold sample_draw; norm_num),
      by unfold sample_draw; norm_num, by unfold sample_draw; norm_num⟩,
    by unfold sample_log; rw [if_pos rfl],
    by unfold sample_log sample_draw sample_p; rw [if_neg (by norm_num)],
    get_geometric_sample,
    by unfold sample_draw sample_p; norm_num, by unfold sample_draw sample_p; norm_num⟩

/-- C11, amended: let `p` and the draws be in `(0,1)` and `a` be the double `1 - p`.
For `p < 2^-54`, and whenever `a = 1`, `log(a)` is zero and `get_geometric` returns no
integer.  When `a < 1`, the library logarithm has a relative error of at most `ε < 1`
at `a` and at every draw, and the rounded quotients `tmp = log(u) / log(a)` are at most
`2^31 - 1`, `get_geometric` returns `k = ceil(tmp)` for each draw `u`, with `k ≥ 1` and
`a^(k c_up) ≤ u < a^((k-1) c_down)`, where `c_up = (1+ε)/((1-ε)(1-2^-53))` and
`c_down = (1-ε)/((1+ε)(1+2^-53))`; and whenever the exact quotient `ln u / ln a` lies in
`((K-1) c_up, K c_down]` for an integer `K`, then `k = K`, `a^k ≤ u < a^(k-1)` and `k`
is the least integer with `a^k ≤ u`. -/
theorem get_geometric_inverse_cdf (ln : ℚ → ℚ) (p ε : ℚ) (size : Int) (draws : Nat → ℚ)
    (hsize : 0 ≤ size) (hp0 : 0 < p) (hp1 : p < 1) (hε0 : 0 ≤ ε) (hε1 : ε < 1)
    (hu : ∀ i, i < size.toNat → 0 < draws i ∧ draws i < 1) :
    (p < 1 / 2 ^ 54 → binary64 (1 - p) = 1) ∧
    binary64 (1 - p) ≤ 1 ∧
    (binary64 (1 - p) = 1 → 1 ≤ size →
      get_geometric ln p size draws = .error .bad_conversion) ∧
    (binary64 (1 - p) < 1 →
      |((ln (binary64 (1 - p)) : ℚ) : ℝ) - Real.log ((binary64 (1 - p) : ℚ) : ℝ)| ≤
        (ε : ℝ) * |Real.log ((binary64 (1 - p) : ℚ) : ℝ)| →
      (∀ i, i < size.toNat →
        |((ln (draws i) : ℚ) : ℝ) - Real.log (draws i : ℝ)| ≤
          (ε : ℝ) * |Real.log (draws i : ℝ)| ∧
        binary64 (ln (draws i) / ln (binary64 (1 - p))) ≤ 2 ^ 31 - 1) →
      get_geometric ln p size draws =
        .ok ((List.range size.toNat).map fun i => geometric_outcome ln p (draws i)) ∧
      ∀ i, i < size.toNat →
        1 ≤ geometric_outcome ln p (draws i) ∧
        ((binary64 (1 - p) : ℚ) : ℝ) ^
            ((geometric_outcome ln p (draws i) : ℝ) * ((tolerance_up ε : ℚ) : ℝ)) ≤
          (draws i : ℝ) ∧
        (draws i : ℝ) < ((binary64 (1 - p) : ℚ) : ℝ) ^
            (((geometric_outcome ln p (draws i) : ℝ) - 1) * ((tolerance_down ε : ℚ) : ℝ)) ∧
        ∀ K : ℤ,
          ((K : ℝ) - 1) * ((tolerance_up ε : ℚ) : ℝ) <
            Real.log (draws i : ℝ) / Real.log ((binary64 (1 - p) : ℚ) : ℝ) →
          Real.log (draws i : ℝ) / Real.log ((binary64 (1 - p) : ℚ) : ℝ) ≤
            (K : ℝ) * ((tolerance_down ε : ℚ) : ℝ) →
          geometric_outcome ln p (draws i) = K ∧
          ((binary64 (1 - p) : ℚ) : ℝ) ^ K ≤ (draws i : ℝ) ∧
          (draws i : ℝ) < ((binary64 (1 - p) : ℚ) : ℝ) ^ (K - 1) ∧
          ∀ j : ℤ, ((binary64 (1 - p) : ℚ) : ℝ) ^ j ≤ (draws i : ℝ) → K ≤ j) := by
  have hq0 : 0 < binary64 (1 - p) := binary64_pos (by linarith)
  refine ⟨binary64_one_minus_small p hp0, (binary64_unit (1 - p) (by linarith)
    (by linarith)).2, ?_, ?_⟩
  · intro h1 hs
    obtain ⟨h0, h01⟩ := hu 0 (by omega)
    exact get_geometric_log_zero ln p size draws hs h1 h0 h01
  · intro hq1 hD hL
    have hDn : ln (binary64 (1 - p)) < 0 := by
      have ha0 : (0 : ℝ) < ((binary64 (1 - p) : ℚ) : ℝ) := by exact_mod_cast hq0
      have ha1 : ((binary64 (1 - p) : ℚ) : ℝ) < 1 := by exact_mod_cast hq1
      have := library_log_neg (Real.log_neg ha0 ha1) (by exact_mod_cast hε1) hD
      exact_mod_cast this
    have htol : ∀ i, i < size.toNat → _ := fun i hi =>
      geometric_outcome_tolerance ln p (draws i) ε hq0 hq1 (hu i hi).1 (hu i hi).2 hε0 hε1
        hD (hL i hi).1
    refine ⟨get_geometric_regular ln p size draws hsize hq0 hq1 hDn
      (fun i hi => ⟨(hu i hi).1, (hu i hi).2, (htol i hi).2.1, (hL i hi).2⟩), ?_⟩
    intro i hi
    obtain ⟨-, hLn, t1, t2⟩ := htol i hi
    have ha0 : (0 : ℝ) < ((binary64 (1 - p) : ℚ) : ℝ) := by exact_mod_cast hq0
    have ha1 : ((binary64 (1 - p) : ℚ) : ℝ) < 1 := by exact_mod_cast hq1
    have hu0r : (0 : ℝ) < (draws i : ℝ) := by exact_mod_cast (hu i hi).1
    have hu1r : (draws i : ℝ) < 1 := by exact_mod_cast (hu i hi).2
    obtain ⟨c1, c2, c3⟩ := tolerance_order ε hε0 hε1
    have c1r : (0 : ℝ) < ((tolerance_down ε : ℚ) : ℝ) := by exact_mod_cast c1
    have c2r : ((tolerance_down ε : ℚ) : ℝ) ≤ 1 := by exact_mod_cast c2
    have c3r : (1 : ℝ) ≤ ((tolerance_up ε : ℚ) : ℝ) := by exact_mod_cast c3
    refine ⟨(get_geometric_step_regular ln p draws i (List.replicate (i + 1) 0)
      (by rw [List.length_replicate]; omega) hq0 hq1 hDn (hu i hi).1 (hu i hi).2 hLn
      (hL i hi).2).2, ?_, ?_, ?_⟩
    · exact (rpow_le_iff_quotient_le _ _ _ ha0 ha1 hu0r).mpr t2
    · exact (lt_rpow_iff_lt_quotient _ _ _ ha0 ha1 hu0r).mpr t1
    · intro K hK1 hK2
      exact geometric_outcome_exact _ _ _ _ _ _ K ha0 ha1 hu0r hu1r rfl c1r c2r c3r t1 t2
        hK1 hK2

/-- C11, witness: `p = 0.5`, two draws `0.5`, a logarithm that is `-0.6931471805`
there and the tolerance `10^-9`. -/
theorem get_geometric_inverse_cdf_witness :
    get_geometric (fun _ => -6931471805 / 10000000000) (1 / 2) 2 (fun _ => 1 / 2) =
      .ok ((List.range (2 : Int).toNat).map fun _ =>
        geometric_outcome (fun _ => -6931471805 / 10000000000) (1 / 2) (1 / 2)) ∧
    1 ≤ geometric_outcome (fun _ => -6931471805 / 10000000000) (1 / 2) (1 / 2) := by
  have hb : binary64 (1 - 1 / 2) = 1 / 2 := by
    rw [binary64_of_dyadic 1 (-1) (by norm_num) _ (by norm_num)]; norm_num
  have hlog : Real.log ((1 / 2 : ℚ) : ℝ) = -Real.log 2 := by
    push_cast
    rw [one_div, Real.log_inv]
  have hacc : |((-6931471805 / 10000000000 : ℚ) : ℝ) - Real.log ((1 / 2 : ℚ) : ℝ)| ≤
      ((1 / 1000000000 : ℚ) : ℝ) * |Real.log ((1 / 2 : ℚ) : ℝ)| := by
    rw [hlog, abs_neg, abs_of_pos (Real.log_pos (by norm_num))]
    have h1 := Real.log_two_gt_d9
    have h2 := Real.log_two_lt_d9
    push_cast
    rw [abs_le]
    constructor <;> linarith
  have h := get_geometric_inverse_cdf (fun _ => -6931471805 / 10000000000) (1 / 2)
    (1 / 1000000000) 2 (fun _ => 1 / 2) (by norm_num) (by norm_num) (by norm_num)
    (by norm_num) (by norm_num) (fun _ _ => ⟨by norm_num, by norm_num⟩)
  have h4 := h.2.2.2 (by rw [hb]; norm_num) (by rw [hb]; exact hacc)
    (fun i _ => ⟨hacc, by
      rw [show ((-6931471805 / 10000000000 : ℚ) / (-6931471805 / 10000000000)) = 1 by norm_num,
        binary64_one]
      norm_num⟩)
  exact ⟨h4.1, (h4.2 0 (by decide)).1⟩

/-- C14, counterexample: for the sample `0, 0, 0, 1` (`m = 4`, `cm2 = 3/16`) the
expression `(cm4/cm2^2 - 3 + 6/(m+1)) * (m-1)/(m-2) * (m+1)/(m-3)` is `4`, and
`kurtosis_unbiased` returns the double `4.000000000000001`; the powers met in the run
are doubles, which `pow` returns as they are. -/
theorem kurtosis_unbiased_rounded_counterexample :
    sample_central_moment [0, 0, 0, 1] 2 = 3 / 16 ∧
    kurtosis_formula (sample_central_moment [0, 0, 0, 1] 2)
      (sample_central_moment [0, 0, 0, 1] 4) 4 = 4 ∧
    Moments.kurtosis_unbiased binary64 (fun x n => x ^ n) [0, 0, 0, 1] =
      .ok (4503599627370497 / 1125899906842624) ∧
    (4503599627370497 / 1125899906842624 : ℚ) ≠ 4 := by
  refine ⟨by norm_num [sample_central_moment, sample_mean],
    by norm_num [kurtosis_formula, sample_central_moment, sample_mean], ?_, by norm_num⟩
  unfold Moments.kurtosis_unbiased
  rw [central_moment_2_binary64_sample, central_moment_4_binary64_sample]
  exact kurtosis_unbiased_value_binary64_sample

/-- C14, amended: in exact arithmetic (no rounding of the double operations, exact
`pow`), for every integer sample of size `4 ≤ m < 2^64 - 1` with non-zero second central moment,
`kurtosis_unbiased` returns `(cm4/cm2^2 - 3 + 6/(m+1)) * (m-1)/(m-2) * (m+1)/(m-3)`
with `cm_k = sum((x - mean)^k)/m`, and this equals
`G2 = (m-1)/((m-2)(m-3)) * ((m+1)*(cm4/cm2^2 - 3) + 6)`.  In double arithmetic, for
every library `pow`, `m < 2^53 - 1` and with `cm2 ≠ 0`, `cm4` the doubles returned by
`central_moment`,
`kurtosis_unbiased` returns a double within
`2^-49 * (|cm4/cm2^2| + 3 + 6/(m+1)) * (m-1)/(m-2) * (m+1)/(m-3)` of the expression at
these moments. -/
theorem kurtosis_unbiased_formula (elements : List Int) (hm : 4 ≤ elements.length)
    (hm64 : elements.length + 1 < 2 ^ 64) (hc : sample_central_moment elements 2 ≠ 0) :
    Moments.kurtosis_unbiased id (fun x n => x ^ n) elements =
      .ok (kurtosis_formula (sample_central_moment elements 2)
        (sample_central_moment elements 4) elements.length) ∧
    kurtosis_formula (sample_central_moment elements 2) (sample_central_moment elements 4)
        elements.length =
      excess_kurtosis_G2 (sample_central_moment elements 2) (sample_central_moment elements 4)
        elements.length ∧
    ∀ (pw : ℚ → Nat → ℚ) (cm2 cm4 : ℚ),
      Moments.central_moment binary64 pw elements 2 = .ok cm2 →
      Moments.central_moment binary64 pw elements 4 = .ok cm4 → cm2 ≠ 0 →
      elements.length + 1 < 2 ^ 53 →
      ∃ v, Moments.kurtosis_unbiased binary64 pw elements = .ok v ∧
        |v - kurtosis_formula cm2 cm4 elements.length| ≤
          (|cm4 / cm2 ^ 2| + 3 + 6 / ((elements.length : ℚ) + 1)) *
            (((elements.length : ℚ) - 1) / ((elements.length : ℚ) - 2)) *
            (((elements.length : ℚ) + 1) / ((elements.length : ℚ) - 3)) / 2 ^ 49 := by
  have hm4 : (4 : ℚ) ≤ elements.length := by exact_mod_cast hm
  refine ⟨?_, ?_, ?_⟩
  · unfold Moments.kurtosis_unbiased
    rw [central_moment_exact elements 2 (by omega), central_moment_exact elements 4 (by omega)]
    exact kurtosis_unbiased_value_exact _ _ _ hc hm hm64
  · exact kurtosis_formula_eq_G2 _ _ _ (by linarith) (by linarith) (by linarith)
  · intro pw cm2 cm4 h2 h4 hne h53
    unfold Moments.kurtosis_unbiased
    rw [h2, h4]
    exact kurtosis_unbiased_value_close cm2 cm4 _ hne hm h53

/-- C14, witness: the sample `0, 0, 0, 1`. -/
theorem kurtosis_unbiased_formula_witness :
    Moments.kurtosis_unbiased id (fun x n => x ^ n) [0, 0, 0, 1] =
      .ok (kurtosis_formula (sample_central_moment [0, 0, 0, 1] 2)
        (sample_central_moment [0, 0, 0, 1] 4) ([0, 0, 0, 1] : List Int).length) ∧
    kurtosis_formula (sample_central_moment [0, 0, 0, 1] 2)
        (sample_central_moment [0, 0, 0, 1] 4) ([0, 0, 0, 1] : List Int).length =
      excess_kurtosis_G2 (sample_central_moment [0, 0, 0, 1] 2)
        (sample_central_moment [0, 0, 0, 1] 4) ([0, 0, 0, 1] : List Int).length :=
  ⟨(kurtosis_unbiased_formula [0, 0, 0, 1] (by decide) (by norm_num)
      (by norm_num [sample_central_moment, sample_mean])).1,
    (kurtosis_unbiased_formula [0, 0, 0, 1] (by decide) (by norm_num)
      (by norm_num [sample_central_moment, sample_mean])).2.1⟩

/-- C15, counterexample: for the sample `0, 0, 2, 2` (`m = 4`, `c2 = 1`) the sum
`sum((x - mean)^2) / (m - 1)` is `4/3`, and `variance_unbiased` returns the double
`1.3333333333333333`, which differs from `c2` by less than `c2 / (m - 1)`; the powers
met in the run are doubles, which `pow` returns as they are. -/
theorem variance_unbiased_rounded_counterexample :
    Moments.central_moment binary64 (fun x n => x ^ n) [0, 0, 2, 2] 2 = .ok 1 ∧
    Moments.variance_unbiased binary64 (fun x n => x ^ n) [0, 0, 2, 2] =
      .ok (6004799503160661 / 4503599627370496) ∧
    (6004799503160661 / 4503599627370496 : ℚ) - 1 < 1 / (4 - 1) ∧
    (([0, 0, 2, 2] : List Int).map fun (x : Int) =>
      ((x : ℚ) - sample_mean [0, 0, 2, 2]) ^ 2).sum / (4 - 1) = 4 / 3 := by
  refine ⟨central_moment_2_binary64_pairs, ?_, by norm_num, by norm_num [sample_mean]⟩
  have b4 : binary64 4 = 4 := binary64_of_dyadic 1 2 (by norm_num) _ (by norm_num)
  have b43 : binary64 (4 / 3) = 6004799503160661 / 4503599627370496 := by
    rw [binary64_eval 6004799503160661 (-52)] <;> norm_num
  unfold Moments.variance_unbiased Moments.central_moment_2_unbiased
  rw [central_moment_2_binary64_pairs]
  simp only [bind, Except.bind]
  unfold central_moment_2_unbiased_value to_int
  norm_num [b4, b43]

/-- C15, amended: in exact arithmetic (exact `pow` included) the bias terms vanish as
the sample size grows.
For fixed `c2 ≠ 0` and `c4`: the value of `variance_unbiased` for `m ≥ 2` is
`c2 * m / (m - 1)`, it differs from `c2` by exactly `c2 / (m - 1)` and tends to `c2`;
on a sample of `2 ≤ m < 2^31` elements it is `sum((x - mean)^2) / (m - 1)`; the value
of `kurtosis_unbiased` for `4 ≤ m < 2^64 - 1` is
`(c4/c2^2 - 3 + 6/(m+1)) * (m-1)/(m-2) * (m+1)/(m-3)`, which tends to `c4/c2^2 - 3`.
In double arithmetic the value of `variance_unbiased` is within a relative error
`2^-51` of `c2 * m / (m - 1)`, and that of `kurtosis_unbiased`, for `m < 2^53 - 1`,
within `2^-49 * (|c4/c2^2| + 3 + 6/(m+1)) * (m-1)/(m-2) * (m+1)/(m-3)` of its
expression. -/
theorem bias_terms_vanish (c2 c4 : ℚ) (hc : c2 ≠ 0) :
    (∀ m : Nat, 2 ≤ m →
      central_moment_2_unbiased_value id c2 (m : Int) = .ok (c2 * m / ((m : ℚ) - 1)) ∧
      c2 * m / ((m : ℚ) - 1) - c2 = c2 / ((m : ℚ) - 1)) ∧
    Filter.Tendsto (fun m : Nat => c2 * (m : ℚ) / ((m : ℚ) - 1)) Filter.atTop (nhds c2) ∧
    (∀ elements : List Int, 2 ≤ elements.length → elements.length < 2 ^ 31 →
      Moments.variance_unbiased id (fun x n => x ^ n) elements =
        .ok ((elements.map fun (x : Int) => ((x : ℚ) - sample_mean elements) ^ 2).sum /
          ((elements.length : ℚ) - 1))) ∧
    (∀ m : Nat, 4 ≤ m → m + 1 < 2 ^ 64 →
      kurtosis_unbiased_value id c2 c4 m = .ok (kurtosis_formula c2 c4 m)) ∧
    Filter.Tendsto (fun m : Nat => kurtosis_formula c2 c4 (m : ℚ)) Filter.atTop
      (nhds (c4 / c2 ^ 2 - 3)) ∧
    (∀ m : Nat, 2 ≤ m →
      ∃ v, central_moment_2_unbiased_value binary64 c2 (m : Int) = .ok v ∧
        |v - c2 * m / ((m : ℚ) - 1)| ≤ |c2 * m / ((m : ℚ) - 1)| / 2 ^ 51) ∧
    (∀ m : Nat, 4 ≤ m → m + 1 < 2 ^ 53 →
      ∃ v, kurtosis_unbiased_value binary64 c2 c4 m = .ok v ∧
        |v - kurtosis_formula c2 c4 m| ≤
          (|c4 / c2 ^ 2| + 3 + 6 / ((m : ℚ) + 1)) * (((m : ℚ) - 1) / ((m : ℚ) - 2)) *
            (((m : ℚ) + 1) / ((m : ℚ) - 3)) / 2 ^ 49) := by
  refine ⟨fun m hm => ⟨central_moment_2_unbiased_value_exact c2 m hm, ?_⟩,
    variance_value_tendsto c2, variance_unbiased_exact,
    fun m hm hm64 => kurtosis_unbiased_value_exact c2 c4 m hc hm hm64,
    kurtosis_formula_tendsto c2 c4,
    fun m hm => central_moment_2_unbiased_value_close c2 m hm,
    fun m hm hm53 => kurtosis_unbiased_value_close c2 c4 m hc hm hm53⟩
  have hm2 : (2 : ℚ) ≤ m := by exact_mod_cast hm
  have : (m : ℚ) - 1 ≠ 0 := by linarith
  field_simp
  ring

/-- C15, witness: `c2 = 1`, `c4 = 2`. -/
theorem bias_terms_vanish_witness :
    (1 : ℚ) ≠ 0 ∧
    Filter.Tendsto (fun m : Nat => (1 : ℚ) * (m : ℚ) / ((m : ℚ) - 1)) Filter.atTop (nhds 1) ∧
    Filter.Tendsto (fun m : Nat => kurtosis_formula 1 2 (m : ℚ)) Filter.atTop
      (nhds (2 / 1 ^ 2 - 3)) :=
  ⟨one_ne_zero, (bias_terms_vanish 1 2 one_ne_zero).2.1,
    (bias_terms_vanish 1 2 one_ne_zero).2.2.2.2.1⟩

end Lab
